import Mathlib

/-!
# Tiny C Preprocessor (`prep.c`): a shallow embedding

The C program keeps its tokens, used-macro sets and environments in heap
records linked by pointers and rewrites those links in place.  The embedding
keeps that: every heap is a list of records, a pointer is a position in that
list plus one, and `0` is `NULL`.  A `char *` is a block of the character
memory together with an offset.  Each C function becomes a state-passing
function of the same name; loops and recursion take a step budget (`fuel`).

Outcomes that the C program cannot return normally are values of `Err`:
`exit` for `exit(EXIT_FAILURE)` after a diagnostic, `undef` for behaviour the
C standard leaves undefined (a `NULL` dereference, a read past a buffer,
division by zero), and `fuel` for an exhausted step budget.
-/

namespace Prep

/-! ## Data model -/

/-- The enum `Kind` of `prep.c`. -/
inductive Kind
  | TK_SPACES
  | TK_NEWLINE
  | TK_DIRECTIVE
  | TK_IDENT
  | TK_NUM
  | TK_RESERVED
  | TK_CH
  | TK_LITERAL
  | TK_USR_SRC
  | TK_SYSTEM_SRC
  | TK_EOF
  deriving DecidableEq, Repr

/-- A pointer into one of the heaps: `0` is `NULL`, `k + 1` is record `k`. -/
abbrev Ptr := Nat

/-- A `char *`: a block of the character memory and an offset into it. -/
structure CPtr where
  blk : Nat
  off : Nat
  deriving DecidableEq, Repr

/-- The record `struct _Token`. -/
structure Token where
  id : Kind
  pos : CPtr
  len : Nat
  leadings : Ptr
  env : Ptr
  macro_org : Ptr
  used : Ptr
  next : Ptr
  deriving DecidableEq, Repr

/-- The record `struct _Macro`; `to_` is its field `to`.  The `next` link of the
C record is carried by the order of `State.macro_tab`. -/
structure Macro where
  key : List Char
  params : Ptr
  to_ : Ptr
  deriving DecidableEq, Repr

/-- The record `struct _UsedMacro`; `mac` is its field `macro`. -/
structure UsedMacro where
  mac : Ptr
  next : Ptr
  deriving DecidableEq, Repr

/-- The record `struct _Env`; `input` is the memory block of the file's text. -/
structure Env where
  path : List Char
  skips : Int
  input : Nat
  pos : CPtr
  cur : Ptr
  next : Ptr
  deriving DecidableEq, Repr

/-- The whole program state: the heaps, the file system the program reads, and
the globals `incdir`, `pos`, `cur`, `ocur`, `macro_org`, `env`, the macro list
(`macro_tab`, most recent first), `keyword`, and the static `preid` of
`token_next`. -/
structure State where
  mem : List (List Char)
  toks : List Token
  useds : List UsedMacro
  macros : List Macro
  envs : List Env
  files : List (List Char × List Char)
  incdir : List (List Char)
  pos : CPtr
  cur : Ptr
  ocur : Ptr
  macro_org : Ptr
  env : Ptr
  macro_tab : List Ptr
  keyword : List (List Char)
  preid : Kind
  warnings : Nat
  deriving DecidableEq, Repr

/-- The ways a run ends without returning. -/
inductive Err
  | exit (msg : String)
  | undef
  | fuel
  deriving DecidableEq, Repr

/-- The result of running a function on a state. -/
inductive Res (α : Type)
  | ok (a : α) (s : State)
  | err (e : Err)

/-- State-passing computations that may fail. -/
def M (α : Type) : Type := State → Res α

instance : Monad M where
  pure a := fun s => Res.ok a s
  bind m f := fun s =>
    match m s with
    | Res.ok a s1 => f a s1
    | Res.err e => Res.err e

def getState : M State := fun s => Res.ok s s

def setState (s : State) : M Unit := fun _ => Res.ok () s

def fail {α : Type} (e : Err) : M α := fun _ => Res.err e

/-! ## Heap access -/

/-- Read `*p` for a `Token *p`. -/
def tok (p : Ptr) : M Token := fun s =>
  match p with
  | 0 => Res.err Err.undef
  | k + 1 =>
    match s.toks[k]? with
    | some t => Res.ok t s
    | none => Res.err Err.undef

/-- Overwrite `*p` for a `Token *p`. -/
def setTok (p : Ptr) (t : Token) : M Unit := fun s =>
  match p with
  | 0 => Res.err Err.undef
  | k + 1 =>
    if k < s.toks.length then Res.ok () { s with toks := s.toks.set k t }
    else Res.err Err.undef

/-- Allocate a token record. -/
def allocTok (t : Token) : M Ptr := fun s =>
  Res.ok (s.toks.length + 1) { s with toks := s.toks ++ [t] }

def setNext (p : Ptr) (v : Ptr) : M Unit := do
  let t ← tok p
  setTok p { t with next := v }

def setLeadings (p : Ptr) (v : Ptr) : M Unit := do
  let t ← tok p
  setTok p { t with leadings := v }

def setUsed (p : Ptr) (v : Ptr) : M Unit := do
  let t ← tok p
  setTok p { t with used := v }

/-- Read `*u` for a `UsedMacro *u`. -/
def usedNode (u : Ptr) : M UsedMacro := fun s =>
  match u with
  | 0 => Res.err Err.undef
  | k + 1 =>
    match s.useds[k]? with
    | some n => Res.ok n s
    | none => Res.err Err.undef

def setUsedNode (u : Ptr) (n : UsedMacro) : M Unit := fun s =>
  match u with
  | 0 => Res.err Err.undef
  | k + 1 =>
    if k < s.useds.length then Res.ok () { s with useds := s.useds.set k n }
    else Res.err Err.undef

def allocUsed (n : UsedMacro) : M Ptr := fun s =>
  Res.ok (s.useds.length + 1) { s with useds := s.useds ++ [n] }

/-- Read `*m` for a `Macro *m`. -/
def macroAt (m : Ptr) : M Macro := fun s =>
  match m with
  | 0 => Res.err Err.undef
  | k + 1 =>
    match s.macros[k]? with
    | some r => Res.ok r s
    | none => Res.err Err.undef

/-- Read `*e` for an `Env *e`. -/
def envAt (e : Ptr) : M Env := fun s =>
  match e with
  | 0 => Res.err Err.undef
  | k + 1 =>
    match s.envs[k]? with
    | some r => Res.ok r s
    | none => Res.err Err.undef

def setEnv (e : Ptr) (r : Env) : M Unit := fun s =>
  match e with
  | 0 => Res.err Err.undef
  | k + 1 =>
    if k < s.envs.length then Res.ok () { s with envs := s.envs.set k r }
    else Res.err Err.undef

/-- Allocate a block of character memory holding `cs` (and its terminator). -/
def allocMem (cs : List Char) : M CPtr := fun s =>
  Res.ok { blk := s.mem.length, off := 0 } { s with mem := s.mem ++ [cs] }

/-! ## Characters and strings -/

/-- The terminator of a C string. -/
def NUL : Char := Char.ofNat 0

/-- The characters of a block from an offset to the block's end. -/
def restAt (s : State) (p : CPtr) : List Char :=
  (s.mem.getD p.blk []).drop p.off

/-- The character `*p`; the terminator at the end of a block. -/
def peek (s : State) (p : CPtr) : Char :=
  (restAt s p).headD NUL

/-- The `n` characters at `p`. -/
def slice (s : State) (p : CPtr) (n : Nat) : List Char :=
  (restAt s p).take n

/-- The function `scmp`: `len == strlen(s) && strncmp(p, s, len) == 0`. -/
def scmp (s : State) (p : CPtr) (len : Nat) (w : List Char) : Bool :=
  decide (len = w.length) && decide (slice s p len = w)

/-- The test `strncmp(pos, w, strlen(w)) == 0` on two-character words. -/
def startsWith (cs w : List Char) : Bool :=
  decide (cs.take w.length = w)

def isdigit (c : Char) : Bool :=
  decide (48 ≤ c.toNat) && decide (c.toNat ≤ 57)

def isalpha (c : Char) : Bool :=
  (decide (65 ≤ c.toNat) && decide (c.toNat ≤ 90)) ||
  (decide (97 ≤ c.toNat) && decide (c.toNat ≤ 122))

def isalnum (c : Char) : Bool :=
  isalpha c || isdigit c

/-! ## Keyword table -/

/-- The string literal that `keywords_init` walks. -/
def keyword_text : List Char :=
  ("include_next include define undef defined " ++
   "warinig error ifdef ifndef if else elif endif " ++
   ">> << == != <= >= -- ++ && || += -= %= /= *= ## ...").toList

/-- The loop of `keywords_init`: cut the text at blanks and put every word in
front of the list built so far.  `w` is the word being read, in reverse. -/
def keywords_loop : List Char → List Char → List (List Char) → List (List Char)
  | [], w, acc => w.reverse :: acc
  | c :: cs, w, acc =>
    if c = ' ' then keywords_loop cs [] (w.reverse :: acc)
    else keywords_loop cs (c :: w) acc

/-- The function `keywords_init`.  The C loop steps once past the terminator of
its string literal after the last word; the embedding stops there. -/
def keywords_init : M Unit := do
  let s ← getState
  setState { s with keyword := keywords_loop keyword_text [] s.keyword }

/-- The function `is_keyword`. -/
def is_keyword (s : State) (p : CPtr) (len : Nat) : Bool :=
  s.keyword.any (fun w => scmp s p len w)

/-! ## Lexer -/

/-- The function `token_new`: a token of kind `id` for the slice of `len`
characters at `ps`, owned by the current environment. -/
def token_new (id : Kind) (ps : CPtr) (len : Nat) : M Ptr := do
  let s ← getState
  allocTok { id := id, pos := ps, len := len, leadings := 0, env := s.env,
             macro_org := 0, used := 0, next := 0 }

/-- The function `token_stitch`. -/
def token_stitch (t : Ptr) (prev : Ptr) : M Ptr := do
  if prev = 0 then pure t
  else
    setNext prev t
    pure t

/-- The function `token_dup`. -/
def token_dup (src : Ptr) : M Ptr := do
  let t ← tok src
  allocTok t

/-- The function `token_instant`: a token whose text is the string `w`. -/
def token_instant (id : Kind) (w : List Char) : M Ptr := do
  let p ← allocMem w
  token_new id p w.length

/-- The loop of `token_concat`: append the slices of the tokens from `t` up to
`delim` to `acc`. -/
def token_concat_loop : Nat → Ptr → Ptr → List Char → M (List Char)
  | 0, _, _, _ => fail Err.fuel
  | fuel + 1, t, delim, acc => do
    if t = delim then pure acc
    else
      let r ← tok t
      let s ← getState
      token_concat_loop fuel r.next delim (acc ++ slice s r.pos r.len)

/-- The function `token_concat`: `dest` gets a fresh string made of its own
slice followed by the slices of the tokens up to `delim`, and `delim` as its
successor. -/
def token_concat (fuel : Nat) (dest : Ptr) (delim : Ptr) : M Unit := do
  let d ← tok dest
  let s ← getState
  let txt ← token_concat_loop fuel d.next delim (slice s d.pos d.len)
  let p ← allocMem txt
  let d1 ← tok dest
  setTok dest { d1 with pos := p, len := txt.length, next := delim }

/-- The number of characters the loop of `token_quoted` steps over: up to the
first `delim` that does not follow a backslash, or to the end of the text. -/
def quoted_len (delim : Char) : List Char → Bool → Nat
  | [], _ => 0
  | c :: cs, flg =>
    if c ≠ delim ∨ flg = true then 1 + quoted_len delim cs (decide (c = '\\'))
    else 0

/-- The function `token_quoted`, entered with `pos` after the opening quote. -/
def token_quoted (ps : CPtr) (delim : Char) : M Ptr := do
  let s ← getState
  let n := quoted_len delim (restAt s s.pos) false
  let stop : CPtr := { s.pos with off := s.pos.off + n }
  let t ← token_new (if delim = '\'' then Kind.TK_CH else Kind.TK_LITERAL) ps
    (stop.off - ps.off)
  let s1 ← getState
  setState { s1 with pos := { stop with off := stop.off + 1 } }
  if peek s1 stop = NUL then fail (Err.exit "No closing quote")
  else pure t

/-- The length of a `//` comment: up to the newline or the end of the text. -/
def line_comment_len : List Char → Nat
  | [] => 0
  | c :: cs => if c = '\n' then 0 else 1 + line_comment_len cs

/-- The number of characters before the first `*/`, if there is one. -/
def block_comment_len : List Char → Option Nat
  | [] => none
  | c :: cs =>
    if startsWith (c :: cs) ['*', '/'] then some 0
    else (block_comment_len cs).map (fun n => n + 1)

/-- The function `comments`.  A `/*` with no `*/` makes the C loop read past
the end of the text. -/
def comments : M Bool := do
  let s ← getState
  let cs := restAt s s.pos
  if startsWith cs ['/', '/'] then
    setState { s with pos := { s.pos with off := s.pos.off + line_comment_len cs } }
    pure true
  else if startsWith cs ['/', '*'] then
    match block_comment_len cs with
    | none => fail Err.undef
    | some n =>
      setState { s with pos := { s.pos with off := s.pos.off + n + 2 } }
      pure true
  else pure false

/-- The length of a run of blanks, tabs and backslash-newline pairs. -/
def spaces_len : List Char → Nat
  | [] => 0
  | [c] => if c = ' ' ∨ c = '\t' then 1 else 0
  | c :: d :: cs =>
    if c = ' ' ∨ c = '\t' then 1 + spaces_len (d :: cs)
    else if c = '\\' ∧ d = '\n' then 2 + spaces_len cs
    else 0

/-- The function `token_spaces`: `NULL` when no white space stands at `pos`. -/
def token_spaces : M Ptr := do
  let s ← getState
  let n := spaces_len (restAt s s.pos)
  if n = 0 then pure 0
  else
    setState { s with pos := { s.pos with off := s.pos.off + n } }
    token_new Kind.TK_SPACES s.pos n

/-- The length of a run of digits. -/
def digits_len : List Char → Nat
  | [] => 0
  | c :: cs => if isdigit c then 1 + digits_len cs else 0

/-- The length of a run of letters, digits and underscores. -/
def ident_len : List Char → Nat
  | [] => 0
  | c :: cs => if isalnum c ∨ c = '_' then 1 + ident_len cs else 0

/-- Finish `token_next`: attach the leading white space, remember the kind. -/
def token_emit (t : Ptr) (leadings : Ptr) : M Ptr := do
  setLeadings t leadings
  let r ← tok t
  let s ← getState
  setState { s with preid := r.id }
  pure t

/-- Allocate the token for the `n` characters at `pos` and step over them. -/
def token_take (id : Kind) (n : Nat) : M Ptr := do
  let s ← getState
  setState { s with pos := { s.pos with off := s.pos.off + n } }
  token_new id s.pos n

/-- The `while (*pos)` loop of `token_next`; `leadings` is the local of that
name. -/
def token_next_loop : Nat → Ptr → M Ptr
  | 0, _ => fail Err.fuel
  | fuel + 1, leadings => do
    let s ← getState
    let c := peek s s.pos
    if c = NUL then
      let t ← token_new Kind.TK_EOF s.pos 0
      token_emit t leadings
    else if (← comments) then token_next_loop fuel leadings
    else
      let sp ← token_spaces
      if sp ≠ 0 then token_next_loop fuel sp
      else
        let cs := restAt s s.pos
        if c = '#' ∧ (s.preid = Kind.TK_NEWLINE ∨ s.preid = Kind.TK_EOF) then
          let t ← token_take Kind.TK_DIRECTIVE 1
          token_emit t leadings
        else if c = '\n' then
          let t ← token_take Kind.TK_NEWLINE 1
          token_emit t leadings
        else if c = '"' then
          setState { s with pos := { s.pos with off := s.pos.off + 1 } }
          let t ← token_quoted { s.pos with off := s.pos.off + 1 } '"'
          token_emit t leadings
        else if c = '\'' then
          setState { s with pos := { s.pos with off := s.pos.off + 1 } }
          let t ← token_quoted { s.pos with off := s.pos.off + 1 } '\''
          token_emit t leadings
        else if isdigit c then
          let n := digits_len cs
          let d := (cs.drop n).headD NUL
          let t ← token_take Kind.TK_NUM (if d = 'L' ∨ d = 'F' then n + 1 else n)
          token_emit t leadings
        else if isalpha c ∨ c = '_' then
          let n := ident_len cs
          let t ← token_take
            (if is_keyword s s.pos n then Kind.TK_RESERVED else Kind.TK_IDENT) n
          token_emit t leadings
        else if is_keyword s s.pos 3 then
          let t ← token_take Kind.TK_RESERVED 3
          token_emit t leadings
        else if is_keyword s s.pos 2 then
          let t ← token_take Kind.TK_RESERVED 2
          token_emit t leadings
        else
          let t ← token_take Kind.TK_RESERVED 1
          token_emit t leadings

/-- The function `token_next`.  Every turn of its loop that does not return
steps over at least one character, so the characters left bound the turns. -/
def token_next : M Ptr := do
  let s ← getState
  token_next_loop ((restAt s s.pos).length + 1) 0

/-! ## Token utilities -/

/-- The function `token_cmp`: `t` is not `NULL`, is an identifier or a reserved
word, and its text is `w`. -/
def token_cmp (s : State) (t : Ptr) (w : List Char) : Bool :=
  match t with
  | 0 => false
  | k + 1 =>
    match s.toks[k]? with
    | some r =>
      (decide (r.id = Kind.TK_IDENT) || decide (r.id = Kind.TK_RESERVED)) &&
        scmp s r.pos r.len w
    | none => false

/-- The function `consume_any`. -/
def consume_any : M Ptr := do
  let s ← getState
  let t := s.cur
  let r ← tok t
  let n ← if r.next ≠ 0 then pure r.next else token_next
  let s1 ← getState
  setState { s1 with cur := n }
  pure t

/-- The function `consume`. -/
def consume (w : List Char) : M Ptr := do
  let s ← getState
  if token_cmp s s.cur w then consume_any else pure 0

/-- The function `consume_id`. -/
def consume_id (id : Kind) : M Ptr := do
  let s ← getState
  let r ← tok s.cur
  if r.id = id then consume_any else pure 0

/-- The function `expect`. -/
def expect (w : List Char) : M Ptr := do
  let t ← consume w
  if t = 0 then fail (Err.exit "Expected token") else pure t

/-- The function `expect_id`. -/
def expect_id (id : Kind) : M Ptr := do
  let t ← consume_id id
  if t = 0 then fail (Err.exit "Expected token id") else pure t

/-- The loop of `token_norm_args`, at token `t` with the depth counted so
far. -/
def token_norm_args_loop : Nat → Ptr → Int → M Unit
  | 0, _, _ => fail Err.fuel
  | fuel + 1, t, depth => do
    if t = 0 then pure ()
    else
      let s ← getState
      let r ← tok t
      let depth1 := depth + (if token_cmp s t ['('] then 1 else 0)
        - (if token_cmp s t [')'] then 1 else 0)
      if depth1 = 1 ∧
          ((token_cmp s t ['('] ∧ token_cmp s r.next [',']) ∨
           (token_cmp s t [','] ∧ token_cmp s r.next [')']) ∨
           (token_cmp s t [','] ∧ token_cmp s r.next [','])) then
        let n ← tok r.next
        let tt ← token_new Kind.TK_IDENT n.pos 0
        setNext tt r.next
        setNext t tt
      let r1 ← tok t
      token_norm_args_loop fuel r1.next depth1

/-- The function `token_norm_args`. -/
def token_norm_args (fuel : Nat) (ts : Ptr) : M Ptr := do
  token_norm_args_loop fuel ts 0
  pure ts

/-- The record `Token head = {0}` that several functions keep on their
stack. -/
def zeroToken : Token :=
  { id := Kind.TK_SPACES, pos := { blk := 0, off := 0 }, len := 0, leadings := 0,
    env := 0, macro_org := 0, used := 0, next := 0 }

/-- The loop of `consume_to_lnend`. -/
def consume_to_lnend_loop : Nat → Ptr → M Unit
  | 0, _ => fail Err.fuel
  | fuel + 1, t => do
    let nl ← consume_id Kind.TK_NEWLINE
    if nl ≠ 0 then pure ()
    else
      let c ← consume_any
      let t1 ← token_stitch c t
      consume_to_lnend_loop fuel t1

/-- The function `consume_to_lnend`. -/
def consume_to_lnend (fuel : Nat) : M Ptr := do
  let head ← allocTok zeroToken
  consume_to_lnend_loop fuel head
  let h ← tok head
  pure h.next

/-- The loop of `consume_func_args`. -/
def consume_func_args_loop : Nat → Ptr → Int → M Unit
  | 0, _, _ => fail Err.fuel
  | fuel + 1, t, depth => do
    let s ← getState
    let c ← tok s.cur
    if c.id = Kind.TK_EOF then pure ()
    else
      let a ← consume_any
      let t1 ← token_stitch a t
      let s1 ← getState
      let depth1 := depth + (if token_cmp s1 t1 ['('] then 1 else 0)
        - (if token_cmp s1 t1 [')'] then 1 else 0)
      if depth1 = 0 ∧ token_cmp s1 t1 [')'] then pure ()
      else consume_func_args_loop fuel t1 depth1

/-- The function `consume_func_args`. -/
def consume_func_args (fuel : Nat) : M Ptr := do
  let s ← getState
  let head := s.cur
  consume_func_args_loop fuel head 0
  token_norm_args fuel head

/-- The loop of `token_next_arg_delim`. -/
def token_next_arg_delim_loop : Nat → Ptr → Int → M Ptr
  | 0, _, _ => fail Err.fuel
  | fuel + 1, t, depth => do
    if t = 0 then pure t
    else
      let s ← getState
      let depth1 := depth + (if token_cmp s t ['('] then 1 else 0)
        - (if token_cmp s t [')'] then 1 else 0)
      if (depth1 = 0 ∧ token_cmp s t [',']) ∨ (depth1 < 0 ∧ token_cmp s t [')']) then
        pure t
      else
        let r ← tok t
        token_next_arg_delim_loop fuel r.next depth1

/-- The function `token_next_arg_delim`. -/
def token_next_arg_delim (fuel : Nat) (t : Ptr) : M Ptr :=
  token_next_arg_delim_loop fuel t 0

/-! ## Macro table -/

def allocMacro (m : Macro) : M Ptr := fun s =>
  Res.ok (s.macros.length + 1)
    { s with macros := s.macros ++ [m], macro_tab := (s.macros.length + 1) :: s.macro_tab }

def setMacroParams (m : Ptr) (v : Ptr) : M Unit := fun s =>
  match m with
  | 0 => Res.err Err.undef
  | k + 1 =>
    match s.macros[k]? with
    | some r => Res.ok () { s with macros := s.macros.set k { r with params := v } }
    | none => Res.err Err.undef

/-- The loop of `macro_add` over the parameter list.  The C variable
`Token **t` always points at the `next` field of a token; `owner` is that
token.  The result is the owner of the link that holds the closing `)`. -/
def macro_add_loop : Nat → Ptr → M Ptr
  | 0, _ => fail Err.fuel
  | fuel + 1, owner => do
    let o ← tok owner
    let s ← getState
    if token_cmp s o.next [')'] then pure owner
    else
      let v ← if token_cmp s o.next [','] then (do let c ← tok o.next; pure c.next)
        else pure o.next
      setNext owner v
      let r ← tok v
      if r.len = 0 then fail (Err.exit "Expected param name")
      else macro_add_loop fuel v

/-- The function `macro_add`. -/
def macro_add (fuel : Nat) (key : List Char) (params : Ptr) (to_ : Ptr) : M Unit := do
  let body ← if to_ ≠ 0 then token_norm_args fuel to_
    else token_instant Kind.TK_SPACES []
  let m ← allocMacro { key := key, params := 0, to_ := body }
  if params ≠ 0 then
    let owner ← macro_add_loop fuel params
    setNext owner 0
    let p ← tok params
    setMacroParams m p.next

/-- The test in the loop of `macro_get` for the macro record `r`. -/
def macro_match (s : State) (t0 : Token) (t1 : Ptr) (r : Macro) : Bool :=
  scmp s t0.pos t0.len r.key &&
    ((decide (r.params ≠ 0) && token_cmp s t1 ['(']) ||
     (decide (r.params = 0) && !token_cmp s t1 ['(']))

/-- The loop of `macro_get` over the macro list. -/
def macro_get_loop (s : State) (t0 : Token) (t1 : Ptr) : List Ptr → Ptr
  | [] => 0
  | m :: ms =>
    match s.macros[m - 1]? with
    | some r => if macro_match s t0 t1 r then m else macro_get_loop s t0 t1 ms
    | none => 0

/-- The function `macro_get`. -/
def macro_get (t0 : Ptr) (t1 : Ptr) : M Ptr := do
  let s ← getState
  match s.macro_tab with
  | [] => pure 0
  | _ :: _ =>
    let r ← tok t0
    pure (macro_get_loop s r t1 s.macro_tab)

/-- The loop of `macro_rm`: unlink the first macro whose key is the text of the
token. -/
def macro_rm_loop (s : State) (t : Token) : List Ptr → List Ptr
  | [] => []
  | m :: ms =>
    match s.macros[m - 1]? with
    | some r => if scmp s t.pos t.len r.key then ms else m :: macro_rm_loop s t ms
    | none => m :: ms

/-- The function `macro_rm`. -/
def macro_rm (t : Ptr) : M Unit := do
  let s ← getState
  match s.macro_tab with
  | [] => pure ()
  | _ :: _ =>
    let r ← tok t
    setState { s with macro_tab := macro_rm_loop s r s.macro_tab }

/-! ## Used-macro sets -/

/-- A `UsedMacro **`: the field `used` of a token or the field `next` of a
node. -/
inductive ULoc
  | ofTok (p : Ptr)
  | ofNode (u : Ptr)

def readULoc : ULoc → M Ptr
  | ULoc.ofTok p => do
    let t ← tok p
    pure t.used
  | ULoc.ofNode u => do
    let n ← usedNode u
    pure n.next

def writeULoc : ULoc → Ptr → M Unit
  | ULoc.ofTok p, v => setUsed p v
  | ULoc.ofNode u, v => do
    let n ← usedNode u
    setUsedNode u { n with next := v }

/-- The inner loop of `usedmacro_merge`: the first link from `ud` on that is
`NULL` or holds a node for the macro `m`. -/
def usedmacro_find : Nat → ULoc → Ptr → M ULoc
  | 0, _, _ => fail Err.fuel
  | fuel + 1, ud, m => do
    let u ← readULoc ud
    if u = 0 then pure ud
    else
      let n ← usedNode u
      if n.mac ≠ m then usedmacro_find fuel (ULoc.ofNode u) m
      else pure ud

/-- The outer loop of `usedmacro_merge`. -/
def usedmacro_merge_loop : Nat → ULoc → Ptr → M Unit
  | 0, _, _ => fail Err.fuel
  | fuel + 1, dest, ua => do
    if ua = 0 then pure ()
    else
      let a ← usedNode ua
      let ud ← usedmacro_find fuel dest a.mac
      let u ← readULoc ud
      if u ≠ 0 then usedmacro_merge_loop fuel dest a.next
      else
        writeULoc ud ua
        let a1 ← usedNode ua
        let v ← readULoc ud
        let n ← usedNode v
        setUsedNode v { n with next := 0 }
        usedmacro_merge_loop fuel dest a1.next

/-- The function `usedmacro_merge`. -/
def usedmacro_merge (fuel : Nat) (dest : ULoc) (add : Ptr) : M Unit :=
  usedmacro_merge_loop fuel dest add

/-! ## Expansion engine -/

/-- The function `token_stringify`. -/
def token_stringify (fuel : Nat) (dest : Ptr) (ts : Ptr) (delim : Ptr) : M Ptr := do
  token_concat fuel ts delim
  let t ← tok ts
  let sp ← token_instant Kind.TK_SPACES [' ']
  let d ← tok dest
  setTok dest { d with pos := t.pos, len := t.len, leadings := sp, id := Kind.TK_LITERAL }
  pure dest

/-- The locals `head` and `prev` of `expand_func`, which `taddr` may point
at. -/
structure Locals where
  head : Ptr
  prev : Ptr

/-- A `Token **` of `expand_func`: the address of the local `head`, of the
local `prev`, or of the field `next` of a token. -/
inductive Loc
  | head
  | prev
  | next (p : Ptr)

def readLoc (l : Locals) : Loc → M Ptr
  | Loc.head => pure l.head
  | Loc.prev => pure l.prev
  | Loc.next p => do
    let t ← tok p
    pure t.next

def writeLoc (l : Locals) : Loc → Ptr → M Locals
  | Loc.head, v => pure { l with head := v }
  | Loc.prev, v => pure { l with prev := v }
  | Loc.next p, v => do
    setNext p v
    pure l

/-- The loop of `token_replace_arg`; `used` is the used-macro set of the
replaced token. -/
def token_replace_arg_loop : Nat → Locals → Loc → Ptr → Ptr → Ptr → M (Locals × Loc)
  | 0, _, _, _, _, _ => fail Err.fuel
  | fuel + 1, l, taddr, t, delim, used => do
    if t = delim then pure (l, taddr)
    else
      let d ← token_dup t
      let l1 ← writeLoc l taddr d
      let c ← readLoc l1 taddr
      usedmacro_merge fuel (ULoc.ofTok c) used
      let c1 ← readLoc l1 taddr
      let r1 ← tok c1
      if r1.next = delim then pure (l1, taddr)
      else
        let r ← tok t
        token_replace_arg_loop fuel l1 (Loc.next c1) r.next delim used

/-- The function `token_replace_arg`: the token at `*taddr` is replaced by
copies of the tokens from `start` up to `delim`. -/
def token_replace_arg (fuel : Nat) (l : Locals) (taddr : Loc) (start : Ptr) (delim : Ptr) :
    M (Locals × Loc) := do
  let c ← readLoc l taddr
  let r ← tok c
  let st ← tok start
  setTok start { st with leadings := r.leadings }
  let (l1, taddr1) ← token_replace_arg_loop fuel l taddr start delim r.used
  let c1 ← readLoc l1 taddr1
  setNext c1 r.next
  pure (l1, taddr1)

/-- The loop of `token_skip_after_func`. -/
def token_skip_after_func_loop : Nat → Ptr → M Ptr
  | 0, _ => fail Err.fuel
  | fuel + 1, t => do
    let s ← getState
    if token_cmp s t [')'] then pure t
    else
      let r ← tok t
      let d ← token_next_arg_delim fuel r.next
      token_skip_after_func_loop fuel d

/-- The function `token_skip_after_func`: the token after the call that starts
at the name `t`. -/
def token_skip_after_func (fuel : Nat) (t : Ptr) : M Ptr := do
  let r ← tok t
  let e ← token_skip_after_func_loop fuel r.next
  let re ← tok e
  pure re.next

/-- The inner loop of `token_matched_arg`, with `k` turns left: it returns the
first token `ts` of the argument reached and the delimiter `*saddr` after
it. -/
def token_matched_arg_walk (fuel : Nat) : Nat → Ptr → Ptr → Ptr → M (Ptr × Ptr)
  | 0, _, ts, sd => pure (ts, sd)
  | k + 1, prev, _, _ => do
    let sd ← token_next_arg_delim fuel prev
    let r ← tok sd
    token_matched_arg_walk fuel k r.next prev sd

/-- The outer loop of `token_matched_arg` over the parameters `pm`. -/
def token_matched_arg_loop : Nat → Ptr → Ptr → Nat → Ptr → Ptr → M (Ptr × Ptr)
  | 0, _, _, _, _, _ => fail Err.fuel
  | fuel + 1, ag, pm, i, ts, sd => do
    if ag = 0 ∨ pm = 0 then pure (0, sd)
    else
      let a ← tok ag
      let p ← tok pm
      let s ← getState
      if a.len = p.len ∧ slice s a.pos p.len = slice s p.pos p.len then
        token_matched_arg_walk fuel (i + 1) ts ts sd
      else token_matched_arg_loop fuel ag p.next (i + 1) ts sd

/-- The function `token_matched_arg`.  `sd` is the value of `*saddr` on entry;
the result is the returned token and the value of `*saddr` on return. -/
def token_matched_arg (fuel : Nat) (ag : Ptr) (m : Ptr) (sd : Ptr) : M (Ptr × Ptr) := do
  let n ← tok sd
  let p ← tok n.next
  let r ← macroAt m
  token_matched_arg_loop fuel ag r.params 0 p.next sd

/-- The loop of `expand_def`. -/
def expand_def_loop : Nat → Ptr → Ptr → Ptr → Ptr → M Unit
  | 0, _, _, _, _ => fail Err.fuel
  | fuel + 1, m, used, prev, t => do
    if t = 0 then pure ()
    else
      let d ← token_dup t
      let u ← allocUsed { mac := m, next := used }
      setUsed d u
      let d1 ← token_stitch d prev
      let r ← tok d1
      expand_def_loop fuel m used d1 r.next

/-- The function `expand_def`: a copy of the replacement of `m`, every token
with a fresh used-macro node for `m` in front of `used`. -/
def expand_def (fuel : Nat) (m : Ptr) (used : Ptr) : M Ptr := do
  let head ← allocTok zeroToken
  let r ← macroAt m
  expand_def_loop fuel m used head r.to_
  let h ← tok head
  pure h.next

/-- The loop of `expand_recursive_list`; `rec` is `expand_recursive`. -/
def expand_recursive_list_loop (rec : Ptr → M (Ptr × Ptr)) : Nat → Ptr → Ptr → M Ptr
  | 0, _, _ => fail Err.fuel
  | fuel + 1, prev, t => do
    if t = 0 then pure t
    else
      let (r, t1) ← rec t
      let _ ← token_stitch r prev
      let c ← tok t1
      if c.next = 0 then pure t1
      else expand_recursive_list_loop rec fuel t1 c.next

/-- The function `expand_recursive_list`: the returned chain and the value of
`*taddr` on return. -/
def expand_recursive_list (rec : Ptr → M (Ptr × Ptr)) (fuel : Nat) (t : Ptr) :
    M (Ptr × Ptr) := do
  let head ← allocTok zeroToken
  let t1 ← expand_recursive_list_loop rec fuel head t
  let h ← tok head
  pure (h.next, t1)

/-- The first loop of `expand_func`: expand the arguments in place. -/
def expand_func_args (rec : Ptr → M (Ptr × Ptr)) : Nat → Ptr → Ptr → Ptr → M Unit
  | 0, _, _, _ => fail Err.fuel
  | fuel + 1, prev, t, te => do
    if t = te then pure ()
    else
      let (r, t1) ← rec t
      let _ ← token_stitch r prev
      let c ← tok t1
      expand_func_args rec fuel t1 c.next te

/-- The loop `while (!token_cmp(tdelim, ")")) tdelim = tdelim->next;`. -/
def va_args_delim : Nat → Ptr → M Ptr
  | 0, _ => fail Err.fuel
  | fuel + 1, tdelim => do
    let s ← getState
    if token_cmp s tdelim [')'] then pure tdelim
    else
      let r ← tok tdelim
      va_args_delim fuel r.next

/-- The second loop of `expand_func`: substitute the parameters in the copy of
the replacement.  `sd` is the value of `*saddr`, the name of the call. -/
def expand_func_subst : Nat → Ptr → Ptr → Locals → Loc → M Locals
  | 0, _, _, _, _ => fail Err.fuel
  | fuel + 1, sd, m, l, taddr => do
    let c ← readLoc l taddr
    if c = 0 then pure l
    else
      let s ← getState
      let (l2, taddr2) ←
        if token_cmp s c ['#'] then do
          let r ← tok c
          if r.next = 0 then fail (Err.exit "Bad use of '#'")
          else
            let l1 ← writeLoc l taddr r.next
            let c1 ← readLoc l1 taddr
            let (ts, tdelim) ← token_matched_arg fuel c1 m sd
            if ts = 0 then fail (Err.exit "No following parameter to '#'")
            else
              let d ← token_stringify fuel c1 ts tdelim
              let l2 ← writeLoc l1 taddr d
              pure (l2, taddr)
        else if token_cmp s c ['#', '#'] then do
          let r ← tok c
          if l.prev = 0 ∨ r.next = 0 then fail (Err.exit "Bad use of '##'")
          else
            let l1 ← writeLoc l taddr r.next
            setNext l1.prev r.next
            let c1 ← readLoc l1 taddr
            setLeadings c1 0
            let (ts, tdelim) ← token_matched_arg fuel c1 m sd
            let (l2, taddr2) ←
              if ts ≠ 0 then token_replace_arg fuel l1 taddr ts tdelim
              else pure (l1, taddr)
            let c2 ← readLoc l2 taddr2
            let r2 ← tok c2
            token_concat fuel l2.prev r2.next
            pure (l2, Loc.prev)
        else if token_cmp s c "__VA_ARGS__".toList then do
          let tp ← token_instant Kind.TK_RESERVED ['.', '.', '.']
          let (ts, tdelim) ← token_matched_arg fuel tp m sd
          if ts = 0 then fail (Err.exit "No matched func param(...) for __VA_ARGS__")
          else
            let tdelim1 ← va_args_delim fuel tdelim
            token_replace_arg fuel l taddr ts tdelim1
        else do
          let (ts, tdelim) ← token_matched_arg fuel c m sd
          if ts ≠ 0 then token_replace_arg fuel l taddr ts tdelim
          else pure (l, taddr)
      let v ← readLoc l2 taddr2
      expand_func_subst fuel sd m { l2 with prev := v } (Loc.next v)

/-- The function `expand_func`; `rec` is `expand_recursive`.  `sd` is the
value of `*saddr` on entry; the result is the returned chain and the value of
`*saddr` on return. -/
def expand_func (rec : Ptr → M (Ptr × Ptr)) (fuel : Nat) (sd : Ptr) (m : Ptr) :
    M (Ptr × Ptr) := do
  let n ← tok sd
  let p ← tok n.next
  let te ← token_skip_after_func fuel sd
  expand_func_args rec fuel n.next p.next te
  let n1 ← tok sd
  let head ← expand_def fuel m n1.used
  setLeadings head n1.leadings
  let l ← expand_func_subst fuel sd m { head := head, prev := 0 } Loc.head
  let (head1, tt) ← expand_recursive_list rec fuel l.head
  let after ← token_skip_after_func fuel sd
  setNext tt after
  pure (head1, tt)

/-- The function `expand_obj`; `rec` is `expand_recursive`. -/
def expand_obj (rec : Ptr → M (Ptr × Ptr)) (fuel : Nat) (sd : Ptr) (m : Ptr) :
    M (Ptr × Ptr) := do
  let n ← tok sd
  let t ← expand_def fuel m n.used
  let (head, t1) ← expand_recursive_list rec fuel t
  let n1 ← tok sd
  setNext t1 n1.next
  pure (head, t1)

/-- The loop of `expand_recursive` over the used-macro set of the token: is
the token's text the key of one of its macros? -/
def used_has_key : Nat → Ptr → Ptr → M Bool
  | 0, _, _ => fail Err.fuel
  | fuel + 1, sd, used => do
    if used = 0 then pure false
    else
      let u ← usedNode used
      let r ← macroAt u.mac
      let s ← getState
      if token_cmp s sd r.key then pure true
      else used_has_key fuel sd u.next

/-- The function `expand_recursive`.  The argument is the value of `*saddr` on
entry; the result is the returned chain and the value of `*saddr` on
return. -/
def expand_recursive : Nat → Ptr → M (Ptr × Ptr)
  | 0, _ => fail Err.fuel
  | fuel + 1, sd => do
    let s ← getState
    if token_cmp s sd "__LINE__".toList ∨ token_cmp s sd "__FILE__".toList then
      let t ← tok sd
      setTok sd { t with macro_org := s.macro_org }
      pure (sd, sd)
    else
      let t ← tok sd
      let m ← macro_get sd t.next
      if m = 0 then pure (sd, sd)
      else if (← used_has_key fuel sd t.used) then pure (sd, sd)
      else
        let r ← macroAt m
        if r.params ≠ 0 ∧ t.next ≠ 0 ∧ token_cmp s t.next ['('] then
          expand_func (expand_recursive fuel) fuel sd m
        else expand_obj (expand_recursive fuel) fuel sd m

/-- The function `expand_macro`.  The argument is the value of `*saddr` on
entry; the result is the returned chain and the value of `*saddr` on
return. -/
def expand_macro (fuel : Nat) (sd : Ptr) : M (Ptr × Ptr) := do
  let s ← getState
  let m ← macro_get sd s.cur
  if m = 0 then pure (sd, sd)
  else
    let r ← macroAt m
    if r.params ≠ 0 ∧ s.cur ≠ 0 ∧ token_cmp s s.cur ['('] then
      let a ← consume_func_args fuel
      let _ ← token_stitch a sd
    let t0 ← tok sd
    let (t, sd1) ← expand_recursive fuel sd
    setLeadings t t0.leadings
    pure (t, sd1)

/-! ## Constant expressions -/

/-- A C `int`: the value of `x` after wrap-around to 32 bits. -/
def wrap32 (x : Int) : Int :=
  (x + 2147483648) % 4294967296 - 2147483648

/-- The digits read by `atoi`, added to `acc`. -/
def atoi_digits : List Char → Int → Int
  | [], acc => acc
  | c :: cs, acc =>
    if isdigit c then atoi_digits cs (acc * 10 + ((c.toNat : Int) - 48)) else acc

/-- The library function `atoi`, that is `(int) strtol(s, NULL, 10)`: white
space, a sign, digits; a value outside `long` is clamped before the cast. -/
def atoi (cs : List Char) : Int :=
  let body := cs.dropWhile (fun c => decide (c = ' ') || decide (c = '\t') || decide (c = '\n'))
  let v : Int :=
    match body with
    | '-' :: r => - atoi_digits r 0
    | '+' :: r => atoi_digits r 0
    | r => atoi_digits r 0
  wrap32 (max (-9223372036854775808) (min v 9223372036854775807))

/-- The value of a `char` as an `int` (a signed byte). -/
def char_value (c : Char) : Int :=
  if c.toNat < 128 then (c.toNat : Int) else (c.toNat : Int) - 256

/-- The function `primary`; `expr` is the function of that name. -/
def primary (fuel : Nat) (expr : M Int) : M Int := do
  if (← consume ['(']) ≠ 0 then
    let ret ← expr
    let _ ← expect [')']
    pure ret
  else
    let n ← consume_id Kind.TK_NUM
    if n ≠ 0 then
      let r ← tok n
      let s ← getState
      pure (atoi (slice s r.pos r.len))
    else
      let c ← consume_id Kind.TK_CH
      if c ≠ 0 then
        let r ← tok c
        let s ← getState
        let p : CPtr := if peek s r.pos = '\\' then { r.pos with off := r.pos.off + 1 } else r.pos
        if peek s { p with off := p.off + 1 } ≠ '\'' then fail (Err.exit "Invalid char length")
        else pure (char_value (peek s p))
      else if (← consume "defined".toList) ≠ 0 then
        let t ← if (← consume ['(']) ≠ 0 then (do
            let t ← expect_id Kind.TK_IDENT
            let _ ← expect [')']
            pure t)
          else expect_id Kind.TK_IDENT
        let s ← getState
        let m ← macro_get t s.cur
        pure (if m ≠ 0 then 1 else 0)
      else
        let t ← consume_id Kind.TK_IDENT
        if t = 0 then pure 0
        else
          let s ← getState
          let m ← macro_get t s.cur
          if m = 0 then pure 0
          else
            let (tt, t1) ← expand_macro fuel t
            let s1 ← getState
            setNext t1 s1.cur
            let s2 ← getState
            setState { s2 with cur := tt }
            expr

/-- The function `unary`. -/
def unary (primary : M Int) : M Int := do
  if (← consume ['!']) ≠ 0 then
    let v ← primary
    pure (if v = 0 then 1 else 0)
  else primary

/-- The loop of `mul`. -/
def mul_loop (unary : M Int) : Nat → Int → M Int
  | 0, _ => fail Err.fuel
  | fuel + 1, ret => do
    if (← consume ['+']) ≠ 0 then
      let v ← unary
      mul_loop unary fuel (wrap32 (ret + v))
    else if (← consume ['-']) ≠ 0 then
      let v ← unary
      mul_loop unary fuel (wrap32 (ret - v))
    else pure ret

/-- The function `mul` (it reads the operators `+` and `-`). -/
def mul (fuel : Nat) (unary : M Int) : M Int := do
  let ret ← unary
  mul_loop unary fuel ret

/-- The loop of `plus`. -/
def plus_loop (mul : M Int) : Nat → Int → M Int
  | 0, _ => fail Err.fuel
  | fuel + 1, ret => do
    if (← consume ['*']) ≠ 0 then
      let v ← mul
      plus_loop mul fuel (wrap32 (ret * v))
    else if (← consume ['/']) ≠ 0 then
      let v ← mul
      if v = 0 ∨ (ret = -2147483648 ∧ v = -1) then fail Err.undef
      else plus_loop mul fuel (Int.tdiv ret v)
    else pure ret

/-- The function `plus` (it reads the operators `*` and `/`). -/
def plus (fuel : Nat) (mul : M Int) : M Int := do
  let ret ← mul
  plus_loop mul fuel ret

/-- The loop of `shift`.  A shift count outside `0 .. 31` is undefined. -/
def shift_loop (plus : M Int) : Nat → Int → M Int
  | 0, _ => fail Err.fuel
  | fuel + 1, ret => do
    if (← consume ['>', '>']) ≠ 0 then
      let v ← plus
      if v < 0 ∨ 32 ≤ v then fail Err.undef
      else shift_loop plus fuel (ret / 2 ^ v.toNat)
    else if (← consume ['<', '<']) ≠ 0 then
      let v ← plus
      if v < 0 ∨ 32 ≤ v then fail Err.undef
      else shift_loop plus fuel (wrap32 (ret * 2 ^ v.toNat))
    else pure ret

/-- The function `shift`. -/
def shift (fuel : Nat) (plus : M Int) : M Int := do
  let ret ← plus
  shift_loop plus fuel ret

/-- A C truth value. -/
def ofBool (b : Bool) : Int := if b then 1 else 0

/-- The loop of `relational`. -/
def relational_loop (shift : M Int) : Nat → Int → M Int
  | 0, _ => fail Err.fuel
  | fuel + 1, ret => do
    if (← consume ['>']) ≠ 0 then
      let v ← shift
      relational_loop shift fuel (ofBool (decide (ret > v)))
    else if (← consume ['>', '=']) ≠ 0 then
      let v ← shift
      relational_loop shift fuel (ofBool (decide (ret ≥ v)))
    else if (← consume ['<']) ≠ 0 then
      let v ← shift
      relational_loop shift fuel (ofBool (decide (ret < v)))
    else if (← consume ['<', '=']) ≠ 0 then
      let v ← shift
      relational_loop shift fuel (ofBool (decide (ret ≤ v)))
    else if (← consume ['=', '=']) ≠ 0 then
      let v ← shift
      relational_loop shift fuel (ofBool (decide (ret = v)))
    else if (← consume ['!', '=']) ≠ 0 then
      let v ← shift
      relational_loop shift fuel (ofBool (decide (ret ≠ v)))
    else pure ret

/-- The function `relational`. -/
def relational (fuel : Nat) (shift : M Int) : M Int := do
  let ret ← shift
  relational_loop shift fuel ret

/-- The loop of `and`. -/
def and_loop (relational : M Int) : Nat → Int → M Int
  | 0, _ => fail Err.fuel
  | fuel + 1, ret => do
    if (← consume ['&', '&']) ≠ 0 then
      let v ← relational
      and_loop relational fuel (ofBool (decide (v ≠ 0) && decide (ret ≠ 0)))
    else pure ret

/-- The function `and`. -/
def and (fuel : Nat) (relational : M Int) : M Int := do
  let ret ← relational
  and_loop relational fuel ret

/-- The loop of `or`. -/
def or_loop (and : M Int) : Nat → Int → M Int
  | 0, _ => fail Err.fuel
  | fuel + 1, ret => do
    if (← consume ['|', '|']) ≠ 0 then
      let v ← and
      or_loop and fuel (ofBool (decide (v ≠ 0) || decide (ret ≠ 0)))
    else pure ret

/-- The function `or`. -/
def or (fuel : Nat) (and : M Int) : M Int := do
  let ret ← and
  or_loop and fuel ret

/-- The function `expr`. -/
def expr : Nat → M Int
  | 0 => fail Err.fuel
  | fuel + 1 => do
    let ret ← or fuel (and fuel (relational fuel (shift fuel (plus fuel (mul fuel
      (unary (primary fuel (expr fuel))))))))
    if (← consume ['?']) ≠ 0 then
      let ret1 ← expr fuel
      let _ ← expect [':']
      let ret2 ← expr fuel
      pure (if ret ≠ 0 then ret1 else ret2)
    else pure ret

/-- The function `ifcond`. -/
def ifcond (fuel : Nat) : M Int := do
  let ret ← expr fuel
  let _ ← expect_id Kind.TK_NEWLINE
  pure ret

/-! ## Environments and include files -/

def modifyState (f : State → State) : M Unit := fun s => Res.ok () (f s)

def allocEnv (e : Env) : M Ptr := fun s =>
  Res.ok (s.envs.length + 1) { s with envs := s.envs ++ [e] }

/-- The text of the file at `path`, if the file system has one (`open` and
`read` of `read_file`, `access` of `inc_path_find`). -/
def file_text (s : State) (path : List Char) : Option (List Char) :=
  (s.files.find? (fun f => decide (f.1 = path))).map (fun f => f.2)

/-- The function `env_push`. -/
def env_push (path : List Char) (skips : Int) : M Unit := do
  let s ← getState
  let e ← envAt s.env
  setEnv s.env { e with pos := s.pos, cur := s.cur }
  match file_text s path with
  | none => fail (Err.exit "Can not open file")
  | some txt =>
    let p ← allocMem txt
    let ne ← allocEnv { path := path, skips := skips, input := p.blk, pos := p, cur := 0,
                        next := s.env }
    modifyState (fun s1 => { s1 with env := ne, pos := p })
    let c ← token_instant Kind.TK_SPACES []
    let e1 ← envAt ne
    setEnv ne { e1 with cur := c }
    modifyState (fun s1 => { s1 with cur := c })

/-- The function `env_pop`. -/
def env_pop : M Unit := do
  let s ← getState
  let e ← envAt s.env
  let e1 ← envAt e.next
  setState { s with env := e.next, pos := e1.pos, cur := e1.cur }

/-- The function `mk_path`. -/
def mk_path (dir : List Char) (fname : List Char) : List Char :=
  dir ++ ['/'] ++ fname

/-- The library function `dirname`. -/
def dirname (p : List Char) : List Char :=
  let q := p.reverse.dropWhile (fun c => decide (c = '/'))
  if q = [] then (if p = [] then ['.'] else ['/'])
  else
    let r := q.dropWhile (fun c => decide (c ≠ '/'))
    if r = [] then ['.']
    else
      let d := (r.dropWhile (fun c => decide (c = '/'))).reverse
      if d = [] then ['/'] else d

/-- The loop of `inc_path_find` over the include directories from index `i`
on: the path found and the index stored in `*skips`. -/
def inc_path_loop (s : State) (fname : List Char) (skips : Int) :
    List (List Char) → Nat → Option (List Char × Int)
  | [], _ => none
  | d :: ds, i =>
    if (i : Int) ≥ skips ∧ (file_text s (mk_path d fname)).isSome then
      some (mk_path d fname, (i : Int))
    else inc_path_loop s fname skips ds (i + 1)

/-- The function `inc_path_find`: the path found and the value of `*skips` on
return, or nothing for `NULL`. -/
def inc_path_find (fname : List Char) (skips : Int) (is_local : Bool) :
    M (Option (List Char × Int)) := do
  let s ← getState
  let e ← envAt s.env
  if is_local ∧ skips = 0 ∧ (file_text s (mk_path (dirname e.path) fname)).isSome then
    pure (some (mk_path (dirname e.path) fname, skips))
  else pure (inc_path_loop s fname skips s.incdir 0)

/-- The loop `while (!token_cmp(t, ">")) t = consume_any();` of
`drc_include`. -/
def include_loop : Nat → Ptr → M Ptr
  | 0, _ => fail Err.fuel
  | fuel + 1, t => do
    let s ← getState
    if token_cmp s t ['>'] then pure t
    else
      let a ← consume_any
      include_loop fuel a

/-- The function `drc_include`; `stmt0` is `stmt(0)`. -/
def drc_include (stmt0 : M Unit) (fuel : Nat) (skips : Int) : M Unit := do
  let lt ← consume ['<']
  let tp ← if lt ≠ 0 then (do
      let r ← tok lt
      let t ← include_loop fuel lt
      let rt ← tok t
      if rt.pos.blk = r.pos.blk ∧ r.pos.off + 1 ≤ rt.pos.off then
        token_new Kind.TK_SYSTEM_SRC { r.pos with off := r.pos.off + 1 }
          (rt.pos.off - (r.pos.off + 1))
      else fail Err.undef)
    else (do
      let tp ← expect_id Kind.TK_LITERAL
      let r ← tok tp
      setTok tp { r with id := Kind.TK_USR_SRC }
      pure tp)
  let r ← tok tp
  let s ← getState
  let fname := slice s r.pos r.len
  let found ← if r.len > 0 ∧ peek s r.pos = '/' then pure (some (fname, skips))
    else inc_path_find fname skips (decide (r.id ≠ Kind.TK_SYSTEM_SRC))
  match found with
  | none => fail (Err.exit "Can not find include file")
  | some (path, skips1) =>
    env_push path skips1
    stmt0
    env_pop

/-! ## Directives -/

/-- The function `drc_define`. -/
def drc_define (fuel : Nat) : M Unit := do
  let key ← expect_id Kind.TK_IDENT
  let s ← getState
  let c ← tok s.cur
  let params ← if token_cmp s s.cur ['('] ∧ c.leadings = 0 then consume_func_args fuel
    else pure 0
  let k ← tok key
  let s1 ← getState
  let name := slice s1 k.pos k.len
  let body ← consume_to_lnend fuel
  macro_add fuel name params body

/-- The loop `while (consume("elif"))` of `cntlflow`; the result is `on`. -/
def cntlflow_elif (stmt0 : M Unit) (stmt_off : M Unit) (expr : M Int) : Nat → Int → M Int
  | 0, _ => fail Err.fuel
  | fuel + 1, on_ => do
    if (← consume "elif".toList) ≠ 0 then
      let on1 ← if on_ = 0 then (do
          let v ← expr
          pure (ofBool (decide (v ≠ 0))))
        else pure 0
      if on1 ≠ 0 then stmt0 else stmt_off
      cntlflow_elif stmt0 stmt_off expr fuel on1
    else pure on_

/-- The function `cntlflow`; `stmt0` is `stmt(0)`. -/
def cntlflow (stmt0 : M Unit) (stmt_off : M Unit) (expr : M Int) (fuel : Nat) (on_ : Int) :
    M Unit := do
  if on_ ≠ 0 then stmt0 else stmt_off
  let on1 ← cntlflow_elif stmt0 stmt_off expr fuel on_
  if (← consume "else".toList) ≠ 0 then
    if on1 = 0 then stmt0 else stmt_off
  let _ ← expect "endif".toList
  pure ()

/-- The loop `while (consume("elif"))` of `stmt_off`. -/
def stmt_off_elif (stmt_off : M Unit) : Nat → M Unit
  | 0 => fail Err.fuel
  | fuel + 1 => do
    if (← consume "elif".toList) ≠ 0 then
      let _ ← consume_to_lnend fuel
      stmt_off
      stmt_off_elif stmt_off fuel
    else pure ()

/-- The function `stmt_off`.  Its body is one `while` loop, so a new turn of
the loop is a call of the function itself. -/
def stmt_off : Nat → M Unit
  | 0 => fail Err.fuel
  | fuel + 1 => do
    let s ← getState
    let c ← tok s.cur
    if c.id = Kind.TK_EOF then pure ()
    else if (← consume_id Kind.TK_DIRECTIVE) ≠ 0 then
      let a ← consume "if".toList
      let b ← if a ≠ 0 then pure a else consume "ifdef".toList
      let d ← if b ≠ 0 then pure b else consume "ifndef".toList
      if d ≠ 0 then
        let _ ← consume_to_lnend fuel
        stmt_off fuel
        stmt_off_elif (stmt_off fuel) fuel
        if (← consume "else".toList) ≠ 0 then
          stmt_off fuel
        let _ ← expect "endif".toList
        stmt_off fuel
      else
        let s1 ← getState
        if token_cmp s1 s1.cur "elif".toList ∨ token_cmp s1 s1.cur "else".toList ∨
            token_cmp s1 s1.cur "endif".toList then pure ()
        else stmt_off fuel
    else
      let _ ← consume_any
      stmt_off fuel

/-- The function `stmt`.  Its body is one `while` loop followed by the
stitching of the end-of-file token, so a new turn of the loop is a call of the
function itself. -/
def stmt : Nat → Bool → M Unit
  | 0, _ => fail Err.fuel
  | fuel + 1, is_top => do
    let s ← getState
    let c ← tok s.cur
    if c.id = Kind.TK_EOF then
      let o ← token_stitch s.cur s.ocur
      modifyState (fun s1 => { s1 with ocur := o })
    else if (← consume_id Kind.TK_DIRECTIVE) ≠ 0 then
      if (← consume "define".toList) ≠ 0 then
        drc_define fuel
        stmt fuel is_top
      else if (← consume "undef".toList) ≠ 0 then
        let t ← expect_id Kind.TK_IDENT
        macro_rm t
        stmt fuel is_top
      else if (← consume "warning".toList) ≠ 0 then
        let _ ← consume_to_lnend fuel
        modifyState (fun s1 => { s1 with warnings := s1.warnings + 1 })
        stmt fuel is_top
      else if (← consume "error".toList) ≠ 0 then
        let _ ← consume_to_lnend fuel
        fail (Err.exit "error message")
      else if (← consume "include_next".toList) ≠ 0 then
        let s1 ← getState
        let e ← envAt s1.env
        drc_include (stmt fuel false) fuel (wrap32 (e.skips + 1))
        stmt fuel is_top
      else if (← consume "include".toList) ≠ 0 then
        drc_include (stmt fuel false) fuel 0
        stmt fuel is_top
      else if (← consume "if".toList) ≠ 0 then
        let on_ ← ifcond fuel
        cntlflow (stmt fuel false) (stmt_off fuel) (expr fuel) fuel on_
        stmt fuel is_top
      else if (← consume "ifdef".toList) ≠ 0 then
        let t ← consume_to_lnend fuel
        let r ← tok t
        let m ← macro_get t r.next
        cntlflow (stmt fuel false) (stmt_off fuel) (expr fuel) fuel (ofBool (decide (m ≠ 0)))
        stmt fuel is_top
      else if (← consume "ifndef".toList) ≠ 0 then
        let t ← consume_to_lnend fuel
        let r ← tok t
        let m ← macro_get t r.next
        cntlflow (stmt fuel false) (stmt_off fuel) (expr fuel) fuel (ofBool (decide (m = 0)))
        stmt fuel is_top
      else
        let s1 ← getState
        if token_cmp s1 s1.cur "endif".toList ∨ token_cmp s1 s1.cur "elif".toList ∨
            token_cmp s1 s1.cur "else".toList then
          if is_top then fail (Err.exit "no matched if-staement") else pure ()
        else fail (Err.exit "invalid token")
    else
      let t ← consume_id Kind.TK_IDENT
      if t ≠ 0 then
        modifyState (fun s1 => { s1 with macro_org := t })
        let (h, t1) ← expand_macro fuel t
        let s1 ← getState
        setNext s1.ocur h
        modifyState (fun s2 => { s2 with ocur := t1 })
      else
        let a ← consume_any
        let s1 ← getState
        let o ← token_stitch a s1.ocur
        modifyState (fun s2 => { s2 with ocur := o })
      stmt fuel is_top

/-! ## Start-up and output -/

/-- The table `predefined`. -/
def predefined : List (Kind × List Char × List Char) :=
  [(Kind.TK_NUM, "__FILE__".toList, []), (Kind.TK_NUM, "__LINE__".toList, []),
   (Kind.TK_NUM, "__x86_64".toList, ['1']), (Kind.TK_NUM, "__x86_64__".toList, ['1']),
   (Kind.TK_NUM, "__VERSION__".toList, "0.1".toList),
   (Kind.TK_NUM, "__STDC_VERSION__".toList, "201112L".toList),
   (Kind.TK_NUM, "__STDC__".toList, ['1']), (Kind.TK_NUM, "__STDC_HOSTED__".toList, ['1']),
   (Kind.TK_NUM, "__GNUC__".toList, "13".toList),
   (Kind.TK_NUM, "__GNUC_MINOR__".toList, ['3'])]

/-- The loop of `macro_predefine`. -/
def macro_predefine_loop (fuel : Nat) : List (Kind × List Char × List Char) → M Unit
  | [] => pure ()
  | (id, name, value) :: rest => do
    let t ← token_instant id value
    macro_add fuel name 0 t
    macro_predefine_loop fuel rest

/-- The function `macro_predefine`. -/
def macro_predefine (fuel : Nat) : M Unit :=
  macro_predefine_loop fuel predefined

/-- The function `linenum`. -/
def linenum (at_ : Ptr) : M Nat := do
  let t ← tok at_
  let e ← envAt t.env
  let s ← getState
  if t.pos.blk = e.input then
    pure (1 + (((s.mem.getD e.input []).take t.pos.off).filter (fun c => decide (c = '\n'))).length)
  else fail Err.undef

/-- The decimal digits of `n`, most significant first, after `acc`. -/
def decimal : Nat → Nat → List Char → List Char
  | 0, _, acc => acc
  | fuel + 1, n, acc =>
    if n < 10 then Char.ofNat (48 + n) :: acc
    else decimal fuel (n / 10) (Char.ofNat (48 + n % 10) :: acc)

/-- The function `print_tokens`: the characters written to standard output. -/
def print_tokens : Nat → Ptr → M (List Char)
  | 0, _ => fail Err.fuel
  | fuel + 1, t => do
    if t = 0 then pure []
    else
      let r ← tok t
      let lead ← if r.leadings ≠ 0 then print_tokens fuel r.leadings else pure []
      let s ← getState
      let body ← if token_cmp s t "__LINE__".toList then (do
          let n ← linenum r.macro_org
          pure (decimal (n + 1) n []))
        else if token_cmp s t "__FILE__".toList then (do
          let e ← envAt r.env
          pure (['"'] ++ e.path ++ ['"']))
        else
          let ws : List Char := if r.id = Kind.TK_LITERAL then ['"']
            else if r.id = Kind.TK_CH then ['\''] else []
          pure (ws ++ slice s r.pos r.len ++ ws)
      let rest ← print_tokens fuel r.next
      pure (lead ++ body ++ rest)

/-- The initial value of `incdir`. -/
def incdir_default : List (List Char) :=
  ["/usr/include/".toList, "/usr/include/x86_64-linux-gnu/".toList,
   "/usr/local/include/".toList, "/usr/lib/gcc/x86_64-linux-gnu/13/include/".toList]

/-- The state at the start of `main`, after `env = calloc(sizeof(Env), 1)`, for
a file system `files`.  Block `0` of the memory stands for `NULL`. -/
def initState (files : List (List Char × List Char)) : State :=
  { mem := [[]], toks := [], useds := [], macros := [],
    envs := [{ path := [], skips := 0, input := 0, pos := { blk := 0, off := 0 }, cur := 0,
               next := 0 }],
    files := files, incdir := incdir_default, pos := { blk := 0, off := 0 }, cur := 0,
    ocur := 0, macro_org := 0, env := 1, macro_tab := [], keyword := [],
    preid := Kind.TK_NEWLINE, warnings := 0 }

/-- The function `setopts` for the options `-I d` with `d` in `dirs`, in
command-line order. -/
def setopts (dirs : List (List Char)) : M Unit :=
  modifyState (fun s => { s with incdir := dirs ++ s.incdir })

/-- The function `main` up to the end of `env_pop()`: the first token of the
output list. -/
def main_tokens (fuel : Nat) (dirs : List (List Char)) (file : List Char) : M Ptr := do
  keywords_init
  macro_predefine fuel
  setopts dirs
  env_push file 0
  let head ← allocTok zeroToken
  modifyState (fun s => { s with ocur := head })
  stmt fuel true
  env_pop
  let h ← tok head
  pure h.next

/-- The function `main` for the command line `-I d ... file`: the characters
written to standard output. -/
def main (fuel : Nat) (dirs : List (List Char)) (file : List Char) : M (List Char) := do
  let out ← main_tokens fuel dirs file
  print_tokens fuel out

/-- How a run of the program ends: with its standard output, with a fatal
diagnostic, in undefined behaviour, or not within the step budget. -/
inductive Outcome
  | out (stdout : String)
  | exit (msg : String)
  | undef
  | timeout
  deriving DecidableEq, Repr

/-- Run the program on a file system, include options and a file name. -/
def run (fuel : Nat) (files : List (String × String)) (dirs : List String) (file : String) :
    Outcome :=
  match main fuel (dirs.map String.toList) file.toList
      (initState (files.map (fun f => (f.1.toList, f.2.toList)))) with
  | Res.ok cs _ => Outcome.out (String.mk cs)
  | Res.err (Err.exit msg) => Outcome.exit msg
  | Res.err Err.undef => Outcome.undef
  | Res.err Err.fuel => Outcome.timeout

/-- Run the program on one source text, stored as the file `in.c`. -/
def preprocess (fuel : Nat) (src : String) : Outcome :=
  run fuel [("in.c", src)] [] "in.c"

/-! ## Observing the output list -/

/-- The keys of the macros in a used-macro set, first node first. -/
def used_keys (s : State) : Nat → Ptr → List String
  | 0, _ => []
  | _, 0 => []
  | fuel + 1, k + 1 =>
    match s.useds[k]? with
    | some n =>
      match s.macros[n.mac - 1]? with
      | some r => String.mk r.key :: used_keys s fuel n.next
      | none => []
    | none => []

/-- What a token is to an observer: its kind, its text, and the keys of its
used-macro set. -/
structure Seen where
  id : Kind
  text : String
  used : List String
  deriving DecidableEq, Repr

/-- The tokens of a chain, as seen by an observer. -/
def seen_chain (s : State) : Nat → Ptr → List Seen
  | 0, _ => []
  | _, 0 => []
  | fuel + 1, k + 1 =>
    match s.toks[k]? with
    | some t =>
      { id := t.id, text := String.mk (slice s t.pos t.len), used := used_keys s fuel t.used }
        :: seen_chain s fuel t.next
    | none => []

/-- The output list of a run on one source text, stored as the file `in.c`;
nothing when the run does not return. -/
def output_tokens (fuel : Nat) (src : String) : Option (List Seen) :=
  match main_tokens fuel [] "in.c".toList (initState [("in.c".toList, src.toList)]) with
  | Res.ok p s => some (seen_chain s fuel p)
  | Res.err _ => none

/-- A token of kind `id` and text `text` that no expansion produced. -/
def plain (id : Kind) (text : String) : Seen :=
  { id := id, text := text, used := [] }

/-! ## Veiled argument tokens

The expansion engine reads the text of a token in four places only: in
`token_cmp`, in `macro_get`, in `token_matched_arg` and in `token_concat`, and
it reads the kind of a token in `token_cmp` only.  To follow a call whose
arguments are arbitrary tokens, the definitions below run the engine on a
state in which the texts and kinds of those tokens are hidden: their blocks of
the character memory are left empty.  They are the definitions of the engine
with these changes: a comparison of a hidden text with a word answers `false`
without reading it, `token_concat` of hidden tokens makes another hidden
block, and a step that would read a hidden text in any other way stops the run
with `Err.undef`.  `unveil` puts the texts into the hidden blocks; the
theorems of the section on veiled runs show that, for texts that differ from
every word they are compared with, the engine on the unveiled state does what
the veiled run does. -/

/-- The hidden blocks of a veiled run: the index of each block with the hidden
blocks that `token_concat` joins into it, none for the block of an argument
token. -/
abbrev Plan := List (Nat × List Nat)

/-- The block `b` is hidden. -/
def hidden (pl : Plan) (b : Nat) : Bool :=
  pl.any (fun e => decide (e.1 = b))

/-- The token `t` points into a hidden block. -/
def veiled (pl : Plan) (s : State) (t : Ptr) : Bool :=
  match t with
  | 0 => false
  | k + 1 =>
    match s.toks[k]? with
    | some r => hidden pl r.pos.blk
    | none => false

/-- A hidden block with what it hides: the text and the kind of the tokens that
point into it. -/
structure Hid where
  blk : Nat
  parts : List Nat
  txt : List Char
  kind : Kind

/-- The hidden blocks of a run with what they hide. -/
abbrev Veil := List Hid

/-- The plan of a veil. -/
def plan_of (V : Veil) : Plan :=
  V.map (fun h => (h.blk, h.parts))

/-- What block `b` hides, if it is hidden. -/
def hid_at (V : Veil) (b : Nat) : Option Hid :=
  V.find? (fun h => decide (h.blk = b))

/-- The text that block `b` hides. -/
def txt_at (V : Veil) (b : Nat) : List Char :=
  match hid_at V b with
  | some h => h.txt
  | none => []

/-- A token of the unveiled state: a token of a hidden block gets the kind and
the length of what the block hides. -/
def unveilTok (V : Veil) (t : Token) : Token :=
  match hid_at V t.pos.blk with
  | some h => { t with id := h.kind, len := h.txt.length }
  | none => t

/-- The memory with the texts put into the hidden blocks; `i` is the index of
the first block of the list. -/
def unveilMem (V : Veil) : Nat → List (List Char) → List (List Char)
  | _, [] => []
  | i, cs :: rest =>
    (match hid_at V i with
     | some h => h.txt
     | none => cs) :: unveilMem V (i + 1) rest

/-- The state with the texts put into the hidden blocks. -/
def unveil (V : Veil) (s : State) : State :=
  { s with mem := unveilMem V 0 s.mem, toks := s.toks.map (unveilTok V) }

namespace Veil

/-- The function `token_cmp` on a state with the hidden blocks of `pl`. -/
def token_cmp (pl : Plan) (s : State) (t : Ptr) (w : List Char) : Bool :=
  if veiled pl s t then false else Prep.token_cmp s t w

/-- The loop of `token_next_arg_delim` on a state with the hidden blocks of `pl`. -/
def token_next_arg_delim_loop (pl : Plan) : Nat → Ptr → Int → M Ptr
  | 0, _, _ => fail Err.fuel
  | fuel + 1, t, depth => do
    if t = 0 then pure t
    else
      let s ← getState
      let depth1 := depth + (if token_cmp pl s t ['('] then 1 else 0)
        - (if token_cmp pl s t [')'] then 1 else 0)
      if (depth1 = 0 ∧ token_cmp pl s t [',']) ∨ (depth1 < 0 ∧ token_cmp pl s t [')']) then
        pure t
      else
        let r ← tok t
        token_next_arg_delim_loop pl fuel r.next depth1

/-- The function `token_next_arg_delim` on a state with the hidden blocks of `pl`. -/
def token_next_arg_delim (pl : Plan) (fuel : Nat) (t : Ptr) : M Ptr :=
  token_next_arg_delim_loop pl fuel t 0

/-- The test of `macro_get` on a state with the hidden blocks of `pl`. -/
def macro_match (pl : Plan) (s : State) (t0 : Token) (t1 : Ptr) (r : Macro) : Bool :=
  (if hidden pl t0.pos.blk then false else scmp s t0.pos t0.len r.key) &&
    ((decide (r.params ≠ 0) && token_cmp pl s t1 ['(']) ||
     (decide (r.params = 0) && !token_cmp pl s t1 ['(']))

/-- The loop of `macro_get` on a state with the hidden blocks of `pl`. -/
def macro_get_loop (pl : Plan) (s : State) (t0 : Token) (t1 : Ptr) : List Ptr → Ptr
  | [] => 0
  | m :: ms =>
    match s.macros[m - 1]? with
    | some r => if macro_match pl s t0 t1 r then m else macro_get_loop pl s t0 t1 ms
    | none => 0

/-- The function `macro_get` on a state with the hidden blocks of `pl`. -/
def macro_get (pl : Plan) (t0 : Ptr) (t1 : Ptr) : M Ptr := do
  let s ← getState
  match s.macro_tab with
  | [] => pure 0
  | _ :: _ =>
    let r ← tok t0
    pure (macro_get_loop pl s r t1 s.macro_tab)

/-- The loop of `token_skip_after_func` on a state with the hidden blocks of `pl`. -/
def token_skip_after_func_loop (pl : Plan) : Nat → Ptr → M Ptr
  | 0, _ => fail Err.fuel
  | fuel + 1, t => do
    let s ← getState
    if token_cmp pl s t [')'] then pure t
    else
      let r ← tok t
      let d ← token_next_arg_delim pl fuel r.next
      token_skip_after_func_loop pl fuel d

/-- The function `token_skip_after_func` on a state with the hidden blocks of `pl`. -/
def token_skip_after_func (pl : Plan) (fuel : Nat) (t : Ptr) : M Ptr := do
  let r ← tok t
  let e ← token_skip_after_func_loop pl fuel r.next
  let re ← tok e
  pure re.next

/-- The inner loop of `token_matched_arg` on a state with the hidden blocks of `pl`. -/
def token_matched_arg_walk (pl : Plan) (fuel : Nat) : Nat → Ptr → Ptr → Ptr → M (Ptr × Ptr)
  | 0, _, ts, sd => pure (ts, sd)
  | k + 1, prev, _, _ => do
    let sd ← token_next_arg_delim pl fuel prev
    let r ← tok sd
    token_matched_arg_walk pl fuel k r.next prev sd

/-- The outer loop of `token_matched_arg` on a state with the hidden blocks of `pl`:
it stops the run when it would compare a hidden text. -/
def token_matched_arg_loop (pl : Plan) : Nat → Ptr → Ptr → Nat → Ptr → Ptr → M (Ptr × Ptr)
  | 0, _, _, _, _, _ => fail Err.fuel
  | fuel + 1, ag, pm, i, ts, sd => do
    if ag = 0 ∨ pm = 0 then pure (0, sd)
    else
      let a ← tok ag
      let p ← tok pm
      let s ← getState
      if hidden pl a.pos.blk ∨ hidden pl p.pos.blk then fail Err.undef
      else if a.len = p.len ∧ slice s a.pos p.len = slice s p.pos p.len then
        token_matched_arg_walk pl fuel (i + 1) ts ts sd
      else token_matched_arg_loop pl fuel ag p.next (i + 1) ts sd

/-- The function `token_matched_arg` on a state with the hidden blocks of `pl`. -/
def token_matched_arg (pl : Plan) (fuel : Nat) (ag : Ptr) (m : Ptr) (sd : Ptr) :
    M (Ptr × Ptr) := do
  let n ← tok sd
  let p ← tok n.next
  let r ← macroAt m
  token_matched_arg_loop pl fuel ag r.params 0 p.next sd

/-- The blocks of the tokens from `t` up to `delim`, which all are hidden
blocks of the memory. -/
def hidden_blocks (pl : Plan) : Nat → Ptr → Ptr → M (List Nat)
  | 0, _, _ => fail Err.fuel
  | fuel + 1, t, delim => do
    if t = delim then pure []
    else
      let r ← tok t
      let s ← getState
      if hidden pl r.pos.blk ∧ r.pos.blk < s.mem.length then
        let bs ← hidden_blocks pl fuel r.next delim
        pure (r.pos.blk :: bs)
      else fail Err.undef

/-- The function `token_concat` on a state with the hidden blocks of `pl`, for
hidden tokens only: the fresh string is a hidden block, and the plan must
name it as the join of the blocks of the tokens. -/
def token_concat (pl : Plan) (fuel : Nat) (dest : Ptr) (delim : Ptr) : M Unit := do
  let d ← tok dest
  let bs ← hidden_blocks pl fuel d.next delim
  let s ← getState
  if hidden pl d.pos.blk ∧ d.pos.blk < s.mem.length ∧
      (s.mem.length, d.pos.blk :: bs) ∈ pl then
    let q ← allocMem []
    let d1 ← tok dest
    setTok dest { d1 with pos := q, len := 0, next := delim }
  else fail Err.undef

/-- The second loop of `expand_func` on a state with the hidden blocks of
`pl`: it stops the run at a hidden token in the replacement and at the
operators `#` and `__VA_ARGS__`. -/
def expand_func_subst (pl : Plan) : Nat → Ptr → Ptr → Locals → Loc → M Locals
  | 0, _, _, _, _ => fail Err.fuel
  | fuel + 1, sd, m, l, taddr => do
    let c ← readLoc l taddr
    if c = 0 then pure l
    else
      let s ← getState
      if veiled pl s c ∨ Prep.token_cmp s c ['#'] ∨
          Prep.token_cmp s c "__VA_ARGS__".toList then fail Err.undef
      else
        let (l2, taddr2) ←
          if Prep.token_cmp s c ['#', '#'] then do
            let r ← tok c
            if l.prev = 0 ∨ r.next = 0 then fail (Err.exit "Bad use of '##'")
            else
              let l1 ← writeLoc l taddr r.next
              setNext l1.prev r.next
              let c1 ← readLoc l1 taddr
              setLeadings c1 0
              let (ts, tdelim) ← token_matched_arg pl fuel c1 m sd
              let (l2, taddr2) ←
                if ts ≠ 0 then token_replace_arg fuel l1 taddr ts tdelim
                else pure (l1, taddr)
              let c2 ← readLoc l2 taddr2
              let r2 ← tok c2
              token_concat pl fuel l2.prev r2.next
              pure (l2, Loc.prev)
          else do
            let (ts, tdelim) ← token_matched_arg pl fuel c m sd
            if ts ≠ 0 then token_replace_arg fuel l taddr ts tdelim
            else pure (l, taddr)
        let v ← readLoc l2 taddr2
        expand_func_subst pl fuel sd m { l2 with prev := v } (Loc.next v)

/-- The function `expand_func` on a state with the hidden blocks of `pl`. -/
def expand_func (pl : Plan) (rec : Ptr → M (Ptr × Ptr)) (fuel : Nat) (sd : Ptr) (m : Ptr) :
    M (Ptr × Ptr) := do
  let n ← tok sd
  let p ← tok n.next
  let te ← token_skip_after_func pl fuel sd
  expand_func_args rec fuel n.next p.next te
  let n1 ← tok sd
  let head ← expand_def fuel m n1.used
  setLeadings head n1.leadings
  let l ← expand_func_subst pl fuel sd m { head := head, prev := 0 } Loc.head
  let (head1, tt) ← expand_recursive_list rec fuel l.head
  let after ← token_skip_after_func pl fuel sd
  setNext tt after
  pure (head1, tt)

/-- The loop of `expand_recursive` over the used-macro set on a state with the
hidden blocks of `pl`. -/
def used_has_key (pl : Plan) : Nat → Ptr → Ptr → M Bool
  | 0, _, _ => fail Err.fuel
  | fuel + 1, sd, used => do
    if used = 0 then pure false
    else
      let u ← usedNode used
      let r ← macroAt u.mac
      let s ← getState
      if token_cmp pl s sd r.key then pure true
      else used_has_key pl fuel sd u.next

/-- The function `expand_recursive` on a state with the hidden blocks of `pl`. -/
def expand_recursive (pl : Plan) : Nat → Ptr → M (Ptr × Ptr)
  | 0, _ => fail Err.fuel
  | fuel + 1, sd => do
    let s ← getState
    if token_cmp pl s sd "__LINE__".toList ∨ token_cmp pl s sd "__FILE__".toList then
      let t ← tok sd
      setTok sd { t with macro_org := s.macro_org }
      pure (sd, sd)
    else
      let t ← tok sd
      let m ← macro_get pl sd t.next
      if m = 0 then pure (sd, sd)
      else if (← used_has_key pl fuel sd t.used) then pure (sd, sd)
      else
        let r ← macroAt m
        if r.params ≠ 0 ∧ t.next ≠ 0 ∧ token_cmp pl s t.next ['('] then
          expand_func pl (expand_recursive pl fuel) fuel sd m
        else expand_obj (expand_recursive pl fuel) fuel sd m


/-- What an observer sees of a token of a state with hidden blocks: of a
hidden token the block only. -/
structure Glimpse where
  id : Kind
  text : String
  hid : Option Nat
  used : List String
  deriving DecidableEq, Repr

/-- The token an observer sees when the hidden blocks hide what `V` says. -/
def fill (V : Veil) (g : Glimpse) : Seen :=
  match g.hid.bind (hid_at V) with
  | some h => { id := h.kind, text := String.mk h.txt, used := g.used }
  | none => { id := g.id, text := g.text, used := g.used }

end Veil

/-- Every token of a hidden block starts the block. -/
def GoodTok (V : Veil) (t : Token) : Prop :=
  hidden (plan_of V) t.pos.blk = true → t.pos.off = 0

/-- The words the engine compares a token with by `token_cmp`, apart from
macro keys. -/
def engine_words : List (List Char) :=
  [['('], [')'], [','], "__LINE__".toList, "__FILE__".toList]

/-- The veil is what its plan says: no block twice, and a block that
`token_concat` makes hides the join of the texts of its parts and the kind of
the first part. -/
structure Fits (V : Veil) : Prop where
  nodup : (V.map (fun h => h.blk)).Nodup
  join : ∀ h ∈ V, h.parts ≠ [] → h.txt = (h.parts.map (txt_at V)).flatten ∧
    (h.parts.head?.bind (hid_at V)).map (fun h0 => h0.kind) = some h.kind

/-- What the veiled run needs of a state: no hidden block is block `0`, the
tokens of the hidden blocks start their block, and a hidden text is no macro key and, when its tokens are identifiers
or reserved words, none of the words of the engine. -/
structure Good (V : Veil) (s : State) : Prop where
  fits : Fits V
  pos : ∀ h ∈ V, h.blk ≠ 0
  toks : ∀ t ∈ s.toks, GoodTok V t
  keys : ∀ h ∈ V, ∀ r ∈ s.macros, r.key ≠ h.txt
  words : ∀ h ∈ V, (h.kind = Kind.TK_IDENT ∨ h.kind = Kind.TK_RESERVED) →
    ∀ w ∈ engine_words, h.txt ≠ w

/-- The engine function `m` on the unveiled state does what the veiled
function `m'` does: where `m'` returns `a`, `m` returns `g a`, and the
result satisfies `P`. -/
def Sim {α : Type} (V : Veil) (g : α → α) (P : α → Prop) (m m' : M α) : Prop :=
  ∀ s a s', Good V s → m' s = Res.ok a s' →
    m (unveil V s) = Res.ok (g a) (unveil V s') ∧ Good V s' ∧ P a

/-! ## Expanding a call -/

/-- The state when the program has read the source text `defs` to its end. -/
def state_after (fuel : Nat) (defs : String) : Option State :=
  match main_tokens fuel [] "in.c".toList (initState [("in.c".toList, defs.toList)]) with
  | Res.ok _ s => some s
  | Res.err _ => none

/-- The keys of the macros that are defined when the program has read `defs`,
the predefined ones among them. -/
def macro_keys (fuel : Nat) (defs : String) : List (List Char) :=
  match state_after fuel defs with
  | some s => s.macros.map (fun r => r.key)
  | none => []

/-- The number of blocks of the character memory when the program has read
`defs`. -/
def mem_size (fuel : Nat) (defs : String) : Nat :=
  match state_after fuel defs with
  | some s => s.mem.length
  | none => 0

/-- The token that `token_instant` makes in block `b`. -/
def instant_token (k : Kind) (b : Nat) (len : Nat) (env : Ptr) : Token :=
  { id := k, pos := { blk := b, off := 0 }, len := len, leadings := 0, env := env,
    macro_org := 0, used := 0, next := 0 }

/-- A chain of tokens with the given kinds and texts, each text in a block of
its own, linked by `next`; the last link is `NULL`.  This is how
`consume_func_args` leaves the tokens of a call that the lexer read without
white space between them. -/
def token_chain : List (Kind × List Char) → M Ptr
  | [] => pure 0
  | (k, w) :: rest => do
    let t ← token_instant k w
    let n ← token_chain rest
    setNext t n
    pure t

/-- The expansion of a call after the definitions `defs`: in the state in
which the program has read `defs`, the tokens `call` are the identifier that
`stmt` found, stitched to the tokens that `consume_func_args` read behind it;
`stmt` stores the identifier in `macro_org`, and `expand_recursive` rewrites the
chain.  The result is the chain it returns, as an observer sees it. -/
def expand_call (fuel : Nat) (defs : String) (call : List (Kind × List Char)) :
    Option (List Seen) :=
  match state_after fuel defs with
  | none => none
  | some s0 =>
    match (do
        let h ← token_chain call
        modifyState (fun s => { s with macro_org := h })
        expand_recursive fuel h) s0 with
    | Res.ok (h, _) s => some (seen_chain s fuel h)
    | Res.err _ => none

/-- The hidden blocks `rel`, counted from block `b`. -/
def shift_plan (b : Nat) (rel : Plan) : Plan :=
  rel.map (fun e => (b + e.1, e.2.map (fun x => b + x)))

namespace Veil

/-- One token of `token_chain` with hidden tokens: `none` stands for a token
whose kind and text are hidden, and gets a hidden block. -/
def chain_item (pl : Plan) (it : Option (Kind × List Char)) : M Ptr := do
  let s ← getState
  match it with
  | some (k, w) =>
    if hidden pl s.mem.length then fail Err.undef else token_instant k w
  | none =>
    if hidden pl s.mem.length then token_instant Kind.TK_SPACES [] else fail Err.undef

/-- The chain of `token_chain` with hidden tokens. -/
def token_chain (pl : Plan) : List (Option (Kind × List Char)) → M Ptr
  | [] => pure 0
  | it :: rest => do
    let t ← chain_item pl it
    let n ← token_chain pl rest
    setNext t n
    pure t

/-- The tokens of a chain of a state with the hidden blocks of `pl`; nothing
when a hidden token points outside the memory. -/
def glimpses (pl : Plan) (s : State) : Nat → Ptr → Option (List Glimpse)
  | 0, _ => some []
  | _, 0 => some []
  | fuel + 1, k + 1 =>
    match s.toks[k]? with
    | some t =>
      if hidden pl t.pos.blk then
        if t.pos.blk < s.mem.length then
          (glimpses pl s fuel t.next).map (fun gs =>
            { id := t.id, text := "", hid := some t.pos.blk,
              used := used_keys s fuel t.used } :: gs)
        else none
      else
        (glimpses pl s fuel t.next).map (fun gs =>
          { id := t.id, text := String.mk (slice s t.pos t.len), hid := none,
            used := used_keys s fuel t.used } :: gs)
    | none => some []

/-- The function `expand_call` with hidden tokens: the hidden blocks are those
of `rel`, counted from the first block that the chain allocates. -/
def expand_call (rel : Plan) (fuel : Nat) (defs : String)
    (call : List (Option (Kind × List Char))) : Option (List Glimpse) :=
  match state_after fuel defs with
  | none => none
  | some s0 =>
    if 0 < s0.mem.length ∧ s0.toks.all (fun t => decide (t.pos.blk < s0.mem.length)) then
      match (do
          let h ← token_chain (shift_plan s0.mem.length rel) call
          modifyState (fun s => { s with macro_org := h })
          expand_recursive (shift_plan s0.mem.length rel) fuel h) s0 with
      | Res.ok (h, _) s => glimpses (shift_plan s0.mem.length rel) s fuel h
      | Res.err _ => none
    else none

end Veil

/-- The call with what the hidden tokens hide: the token that gets block `n`
has the kind and the text that `V` gives for that block. -/
def fill_items (V : Veil) : Nat → List (Option (Kind × List Char)) → List (Kind × List Char)
  | _, [] => []
  | n, some kw :: rest => kw :: fill_items V (n + 1) rest
  | n, none :: rest =>
    (match hid_at V n with
     | some h => (h.kind, h.txt)
     | none => (Kind.TK_SPACES, [])) :: fill_items V (n + 1) rest

/-- What the hidden tokens must be for the veiled run after `defs` to be the
run of the engine: the veil is what its plan says, its blocks come after those
of the state, no hidden text is the key of a macro, and no hidden text of an
identifier or reserved word is one of the words of the engine. -/
structure Fair (V : Veil) (fuel : Nat) (defs : String) : Prop where
  fits : Fits V
  base : ∀ h ∈ V, mem_size fuel defs ≤ h.blk
  keys : ∀ h ∈ V, h.txt ∉ macro_keys fuel defs
  words : ∀ h ∈ V, (h.kind = Kind.TK_IDENT ∨ h.kind = Kind.TK_RESERVED) →
    ∀ w ∈ engine_words, h.txt ≠ w

/-- The definition of the claim on nested calls. -/
def nested_defs : String := "#define a2(x) !x!\n"

/-- The definitions of the claim on mutual recursion. -/
def mutual_defs : String :=
  "#define a0(x) c0(b0(x))\n#define b0(x) c0(a0(x))\n#define c0(x) @x@\n"

/-- The definition of the claim on token concatenation. -/
def concat_defs : String := "#define C(a,b) a##b\n"

/-! ## The claims in the words of the specification -/

/-- The text of a token: the `len` characters at `pos`. -/
def token_text (s : State) (t : Token) : List Char :=
  slice s t.pos t.len

/-- The pointer `t1` is a token, an identifier or reserved word, of one
character, with the text `(`. -/
def is_open_paren (s : State) (t1 : Ptr) : Bool :=
  match t1 with
  | 0 => false
  | k + 1 =>
    match s.toks[k]? with
    | some r =>
      (decide (r.id = Kind.TK_IDENT) || decide (r.id = Kind.TK_RESERVED)) &&
        (decide (r.len = 1) && decide (token_text s r = ['(']))
    | none => false

/-- The table entry `m` is eligible for the tokens `t0` and `t1`: its key is
the text of `t0`, and it is function-like with `t1` the token `(`, or
object-like with `t1` absent or not the token `(`. -/
def eligible (s : State) (t0 : Token) (t1 : Ptr) (m : Ptr) : Bool :=
  match s.macros[m - 1]? with
  | some r =>
    decide (r.key = token_text s t0) &&
      (if r.params ≠ 0 then is_open_paren s t1 else !is_open_paren s t1)
  | none => false

/-- The table entry `m` has the text of `t` as its key. -/
def has_key (s : State) (t : Token) (m : Ptr) : Bool :=
  match s.macros[m - 1]? with
  | some r => decide (r.key = token_text s t)
  | none => false

/-- The text of the token lies inside its block of the memory. -/
def in_block (s : State) (t : Token) : Prop :=
  (token_text s t).length = t.len

instance (s : State) (t : Token) : Decidable (in_block s t) := by
  unfold in_block; infer_instance

/-- Every entry of the macro table is a record of the heap. -/
def table_ok (s : State) (tab : List Ptr) : Prop :=
  ∀ m ∈ tab, m - 1 < s.macros.length

instance (s : State) (tab : List Ptr) : Decidable (table_ok s tab) := by
  unfold table_ok; infer_instance

/-- A state with the table `F(a)`, `X`, `F` (most recent first) and the
tokens `F`, `(`, `X`. -/
def table_example : State :=
  { initState [] with
    mem := [[], ['F', '(', 'X']],
    toks := [{ zeroToken with id := Kind.TK_IDENT, pos := { blk := 1, off := 0 }, len := 1 },
             { zeroToken with id := Kind.TK_RESERVED, pos := { blk := 1, off := 1 }, len := 1 },
             { zeroToken with id := Kind.TK_IDENT, pos := { blk := 1, off := 2 }, len := 1 }],
    macros := [{ key := ['F'], params := 0, to_ := 1 }, { key := ['X'], params := 0, to_ := 1 },
               { key := ['F'], params := 3, to_ := 1 }],
    macro_tab := [3, 2, 1] }

/-- The file `p` can be read. -/
def readable (s : State) (p : List Char) : Bool :=
  (file_text s p).isSome

/-! ## Token lists on the heap -/

/-- The list that starts at the token `t` is `ps`: every element is a record
of the heap, `next` links it to the element behind it, and the last element
has no successor. -/
def is_chain (s : State) : Ptr → List Ptr → Bool
  | t, [] => decide (t = 0)
  | t, p :: ps =>
    decide (t = p) &&
      (match tok p s with
       | Res.ok r _ => is_chain s r.next ps
       | Res.err _ => false)

/-- The parenthesis depth behind the tokens `ps`: the number of `(` less the
number of `)` among them. -/
def paren_depth (s : State) (ps : List Ptr) : Int :=
  (ps.countP (fun p => token_cmp s p ['('])) - (ps.countP (fun p => token_cmp s p [')']))

/-- In the words of the specification: at position `i` of the list `ps` an
argument is empty, that is, the depth behind the token is 1 and the token
and the one behind it are `(` and `,`, or `,` and `)`, or `,` and `,`. -/
def empty_after (s : State) (ps : List Ptr) (i : Nat) : Bool :=
  decide (paren_depth s (ps.take (i + 1)) = 1) &&
    ((token_cmp s (ps.getD i 0) ['('] && token_cmp s (ps.getD (i + 1) 0) [',']) ||
     (token_cmp s (ps.getD i 0) [','] && token_cmp s (ps.getD (i + 1) 0) [')']) ||
     (token_cmp s (ps.getD i 0) [','] && token_cmp s (ps.getD (i + 1) 0) [',']))

/-- In the words of the specification: the list `ps` with one new token
behind every position at which an argument is empty.  The new tokens are the
records that follow those of the heap of `s`, in the order of the list. -/
def with_empty_args (s : State) (ps : List Ptr) : List Ptr :=
  (List.range ps.length).flatMap (fun i =>
    ps.getD i 0 ::
      (if empty_after s ps i then
        [s.toks.length + 1 + ((List.range i).filter (empty_after s ps)).length]
      else []))

/-- The token `p` is a record of the heap of `s` with no characters. -/
def zero_length (s : State) (p : Ptr) : Bool :=
  match tok p s with
  | Res.ok r _ => decide (r.len = 0)
  | Res.err _ => false

/-- The test of `token_norm_args` at the token `p` with successor `q`, at the
depth `d` in front of `p`; `f p w` tells whether the token `p` is the word
`w`. -/
def norm_gap (f : Ptr → List Char → Bool) (d : Int) (p q : Ptr) : Prop :=
  d + (if f p ['('] then 1 else 0) - (if f p [')'] then 1 else 0) = 1 ∧
    ((f p ['('] ∧ f q [',']) ∨ (f p [','] ∧ f q [')']) ∨ (f p [','] ∧ f q [',']))

instance (f : Ptr → List Char → Bool) (d : Int) (p q : Ptr) : Decidable (norm_gap f d p q) := by
  unfold norm_gap
  infer_instance

/-- The depth that `token_norm_args` counts behind the token `p`. -/
def norm_depth (f : Ptr → List Char → Bool) (d : Int) (p : Ptr) : Int :=
  d + (if f p ['('] then 1 else 0) - (if f p [')'] then 1 else 0)

/-- The walk of `token_norm_args` over a list, with `d` the depth in front of
the list and `n` the next record to be allocated. -/
def norm_list (f : Ptr → List Char → Bool) : Int → Nat → List Ptr → List Ptr
  | _, _, [] => []
  | d, n, p :: ps =>
    if norm_gap f d p (ps.headD 0) then p :: n :: norm_list f (norm_depth f d p) (n + 1) ps
    else p :: norm_list f (norm_depth f d p) n ps

/-- What `token_norm_args` may do to the heap on the list `ps`: allocate
zero-length identifiers and change the `next` of tokens of `ps`. -/
def Relinked (s s' : State) (ps : List Ptr) : Prop :=
  s' = { s with toks := s'.toks } ∧ s.toks.length ≤ s'.toks.length ∧
  (∀ k r, s.toks[k]? = some r →
    ∃ r', s'.toks[k]? = some r' ∧ r = { r' with next := r.next } ∧ (k + 1 ∉ ps → r' = r)) ∧
  (∀ k r', s.toks.length ≤ k → s'.toks[k]? = some r' → r'.id = Kind.TK_IDENT ∧ r'.len = 0)

/-- A state with the list of the tokens `f ( , , )`. -/
def args_example : State :=
  { initState [] with
    mem := [[], ['f', '(', ',', ',', ')']],
    toks := [{ zeroToken with id := Kind.TK_IDENT, pos := { blk := 1, off := 0 }, len := 1,
                              next := 2 },
             { zeroToken with id := Kind.TK_RESERVED, pos := { blk := 1, off := 1 }, len := 1,
                              next := 3 },
             { zeroToken with id := Kind.TK_RESERVED, pos := { blk := 1, off := 2 }, len := 1,
                              next := 4 },
             { zeroToken with id := Kind.TK_RESERVED, pos := { blk := 1, off := 3 }, len := 1,
                              next := 5 },
             { zeroToken with id := Kind.TK_RESERVED, pos := { blk := 1, off := 4 }, len := 1 }] }

/-! ## States in which the rescan does not end -/

/-- Every used-macro node of the heap names a macro record and is linked to a
node of the heap or to `NULL`. -/
def used_closed (s : State) : Prop :=
  ∀ u ∈ s.useds, (1 ≤ u.mac ∧ u.mac ≤ s.macros.length) ∧ u.next ≤ s.useds.length

instance (s : State) : Decidable (used_closed s) := by
  unfold used_closed
  infer_instance

/-- The token is neither an identifier nor a punctuator, so `token_cmp` is
false on it whatever the word. -/
def no_name (t : Token) : Prop :=
  t.id ≠ Kind.TK_IDENT ∧ t.id ≠ Kind.TK_RESERVED

instance (t : Token) : Decidable (no_name t) := by
  unfold no_name
  infer_instance

/-- The record of the token `p`, a blank record when `p` is no token. -/
def tokD (s : State) (p : Ptr) : Token :=
  s.toks.getD (p - 1) zeroToken

/-- The record of the macro `m`, an empty record when `m` is no macro. -/
def macD (s : State) (m : Ptr) : Macro :=
  s.macros.getD (m - 1) { key := [], params := 0, to_ := 0 }

/-- The token `sd` is looked up as the object-like macro `m` whose replacement
is two tokens, the first of them a token that is no name and has the text of
`sd`; `sd` itself is no name, or it carries no used macro and is neither
`__LINE__` nor `__FILE__`. -/
def Looping (s : State) (m sd : Ptr) : Prop :=
  (0 < sd ∧ sd ≤ s.toks.length) ∧ (0 < m ∧ m ≤ s.macros.length) ∧
  (0 < (macD s m).to_ ∧ (macD s m).to_ ≤ s.toks.length) ∧
  (0 < (tokD s (macD s m).to_).next ∧ (tokD s (macD s m).to_).next ≤ s.toks.length) ∧
  (tokD s (tokD s (macD s m).to_).next).next = 0 ∧
  (no_name (tokD s sd) ∨
    ((tokD s sd).used = 0 ∧ token_cmp s sd "__LINE__".toList = false ∧
      token_cmp s sd "__FILE__".toList = false)) ∧
  (tokD s sd).used ≤ s.useds.length ∧ used_closed s ∧
  token_cmp s (tokD s sd).next ['('] = false ∧
  s.macro_tab ≠ [] ∧ macro_get_loop s (tokD s sd) (tokD s sd).next s.macro_tab = m ∧
  (macD s m).params = 0 ∧
  no_name (tokD s (macD s m).to_) ∧
  (tokD s (macD s m).to_).len = (tokD s sd).len ∧
  slice s (tokD s (macD s m).to_).pos (tokD s (macD s m).to_).len =
    slice s (tokD s sd).pos (tokD s sd).len ∧
  token_cmp s (tokD s (macD s m).to_).next ['('] = false

instance (s : State) (m sd : Ptr) : Decidable (Looping s m sd) := by
  unfold Looping
  infer_instance

/-- The state in which `expand_call` starts `expand_recursive`, with the first
token of the call: the program has read `defs`, and the tokens `call` are on
the heap. -/
def call_state (fuel : Nat) (defs : String) (call : List (Kind × List Char)) :
    Option (Ptr × State) :=
  match state_after fuel defs with
  | none => none
  | some s0 =>
    match (do
        let h ← token_chain call
        modifyState (fun s => { s with macro_org := h })
        pure h) s0 with
    | Res.ok h s => some (h, s)
    | Res.err _ => none

/-- The state `s` with other token and used-macro heaps. -/
def with_heaps (s : State) (t : List Token) (u : List UsedMacro) : State :=
  { s with toks := t, useds := u }

/-! ## Used-macro lists on the heap -/

/-- The used-macro nodes from `u` on are the nodes `l`, linked by `next`; the
last link is `NULL`. -/
def used_chain (s : State) : Ptr → List Ptr → Bool
  | u, [] => decide (u = 0)
  | u, p :: ps =>
    decide (u = p) &&
      (match usedNode p s with
       | Res.ok n _ => used_chain s n.next ps
       | Res.err _ => false)

/-- The macros of the used-macro nodes `l`. -/
def used_macs (s : State) (l : List Ptr) : List Ptr :=
  l.map (fun u =>
    match usedNode u s with
    | Res.ok n _ => n.mac
    | Res.err _ => 0)

/-- The parameter `f` of a copy of the replacement `f(4)` of `a1`, with the
used-macro node that `expand_def` gave it. -/
def subst_param : Token :=
  { zeroToken with id := Kind.TK_IDENT, pos := { blk := 1, off := 0 }, len := 1, used := 1 }

/-- The argument token `b1` that the expansion of `b1(b1)` left, with its
used-macro node. -/
def subst_arg : Token :=
  { zeroToken with id := Kind.TK_IDENT, pos := { blk := 2, off := 0 }, len := 2, used := 2 }

/-- A state with the parameter `f`, whose used-macro set is `a1`, and the
argument token `b1`, whose used-macro set is `b1`. -/
def subst_example : State :=
  { initState [] with
    mem := [[], ['f'], ['b', '1']],
    toks := [subst_param, subst_arg],
    useds := [{ mac := 1, next := 0 }, { mac := 2, next := 0 }],
    macros := [{ key := ['a', '1'], params := 0, to_ := 0 },
               { key := ['b', '1'], params := 0, to_ := 0 }] }

/-! ## Conditional chains -/

/-- C1: after the `#if 1` branch of a chain was taken, the `#else` branch and
a later `#elif 1` branch are emitted as well: `cntlflow` overwrites `on` at
the first `#elif`, so the chain forgets that a branch was taken. -/
theorem C1_branch_after_taken_branch :
    preprocess 1000 "#if 1\nA\n#elif 0\nB\n#else\nC\n#endif\n" = Outcome.out "A\n\nC\n\n" ∧
    preprocess 1000 "#if 1\nA\n#elif 0\nB\n#elif 1\nC\n#endif\n" = Outcome.out "A\n\nC\n\n" := by
  decide!

/-- A chain in which at most one condition is non-zero emits one branch. -/
theorem cntlflow_single_true_branch :
    preprocess 1000 "#if 0\nA\n#elif 1\nB\n#else\nC\n#endif\n" = Outcome.out "\nB\n\n" ∧
    preprocess 1000 "#if 0\nA\n#elif 0\nB\n#else\nC\n#endif\n" = Outcome.out "\nC\n\n" := by
  decide!

/-! ## Constant expressions -/

/-- C2: the evaluator reads `1+2*3` as `(1+2)*3`: `plus` multiplies the values
of `mul`, and `mul` adds the values of `unary`.  So `1+2*3==7` is false and
`1+2*3==9` is true. -/
theorem C2_additive_binds_tighter :
    preprocess 1000 "#if 1+2*3==7\nyes\n#else\nno\n#endif\n" = Outcome.out "\nno\n\n" ∧
    preprocess 1000 "#if 1+2*3==9\nyes\n#else\nno\n#endif\n" = Outcome.out "yes\n\n" := by
  decide!

/-! ## Hygiene -/

/-- The call `a(10)` of `#define a(x) a(x-1)` expands once, to the tokens
`a ( 10 - 1 )`, each carrying `a` in its used-macro set. -/
theorem hygiene_simple_recursive :
    output_tokens 1000 "#define a(x) a(x-1)\na(10)\n" =
      some [plain Kind.TK_SPACES "",
        { id := Kind.TK_IDENT, text := "a", used := ["a"] },
        { id := Kind.TK_RESERVED, text := "(", used := ["a"] },
        { id := Kind.TK_NUM, text := "10", used := ["a"] },
        { id := Kind.TK_RESERVED, text := "-", used := ["a"] },
        { id := Kind.TK_NUM, text := "1", used := ["a"] },
        { id := Kind.TK_RESERVED, text := ")", used := ["a"] },
        plain Kind.TK_NEWLINE "\n", plain Kind.TK_EOF ""] := by
  decide!

/-- The program on `M` after `#define M "M" M` does not end within a budget of
60 steps. -/
theorem literal_budget :
    preprocess 60 "#define M \"M\" M\nM\n" = Outcome.timeout := by
  decide!

/-- With another text in the literal the same budget is enough. -/
theorem plain_budget :
    preprocess 60 "#define M \"N\" M\nM\n" = Outcome.out "\"N\" M\n" := by
  decide!

/-- In `a1(b1(b1))` the argument is expanded to the one token `b1`, which
carries `b1` in its used-macro set; the copy substituted for `f` keeps it (and
gains `a1`), so the rescan leaves `b1(4)` alone. -/
theorem used_set_example :
    output_tokens 1000 "#define a1(f) f(4)\n#define b1(x) x\na1(b1(b1))\n" =
      some [plain Kind.TK_SPACES "",
        { id := Kind.TK_IDENT, text := "b1", used := ["b1", "a1"] },
        { id := Kind.TK_RESERVED, text := "(", used := ["a1"] },
        { id := Kind.TK_NUM, text := "4", used := ["a1"] },
        { id := Kind.TK_RESERVED, text := ")", used := ["a1"] },
        plain Kind.TK_NEWLINE "\n", plain Kind.TK_EOF ""] ∧
    preprocess 1000 "#define a1(f) f(4)\n#define b1(x) x\na1(b1(b1))\n" =
      Outcome.out "b1(4)\n" := by
  decide!

/-! ## The test `defined` -/

/-- C7: for a function-like macro `F` the tests `#ifdef F`, `#if defined F`
and `#if defined(F)` are false and `#ifndef F` is true: they look `F` up
with `macro_get`, which finds a function-like macro only before a `(`. -/
theorem C7_defined_misses_function_like :
    preprocess 1000 "#define F(x) x\n#ifdef F\nA\n#else\nB\n#endif\n" = Outcome.out "\nB\n\n" ∧
    preprocess 1000 "#define F(x) x\n#if defined F\nA\n#else\nB\n#endif\n"
      = Outcome.out "\nB\n\n" ∧
    preprocess 1000 "#define F(x) x\n#if defined(F)\nA\n#else\nB\n#endif\n"
      = Outcome.out "\nB\n\n" ∧
    preprocess 1000 "#define F(x) x\n#ifndef F\nA\n#else\nB\n#endif\n" = Outcome.out "A\n\n" := by
  decide!

/-- For an object-like macro the four tests agree with the macro table, and
the macro is not expanded by them. -/
theorem defined_object_like :
    preprocess 1000 "#define X Y\n#ifdef X\nA\n#else\nB\n#endif\n" = Outcome.out "A\n\n" ∧
    preprocess 1000 "#define X Y\n#if defined X\nA\n#else\nB\n#endif\n" = Outcome.out "A\n\n" ∧
    preprocess 1000 "#define X Y\n#if defined(X)\nA\n#else\nB\n#endif\n" = Outcome.out "A\n\n" ∧
    preprocess 1000 "#define X Y\n#ifndef X\nA\n#else\nB\n#endif\n" = Outcome.out "\nB\n\n" ∧
    preprocess 1000 "#define Y 1\n#if defined X\nA\n#else\nB\n#endif\n" = Outcome.out "\nB\n\n" := by
  decide!

/-! ## Stringizing -/

/-- C8, as stated, fails: the output of `S(hello world)` is not the literal
`"hello world"`. -/
theorem C8_stringify_counterexample :
    preprocess 1000 "#define S(x) #x\nS(hello world)\n" ≠ Outcome.out "\"hello world\"\n" := by
  decide!

/-- C8, amended: `S(hello world)` is one string literal whose payload is the
slices of the argument's tokens with nothing between them. -/
theorem C8_stringify_joins_slices :
    output_tokens 1000 "#define S(x) #x\nS(hello world)\n" =
      some [plain Kind.TK_SPACES "",
        { id := Kind.TK_LITERAL, text := "helloworld", used := ["S"] },
        plain Kind.TK_NEWLINE "\n", plain Kind.TK_EOF ""] ∧
    preprocess 1000 "#define S(x) #x\nS(hello world)\n" = Outcome.out "\"helloworld\"\n" := by
  decide!

/-- C9: the call `f(,,)` of `#define f(a,b,c) #a #b #c` expands to three
string literals with empty payload, printed `"" "" ""`. -/
theorem C9_three_empty_arguments :
    output_tokens 1000 "#define f(a,b,c) #a #b #c\nf(,,)\n" =
      some [plain Kind.TK_SPACES "",
        { id := Kind.TK_LITERAL, text := "", used := ["f"] },
        { id := Kind.TK_LITERAL, text := "", used := ["f"] },
        { id := Kind.TK_LITERAL, text := "", used := ["f"] },
        plain Kind.TK_NEWLINE "\n", plain Kind.TK_EOF ""] ∧
    preprocess 1000 "#define f(a,b,c) #a #b #c\nf(,,)\n" = Outcome.out "\"\" \"\" \"\"\n" := by
  decide!

/-! ## Variadic macros -/

/-- C10: `__VA_ARGS__` stops at the first `)` after the first variadic
argument, not at the `)` that closes the call: `v(1, 2, g(3), 4)` yields
`2, g(3`.  A group in the first variadic argument is kept whole. -/
theorem C10_va_args_stops_at_first_paren :
    preprocess 1000 "#define v(a, ...) __VA_ARGS__\nv(1, 2, g(3), 4)\n"
      = Outcome.out "2, g(3\n" ∧
    preprocess 1000 "#define v(a, ...) __VA_ARGS__\nv(1, g(3), 4)\n"
      = Outcome.out "g(3), 4\n" := by
  decide!

/-! ## The macro table -/

theorem bind_apply {α β : Type} (x : M α) (f : α → M β) (s : State) :
    (x >>= f) s = match x s with
      | Res.ok a s1 => f a s1
      | Res.err e => Res.err e := rfl

theorem pure_apply {α : Type} (a : α) (s : State) : (pure a : M α) s = Res.ok a s := rfl

theorem scmp_iff (s : State) (t : Token) (hb : in_block s t) (w : List Char) :
    scmp s t.pos t.len w = decide (w = token_text s t) := by
  unfold scmp
  unfold in_block at hb
  unfold token_text at hb ⊢
  by_cases h : slice s t.pos t.len = w
  · subst h
    simp [hb]
  · have h2 : ¬ w = slice s t.pos t.len := fun e => h e.symm
    simp [h, h2]

theorem token_cmp_paren (s : State) (t1 : Ptr) :
    token_cmp s t1 ['('] = is_open_paren s t1 := by
  unfold token_cmp is_open_paren
  cases t1 with
  | zero => rfl
  | succ k =>
    simp only
    cases hk : s.toks[k]? with
    | none => rfl
    | some r =>
      simp only
      rfl

theorem macro_match_eligible (s : State) (t0 : Token) (hb : in_block s t0) (t1 : Ptr)
    (m : Ptr) (r : Macro) (hr : s.macros[m - 1]? = some r) :
    macro_match s t0 t1 r = eligible s t0 t1 m := by
  unfold macro_match eligible
  rw [hr, scmp_iff s t0 hb, token_cmp_paren]
  by_cases hp : r.params = 0 <;> simp [hp]

theorem macro_get_loop_find (s : State) (t0 : Token) (hb : in_block s t0) (t1 : Ptr) :
    ∀ (tab : List Ptr), table_ok s tab →
      macro_get_loop s t0 t1 tab = (tab.find? (eligible s t0 t1)).getD 0 := by
  intro tab
  induction tab with
  | nil => intro _; rfl
  | cons m ms ih =>
    intro hwf
    have hm : m - 1 < s.macros.length := hwf m (List.mem_cons_self _ _)
    have hms : table_ok s ms := fun x hx => hwf x (List.mem_cons_of_mem _ hx)
    unfold macro_get_loop
    have hr : s.macros[m - 1]? = some (s.macros[m - 1]) := List.getElem?_eq_getElem hm
    rw [hr]
    simp only
    rw [macro_match_eligible s t0 hb t1 m _ hr, List.find?_cons]
    cases he : eligible s t0 t1 m with
    | true => simp
    | false => simp [ih hms]

/-- C12: where the token `t0` is a record whose text lies inside its block and
the macro table holds records only, `macro_get(t0, t1)` returns the first entry
of the table, most recently added first, that is eligible: its key is the text
of `t0` and it is function-like with `t1` the token `(` or object-like with
`t1` absent or another token; it returns `NULL` when no entry is eligible.
The table is searched from its front, where `macro_add` puts a new macro. So
an object-like `X` before `(` and a function-like `F` before another token are
left alone, and of two macros `X` the later one is found. -/
theorem C12_macro_get_first_eligible (s : State) (t0 t1 : Ptr) (r : Token)
    (ht : tok t0 s = Res.ok r s) (hb : in_block s r) (hwf : table_ok s s.macro_tab) :
    macro_get t0 t1 s = Res.ok ((s.macro_tab.find? (eligible s r t1)).getD 0) s ∧
    (∀ (m : Macro) (s1 : State), (allocMacro m s1 : Res Ptr) =
      Res.ok (s1.macros.length + 1)
        { s1 with macros := s1.macros ++ [m],
                  macro_tab := (s1.macros.length + 1) :: s1.macro_tab }) ∧
    preprocess 1000 "#define X 1\nX(2)\n" = Outcome.out "X(2)\n" ∧
    preprocess 1000 "#define F(a) a\nF 2\n" = Outcome.out "F 2\n" ∧
    preprocess 1000 "#define F(a) a\n#define F 7\nF(2) F\n" = Outcome.out "2 7\n" ∧
    preprocess 1000 "#define X 1\n#define X 2\nX\n" = Outcome.out "2\n" := by
  refine ⟨?_, fun _ _ => rfl, ?_⟩
  · unfold macro_get
    rw [bind_apply]
    simp only [getState]
    cases htab : s.macro_tab with
    | nil => rfl
    | cons m ms =>
      simp only
      rw [bind_apply, ht]
      simp only [pure_apply]
      rw [← htab, macro_get_loop_find s r hb t1 s.macro_tab hwf]
  · decide!

/-- C12 at the state `table_example`: for `F` before `X` the object-like `F`
is found, behind the function-like `F` and `X`. -/
theorem C12_macro_get_first_eligible_witness :
    in_block table_example (table_example.toks.getD 0 zeroToken) ∧
    table_ok table_example table_example.macro_tab ∧
    macro_get 1 3 table_example =
      Res.ok ((table_example.macro_tab.find?
        (eligible table_example (table_example.toks.getD 0 zeroToken) 3)).getD 0)
        table_example ∧
    (table_example.macro_tab.find?
        (eligible table_example (table_example.toks.getD 0 zeroToken) 3)).getD 0 = 1 :=
  ⟨by decide, by decide,
   (C12_macro_get_first_eligible table_example 1 3 _ rfl (by decide) (by decide)).1,
   by decide⟩

theorem macro_rm_loop_erase (s : State) (t : Token) (hb : in_block s t) :
    ∀ (tab : List Ptr), table_ok s tab →
      macro_rm_loop s t tab = tab.eraseP (has_key s t) := by
  intro tab
  induction tab with
  | nil => intro _; rfl
  | cons m ms ih =>
    intro hwf
    have hm : m - 1 < s.macros.length := hwf m (List.mem_cons_self _ _)
    have hms : table_ok s ms := fun x hx => hwf x (List.mem_cons_of_mem _ hx)
    have hr : s.macros[m - 1]? = some (s.macros[m - 1]) := List.getElem?_eq_getElem hm
    have hk : has_key s t m = scmp s t.pos t.len (s.macros[m - 1]).key := by
      unfold has_key
      rw [hr, scmp_iff s t hb]
    unfold macro_rm_loop
    rw [hr]
    simp only
    rw [← hk]
    cases he : has_key s t m with
    | true => simp [List.eraseP_cons, he]
    | false => simp [List.eraseP_cons, he, ih hms]

theorem state_macro_tab_eq (s : State) : { s with macro_tab := s.macro_tab } = s := rfl

/-- C14: where the token `t` is a record whose text lies inside its block and
the macro table holds records only, `macro_rm(t)` erases from the table the
first entry, most recently added first, whose key is the text of `t`, and
changes nothing else: the other entries keep their order, and without such an
entry the table stays as it is.  So `X` is undefined after `#define X 1` and
`#undef X`, also when the `#undef` stands in a taken branch; of two
definitions of `X` the older one is left; and `#undef` of another name leaves
`X` defined. -/
theorem C14_macro_rm_first_match (s : State) (t : Ptr) (r : Token)
    (ht : tok t s = Res.ok r s) (hb : in_block s r) (hwf : table_ok s s.macro_tab) :
    macro_rm t s = Res.ok () { s with macro_tab := s.macro_tab.eraseP (has_key s r) } ∧
    preprocess 1000 "#define X 1\n#undef X\n#ifdef X\nA\n#else\nB\n#endif\n"
      = Outcome.out "\n\nB\n\n" ∧
    preprocess 1000 "#define X 1\n#ifdef X\n#undef X\n#endif\n#ifdef X\nA\n#else\nB\n#endif\n"
      = Outcome.out "\n\n\nB\n\n" ∧
    preprocess 1000 "#define X 1\n#define X 2\n#undef X\nX\n" = Outcome.out "\n1\n" ∧
    preprocess 1000 "#define X 1\n#undef Y\nX\n" = Outcome.out "\n1\n" := by
  refine ⟨?_, ?_⟩
  · unfold macro_rm
    rw [bind_apply]
    simp only [getState]
    cases htab : s.macro_tab with
    | nil =>
      simp only [List.eraseP_nil, pure_apply]
      rw [← htab]
    | cons m ms =>
      simp only
      rw [bind_apply, ht]
      simp only [setState]
      rw [← htab, macro_rm_loop_erase s r hb s.macro_tab hwf]
  · decide!

/-- C14 at the state `table_example`: `#undef F` erases the function-like
`F`, the first entry, and leaves `X` and the object-like `F`. -/
theorem C14_macro_rm_first_match_witness :
    in_block table_example (table_example.toks.getD 0 zeroToken) ∧
    table_ok table_example table_example.macro_tab ∧
    macro_rm 1 table_example =
      Res.ok () { table_example with
        macro_tab := table_example.macro_tab.eraseP
          (has_key table_example (table_example.toks.getD 0 zeroToken)) } ∧
    table_example.macro_tab.eraseP
      (has_key table_example (table_example.toks.getD 0 zeroToken)) = [2, 1] :=
  ⟨by decide, by decide,
   (C14_macro_rm_first_match table_example 1 _ rfl (by decide) (by decide)).1,
   by decide⟩

/-! ## Empty parameter lists -/

/-- C13: after `#define f() R` the macro `f` is object-like: the call `f()` is
left as it is and a bare `f` becomes `R`.  `macro_add` ends the parameter list
by storing `NULL` in the link that holds `)`, and for an empty list that link
is the one it reads `params` from.  With a parameter the macro is
function-like. -/
theorem C13_empty_parameter_list_object_like :
    preprocess 1000 "#define f() R\nf()\nf\n" = Outcome.out "f()\nR\n" ∧
    preprocess 1000 "#define g(x) R\ng(1)\ng\n" = Outcome.out "R\ng\n" := by
  decide!

/-! ## White space and comments -/

/-- C15: white space in front of a comment is lost when white space follows
the comment: `token_next` keeps only the last run of white space it read.
Without a comment between them the runs are one run and are printed as they
are, and the white space in front of a comment at the end of a line is
kept. -/
theorem C15_space_before_comment_lost :
    preprocess 1000 "a /* c */ b\n" = Outcome.out "a b\n" ∧
    preprocess 1000 "a\t/* c */ b\n" = Outcome.out "a b\n" ∧
    preprocess 1000 "a // c\n" = Outcome.out "a \n" ∧
    preprocess 1000 "a \t\\\n b \"s t\" 'c' 12L + x\n"
      = Outcome.out "a \t\\\n b \"s t\" 'c' 12L + x\n" := by
  decide!

/-! ## Quoted literals -/

/-- C16: a backslash that was itself consumed by a backslash still consumes
the character after it: `token_quoted` sets its flag at every backslash.  So
the literal `"a\\"` does not end at its closing quote, and neither does the
character literal of a backslash; with no later quote the run stops with
`No closing quote`, with a later quote the literal runs up to it.  A quote
after a single backslash is consumed as the claim says. -/
theorem C16_escaped_backslash_escapes :
    preprocess 1000 "\"a\\\\\" b\n" = Outcome.exit "No closing quote" ∧
    preprocess 1000 "'\\\\' b\n" = Outcome.exit "No closing quote" ∧
    output_tokens 1000 "\"a\\\\\" b\" c\n" =
      some [plain Kind.TK_SPACES "", plain Kind.TK_LITERAL "a\\\\\" b", plain Kind.TK_IDENT "c",
        plain Kind.TK_NEWLINE "\n", plain Kind.TK_EOF ""] ∧
    output_tokens 1000 "\"a\\\"b\" c\n" =
      some [plain Kind.TK_SPACES "", plain Kind.TK_LITERAL "a\\\"b", plain Kind.TK_IDENT "c",
        plain Kind.TK_NEWLINE "\n", plain Kind.TK_EOF ""] := by
  decide!

/-! ## Keywords -/

/-- C17: the lexeme `warning` is an identifier and the lexeme `warinig` is a
reserved word: the text that `keywords_init` cuts into words spells the
directive name `warinig`. -/
theorem C17_warning_not_reserved :
    output_tokens 1000 "warning warinig include x\n" =
      some [plain Kind.TK_SPACES "", plain Kind.TK_IDENT "warning",
        plain Kind.TK_RESERVED "warinig", plain Kind.TK_RESERVED "include",
        plain Kind.TK_IDENT "x", plain Kind.TK_NEWLINE "\n", plain Kind.TK_EOF ""] := by
  decide!

/-! ## Include paths -/

theorem inc_path_loop_some (s : State) (fname : List Char) (sk : Int) :
    ∀ (ds : List (List Char)) (i : Nat) (p : List Char) (j : Int),
      inc_path_loop s fname sk ds i = some (p, j) →
      ∃ (n : Nat) (d : List Char), j = ((i + n : Nat) : Int) ∧ sk ≤ ((i + n : Nat) : Int) ∧
        ds[n]? = some d ∧ p = mk_path d fname ∧ readable s p = true ∧
        ∀ (k : Nat) (d1 : List Char), k < n → sk ≤ ((i + k : Nat) : Int) → ds[k]? = some d1 →
          readable s (mk_path d1 fname) = false := by
  intro ds
  induction ds with
  | nil => intro i p j h; cases h
  | cons d ds ih =>
    intro i p j h
    unfold inc_path_loop at h
    by_cases hc : (i : Int) ≥ sk ∧ (file_text s (mk_path d fname)).isSome = true
    · rw [if_pos hc] at h
      cases h
      refine ⟨0, d, rfl, hc.1, by simp, rfl, hc.2, ?_⟩
      intro k d1 hk
      exact absurd hk (Nat.not_lt_zero k)
    · rw [if_neg hc] at h
      obtain ⟨n, d2, hj, hsk, hd, hp, hr, hmin⟩ := ih (i + 1) p j h
      refine ⟨n + 1, d2, ?_, ?_, ?_, hp, hr, ?_⟩
      · rw [hj]; congr 1; omega
      · have e : i + (n + 1) = i + 1 + n := by omega
        rw [e]; exact hsk
      · simpa using hd
      · intro k d1 hk hsk1 hd1
        cases k with
        | zero =>
          simp only [List.getElem?_cons_zero, Option.some.injEq] at hd1
          subst hd1
          cases hrd : readable s (mk_path d fname) with
          | false => rfl
          | true => exact absurd ⟨hsk1, hrd⟩ hc
        | succ k =>
          have e : i + (k + 1) = i + 1 + k := by omega
          rw [e] at hsk1
          exact hmin k d1 (by omega) hsk1 (by simpa using hd1)

theorem inc_path_loop_none (s : State) (fname : List Char) (sk : Int) :
    ∀ (ds : List (List Char)) (i : Nat),
      inc_path_loop s fname sk ds i = none →
      ∀ (k : Nat) (d1 : List Char), sk ≤ ((i + k : Nat) : Int) → ds[k]? = some d1 →
        readable s (mk_path d1 fname) = false := by
  intro ds
  induction ds with
  | nil => intro i _ k d1 _ hd; simp at hd
  | cons d ds ih =>
    intro i h k d1 hsk hd1
    unfold inc_path_loop at h
    by_cases hc : (i : Int) ≥ sk ∧ (file_text s (mk_path d fname)).isSome = true
    · rw [if_pos hc] at h; cases h
    · rw [if_neg hc] at h
      cases k with
      | zero =>
        simp only [List.getElem?_cons_zero, Option.some.injEq] at hd1
        subst hd1
        cases hrd : readable s (mk_path d fname) with
        | false => rfl
        | true => exact absurd ⟨hsk, hrd⟩ hc
      | succ k =>
        have e : i + (k + 1) = i + 1 + k := by omega
        rw [e] at hsk
        exact ih (i + 1) h k d1 hsk (by simpa using hd1)

/-- C19: with the files of the state as what can be read, and the current
environment a record, `inc_path_find(fname, &skips, 0)` with `skips = sk`
returns the path `D[n]/fname` for the least index `n ≥ sk` at which that file
can be read, and stores `n` in `skips`; it returns `NULL` when there is no
such index.  `#include_next` passes the skip index of the current environment
plus one, so a file found at `D[i]` resolves `#include_next` at an index
above `i` only: in the runs below `a.h` of `d0` includes `a.h` of `d1`, or of
`d2` where `d1` has none, and never itself. -/
theorem C19_include_next_monotone (s : State) (fname : List Char) (sk : Int) (e : Env)
    (he : envAt s.env s = Res.ok e s) :
    (∃ r, inc_path_find fname sk false s = Res.ok r s ∧
      (∀ p j, r = some (p, j) →
        ∃ (n : Nat) (d : List Char), j = (n : Int) ∧ sk ≤ (n : Int) ∧ s.incdir[n]? = some d ∧
          p = mk_path d fname ∧ readable s p = true ∧
          ∀ (k : Nat) (d1 : List Char), k < n → sk ≤ (k : Int) → s.incdir[k]? = some d1 →
            readable s (mk_path d1 fname) = false) ∧
      (r = none → ∀ (k : Nat) (d1 : List Char), sk ≤ (k : Int) → s.incdir[k]? = some d1 →
        readable s (mk_path d1 fname) = false) ∧
      (∀ (i : Int) p j, sk = i + 1 → r = some (p, j) → i < j)) ∧
    run 1000 [("in.c", "#include <a.h>\n"), ("d0/a.h", "A0\n#include_next <a.h>\n"),
        ("d1/a.h", "A1\n")] ["d0", "d1"] "in.c" = Outcome.out "A0\nA1\n\n\n" ∧
    run 1000 [("in.c", "#include <a.h>\n"), ("d0/a.h", "A0\n#include_next <a.h>\n"),
        ("d2/a.h", "A2\n")] ["d0", "d1", "d2"] "in.c" = Outcome.out "A0\nA2\n\n\n" ∧
    run 1000 [("in.c", "#include <a.h>\n"), ("d0/a.h", "A0\n#include_next <a.h>\n")]
        ["d0", "d1"] "in.c" = Outcome.exit "Can not find include file" ∧
    run 1000 [("in.c", "#include <a.h>\n"), ("d1/a.h", "A1\n#include_next <a.h>\n"),
        ("d0/b.h", "B\n")] ["d0", "d1"] "in.c" = Outcome.exit "Can not find include file" := by
  refine ⟨⟨inc_path_loop s fname sk s.incdir 0, ?_, ?_, ?_, ?_⟩, ?_⟩
  · unfold inc_path_find
    rw [bind_apply]
    simp only [getState]
    rw [bind_apply, he]
    simp
    rfl
  · intro p j h
    obtain ⟨n, d, hj, hsk, hd, hp, hr, hmin⟩ := inc_path_loop_some s fname sk s.incdir 0 p j h
    refine ⟨n, d, ?_, ?_, hd, hp, hr, ?_⟩
    · simpa using hj
    · simpa using hsk
    · intro k d1 hk hsk1 hd1
      exact hmin k d1 hk (by simpa using hsk1) hd1
  · intro h k d1 hsk hd1
    exact inc_path_loop_none s fname sk s.incdir 0 h k d1 (by simpa using hsk) hd1
  · intro i p j hi h
    obtain ⟨n, d, hj, hsk, _⟩ := inc_path_loop_some s fname sk s.incdir 0 p j h
    omega
  · decide!

/-- C19 at the start state of a file system with `d/a.h`, for the one
directory `d`. -/
theorem C19_include_next_monotone_witness :
    envAt 1 { initState [("d/a.h".toList, [])] with incdir := ["d".toList] }
      = Res.ok { path := [], skips := 0, input := 0, pos := { blk := 0, off := 0 }, cur := 0,
                 next := 0 }
          { initState [("d/a.h".toList, [])] with incdir := ["d".toList] } ∧
    ∃ r, inc_path_find "a.h".toList 0 false
        { initState [("d/a.h".toList, [])] with incdir := ["d".toList] }
      = Res.ok r { initState [("d/a.h".toList, [])] with incdir := ["d".toList] } :=
  ⟨rfl,
   (C19_include_next_monotone
      { initState [("d/a.h".toList, [])] with incdir := ["d".toList] } "a.h".toList 0 _ rfl).1.imp
      (fun _ h => h.1)⟩

/-! ## The names `__LINE__` and `__FILE__` -/

/-- C20: for macros defined in the included file `./h.h` and called in line 4
of `in.c`, `__LINE__` prints the line of the call, `4`, and `__FILE__` prints
the path of the file of the definition, `./h.h`: `print_tokens` takes the line
from `macro_org` and the path from the environment of the token itself. -/
theorem C20_file_reports_definition_site :
    run 1000 [("in.c", "#include \"h.h\"\n\n\nL F\n"),
        ("./h.h", "#define L __LINE__\n#define F __FILE__\n")] [] "in.c"
      = Outcome.out "\n\n\n4 \"./h.h\"\n" ∧
    run 1000 [("in.c", "#include \"h.h\"\n\n\nL\n"), ("./h.h", "\n\n\n\n\n#define L __LINE__\n")]
        [] "in.c" = Outcome.out "\n\n\n\n\n\n\n\n4\n" ∧
    preprocess 1000 "#define L __LINE__\n\n\nL __LINE__ __FILE__\n"
      = Outcome.out "\n\n4 4 \"in.c\"\n" := by
  decide!

/-! ## Veiled runs: the framework -/

theorem bind_ok {α β : Type} {m : M α} {f : α → M β} {s s' : State} {b : β}
    (h : (m >>= f) s = Res.ok b s') : ∃ a s1, m s = Res.ok a s1 ∧ f a s1 = Res.ok b s' := by
  rw [bind_apply] at h
  cases hm : m s with
  | ok a s1 => rw [hm] at h; exact ⟨a, s1, rfl, h⟩
  | err e => rw [hm] at h; cases h

theorem bind_of_ok {α β : Type} {m : M α} {f : α → M β} {s s1 : State} {a : α}
    (h : m s = Res.ok a s1) : (m >>= f) s = f a s1 := by
  rw [bind_apply, h]

namespace Sim

variable {V : Veil} {α β : Type}

theorem pure {g : α → α} {P : α → Prop} {a : α} (h : P a) :
    Sim V g P (Pure.pure (g a)) (Pure.pure a) := by
  intro s b s' hs hb
  rw [pure_apply] at hb
  cases hb
  exact ⟨rfl, hs, h⟩

theorem pureE {P : α → Prop} {a : α} (h : P a) :
    Sim V id P (Pure.pure a) (Pure.pure a) :=
  Sim.pure h

theorem fail {g : α → α} {P : α → Prop} {m : M α} {e : Err} : Sim V g P m (Prep.fail e) := by
  intro s b s' _ hb
  cases hb

theorem bind {g : α → α} {P : α → Prop} {h : β → β} {Q : β → Prop} {m m' : M α}
    {f f' : α → M β} (hm : Sim V g P m m') (hf : ∀ a, P a → Sim V h Q (f (g a)) (f' a)) :
    Sim V h Q (m >>= f) (m' >>= f') := by
  intro s b s' hs hb
  obtain ⟨a, s1, h1, h2⟩ := bind_ok hb
  obtain ⟨e1, g1, p1⟩ := hm s a s1 hs h1
  rw [bind_of_ok e1]
  exact hf a p1 s1 b s' g1 h2

theorem bindE {P : α → Prop} {h : β → β} {Q : β → Prop} {m m' : M α}
    {f f' : α → M β} (hm : Sim V id P m m') (hf : ∀ a, P a → Sim V h Q (f a) (f' a)) :
    Sim V h Q (m >>= f) (m' >>= f') :=
  Sim.bind hm hf

theorem ite {g : α → α} {P : α → Prop} {c : Prop} [Decidable c] {a a' b b' : M α}
    (ha : c → Sim V g P a a') (hb : ¬c → Sim V g P b b') :
    Sim V g P (if c then a else b) (if c then a' else b') := by
  by_cases hc : c
  · simp only [hc, if_true]; exact ha hc
  · simp only [hc, if_false]; exact hb hc

theorem weaken {g : α → α} {P Q : α → Prop} {m m' : M α} (h : Sim V g P m m')
    (hpq : ∀ a, P a → Q a) : Sim V g Q m m' := by
  intro s a s' hs ha
  obtain ⟨e, g1, p⟩ := h s a s' hs ha
  exact ⟨e, g1, hpq a p⟩

end Sim

/-! ### Hidden blocks -/

theorem hidden_plan (V : Veil) (b : Nat) : hidden (plan_of V) b = (hid_at V b).isSome := by
  induction V with
  | nil => rfl
  | cons h V ih =>
    unfold hidden plan_of hid_at at ih ⊢
    simp only [List.map_cons, List.any_cons, List.find?_cons]
    by_cases hb : h.blk = b
    · simp [hb]
    · simp [hb, ih]

theorem hid_at_mem {V : Veil} {b : Nat} {h : Hid} (e : hid_at V b = some h) :
    h ∈ V ∧ h.blk = b := by
  unfold hid_at at e
  refine ⟨List.mem_of_find?_eq_some e, ?_⟩
  have := List.find?_some e
  simpa using this

theorem hid_at_none {V : Veil} {b : Nat} (e : hidden (plan_of V) b = false) :
    hid_at V b = none := by
  rw [hidden_plan] at e
  cases h : hid_at V b with
  | none => rfl
  | some x => rw [h] at e; cases e

theorem hid_at_some {V : Veil} {b : Nat} (e : hidden (plan_of V) b = true) :
    ∃ h, hid_at V b = some h := by
  rw [hidden_plan] at e
  cases h : hid_at V b with
  | none => rw [h] at e; cases e
  | some x => exact ⟨x, rfl⟩

/-! ### Tokens of the unveiled state -/

@[simp] theorem unveilTok_pos (V : Veil) (t : Token) : (unveilTok V t).pos = t.pos := by
  unfold unveilTok; split <;> rfl

@[simp] theorem unveilTok_leadings (V : Veil) (t : Token) :
    (unveilTok V t).leadings = t.leadings := by
  unfold unveilTok; split <;> rfl

@[simp] theorem unveilTok_env (V : Veil) (t : Token) : (unveilTok V t).env = t.env := by
  unfold unveilTok; split <;> rfl

@[simp] theorem unveilTok_macro_org (V : Veil) (t : Token) :
    (unveilTok V t).macro_org = t.macro_org := by
  unfold unveilTok; split <;> rfl

@[simp] theorem unveilTok_used (V : Veil) (t : Token) : (unveilTok V t).used = t.used := by
  unfold unveilTok; split <;> rfl

@[simp] theorem unveilTok_next (V : Veil) (t : Token) : (unveilTok V t).next = t.next := by
  unfold unveilTok; split <;> rfl

theorem unveilTok_of_plain (V : Veil) (t : Token) (h : hidden (plan_of V) t.pos.blk = false) :
    unveilTok V t = t := by
  unfold unveilTok; rw [hid_at_none h]

theorem unveilTok_of_hid (V : Veil) (t : Token) (h : Hid) (e : hid_at V t.pos.blk = some h) :
    unveilTok V t = { t with id := h.kind, len := h.txt.length } := by
  unfold unveilTok; rw [e]

/-- A field update that leaves `id`, `pos` and `len` alone commutes with
`unveilTok`. -/
theorem unveilTok_update (V : Veil) (t : Token) (leadings env macro_org used next : Ptr) :
    ({ id := (unveilTok V t).id, pos := t.pos, len := (unveilTok V t).len,
       leadings := leadings, env := env, macro_org := macro_org, used := used,
       next := next } : Token) =
    unveilTok V { id := t.id, pos := t.pos, len := t.len, leadings := leadings, env := env,
                  macro_org := macro_org, used := used, next := next } := by
  unfold unveilTok
  cases hid_at V t.pos.blk <;> rfl

theorem goodTok_update {V : Veil} {t : Token} (ht : GoodTok V t) (leadings env macro_org used
    next : Ptr) :
    GoodTok V { id := t.id, pos := t.pos, len := t.len, leadings := leadings, env := env,
                macro_org := macro_org, used := used, next := next } := ht

/-! ### The unveiled state -/

@[simp] theorem unveil_useds (V : Veil) (s : State) : (unveil V s).useds = s.useds := rfl
@[simp] theorem unveil_macros (V : Veil) (s : State) : (unveil V s).macros = s.macros := rfl
@[simp] theorem unveil_envs (V : Veil) (s : State) : (unveil V s).envs = s.envs := rfl
@[simp] theorem unveil_macro_tab (V : Veil) (s : State) :
    (unveil V s).macro_tab = s.macro_tab := rfl
@[simp] theorem unveil_macro_org (V : Veil) (s : State) :
    (unveil V s).macro_org = s.macro_org := rfl
@[simp] theorem unveil_env (V : Veil) (s : State) : (unveil V s).env = s.env := rfl
@[simp] theorem unveil_cur (V : Veil) (s : State) : (unveil V s).cur = s.cur := rfl
@[simp] theorem unveil_toks (V : Veil) (s : State) :
    (unveil V s).toks = s.toks.map (unveilTok V) := rfl
@[simp] theorem unveil_mem (V : Veil) (s : State) :
    (unveil V s).mem = unveilMem V 0 s.mem := rfl

theorem unveilMem_length (V : Veil) : ∀ (m : List (List Char)) (i : Nat),
    (unveilMem V i m).length = m.length := by
  intro m
  induction m with
  | nil => intro i; rfl
  | cons c m ih => intro i; simp [unveilMem, ih]

theorem unveilMem_append (V : Veil) : ∀ (m : List (List Char)) (i : Nat) (cs : List Char),
    unveilMem V i (m ++ [cs]) = unveilMem V i m ++
      [match hid_at V (i + m.length) with
       | some h => h.txt
       | none => cs] := by
  intro m
  induction m with
  | nil => intro i cs; simp [unveilMem]
  | cons c m ih =>
    intro i cs
    have e : i + 1 + m.length = i + (m.length + 1) := by omega
    have h := ih (i + 1) cs
    rw [e] at h
    simp only [List.cons_append, unveilMem, List.length_cons]
    exact congrArg _ h

theorem unveilMem_getD (V : Veil) : ∀ (m : List (List Char)) (i k : Nat),
    (unveilMem V i m).getD k [] =
      match hid_at V (i + k) with
      | some h => if k < m.length then h.txt else []
      | none => m.getD k [] := by
  intro m
  induction m with
  | nil =>
    intro i k
    simp only [unveilMem, List.getD_nil, List.length_nil, Nat.not_lt_zero, if_false]
    cases hid_at V (i + k) <;> rfl
  | cons c m ih =>
    intro i k
    cases k with
    | zero =>
      simp only [unveilMem, List.getD_cons_zero, Nat.add_zero, List.length_cons,
        Nat.zero_lt_succ, if_true]
    | succ k =>
      simp only [unveilMem, List.getD_cons_succ, ih, List.length_cons,
        Nat.add_lt_add_iff_right]
      have e : i + 1 + k = i + (k + 1) := by omega
      rw [e]

theorem sim_getState (V : Veil) : Sim V (unveil V) (Good V) getState getState := by
  intro s a s' hs h
  cases h
  exact ⟨rfl, hs, hs⟩

theorem tok_ok {p : Ptr} {s s' : State} {t : Token} (h : tok p s = Res.ok t s') :
    s' = s ∧ ∃ k, p = k + 1 ∧ s.toks[k]? = some t := by
  unfold tok at h
  cases p with
  | zero => cases h
  | succ k =>
    simp only at h
    cases hk : s.toks[k]? with
    | none => rw [hk] at h; cases h
    | some r => rw [hk] at h; cases h; exact ⟨rfl, k, rfl, hk⟩

theorem good_tok {V : Veil} {s : State} (hs : Good V s) {k : Nat} {t : Token}
    (h : s.toks[k]? = some t) : GoodTok V t :=
  hs.toks t (List.getElem?_mem h)

theorem sim_tok (V : Veil) (p : Ptr) : Sim V (unveilTok V) (GoodTok V) (tok p) (tok p) := by
  intro s a s' hs h
  obtain ⟨rfl, k, rfl, hk⟩ := tok_ok h
  refine ⟨?_, hs, good_tok hs hk⟩
  simp [tok, hk]

theorem good_set {V : Veil} {s : State} (hs : Good V s) {k : Nat} {t : Token}
    (ht : GoodTok V t) : Good V { s with toks := s.toks.set k t } where
  fits := hs.fits
  pos := hs.pos
  toks := by
    intro x hx
    rcases List.mem_or_eq_of_mem_set hx with h | h
    · exact hs.toks x h
    · exact h ▸ ht
  keys := hs.keys
  words := hs.words

theorem sim_setTok (V : Veil) (p : Ptr) (t : Token) (ht : GoodTok V t) :
    Sim V id (fun _ => True) (setTok p (unveilTok V t)) (setTok p t) := by
  intro s a s' hs h
  unfold setTok at h
  cases p with
  | zero => cases h
  | succ k =>
    simp only at h
    by_cases hk : k < s.toks.length
    · rw [if_pos hk] at h
      cases h
      refine ⟨?_, good_set hs ht, trivial⟩
      simp [setTok, hk, unveil, List.map_set]
    · rw [if_neg hk] at h; cases h

theorem good_alloc {V : Veil} {s : State} (hs : Good V s) {t : Token} (ht : GoodTok V t) :
    Good V { s with toks := s.toks ++ [t] } where
  fits := hs.fits
  pos := hs.pos
  toks := by
    intro x hx
    rcases List.mem_append.mp hx with h | h
    · exact hs.toks x h
    · rw [List.mem_singleton] at h; exact h ▸ ht
  keys := hs.keys
  words := hs.words

theorem sim_allocTok (V : Veil) (t : Token) (ht : GoodTok V t) :
    Sim V id (fun _ => True) (allocTok (unveilTok V t)) (allocTok t) := by
  intro s a s' hs h
  unfold allocTok at h
  cases h
  refine ⟨?_, good_alloc hs ht, trivial⟩
  simp [allocTok, unveil]

/-- A function that reads the state in the fields that `unveil` leaves
alone. -/
theorem sim_untouched {α : Type} (V : Veil) (m : M α)
    (h : ∀ s a s', m s = Res.ok a s' → s' = s ∧ m (unveil V s) = Res.ok a (unveil V s)) :
    Sim V id (fun _ => True) m m := by
  intro s a s' hs hm
  obtain ⟨rfl, e⟩ := h s a s' hm
  exact ⟨e, hs, trivial⟩

theorem sim_usedNode (V : Veil) (u : Ptr) : Sim V id (fun _ => True) (usedNode u) (usedNode u) := by
  apply sim_untouched
  intro s a s' h
  unfold usedNode at h ⊢
  cases u with
  | zero => cases h
  | succ k =>
    simp only at h ⊢
    cases hk : s.useds[k]? with
    | none => rw [hk] at h; cases h
    | some r => rw [hk] at h; cases h; simp [hk]

theorem sim_macroAt (V : Veil) (m : Ptr) : Sim V id (fun _ => True) (macroAt m) (macroAt m) := by
  apply sim_untouched
  intro s a s' h
  unfold macroAt at h ⊢
  cases m with
  | zero => cases h
  | succ k =>
    simp only at h ⊢
    cases hk : s.macros[k]? with
    | none => rw [hk] at h; cases h
    | some r => rw [hk] at h; cases h; simp [hk]

theorem sim_setUsedNode (V : Veil) (u : Ptr) (n : UsedMacro) :
    Sim V id (fun _ => True) (setUsedNode u n) (setUsedNode u n) := by
  intro s a s' hs h
  unfold setUsedNode at h
  cases u with
  | zero => cases h
  | succ k =>
    simp only at h
    by_cases hk : k < s.useds.length
    · rw [if_pos hk] at h
      cases h
      refine ⟨?_, ⟨hs.fits, hs.pos, hs.toks, hs.keys, hs.words⟩, trivial⟩
      simp [setUsedNode, hk, unveil]
    · rw [if_neg hk] at h; cases h

theorem sim_allocUsed (V : Veil) (n : UsedMacro) :
    Sim V id (fun _ => True) (allocUsed n) (allocUsed n) := by
  intro s a s' hs h
  unfold allocUsed at h
  cases h
  refine ⟨?_, ⟨hs.fits, hs.pos, hs.toks, hs.keys, hs.words⟩, trivial⟩
  simp [allocUsed, unveil]

theorem sim_setNext (V : Veil) (p v : Ptr) :
    Sim V id (fun _ => True) (setNext p v) (setNext p v) := by
  unfold setNext
  apply Sim.bind (sim_tok V p)
  intro r hr
  simp only [unveilTok_pos, unveilTok_leadings, unveilTok_env,
    unveilTok_macro_org, unveilTok_used, unveilTok_next, unveilTok_update]
  exact sim_setTok V p _ (goodTok_update hr _ _ _ _ _)

theorem sim_setLeadings (V : Veil) (p v : Ptr) :
    Sim V id (fun _ => True) (setLeadings p v) (setLeadings p v) := by
  unfold setLeadings
  apply Sim.bind (sim_tok V p)
  intro r hr
  simp only [unveilTok_pos, unveilTok_leadings, unveilTok_env,
    unveilTok_macro_org, unveilTok_used, unveilTok_next, unveilTok_update]
  exact sim_setTok V p _ (goodTok_update hr _ _ _ _ _)

theorem sim_setUsed (V : Veil) (p v : Ptr) :
    Sim V id (fun _ => True) (setUsed p v) (setUsed p v) := by
  unfold setUsed
  apply Sim.bind (sim_tok V p)
  intro r hr
  simp only [unveilTok_pos, unveilTok_leadings, unveilTok_env,
    unveilTok_macro_org, unveilTok_used, unveilTok_next, unveilTok_update]
  exact sim_setTok V p _ (goodTok_update hr _ _ _ _ _)

theorem sim_token_stitch (V : Veil) (t prev : Ptr) :
    Sim V id (fun _ => True) (token_stitch t prev) (token_stitch t prev) := by
  unfold token_stitch
  apply Sim.ite
  · intro _; exact Sim.pureE trivial
  · intro _
    apply Sim.bindE (sim_setNext V prev t)
    intro _ _
    exact Sim.pureE trivial

theorem sim_token_dup (V : Veil) (src : Ptr) :
    Sim V id (fun _ => True) (token_dup src) (token_dup src) := by
  unfold token_dup
  apply Sim.bind (sim_tok V src)
  intro r hr
  exact sim_allocTok V r hr

theorem sim_readULoc (V : Veil) (ud : ULoc) :
    Sim V id (fun _ => True) (readULoc ud) (readULoc ud) := by
  cases ud with
  | ofTok p =>
    unfold readULoc
    apply Sim.bind (sim_tok V p)
    intro r _
    simp only [unveilTok_used]
    exact Sim.pureE trivial
  | ofNode u =>
    unfold readULoc
    apply Sim.bindE (sim_usedNode V u)
    intro n _
    exact Sim.pureE trivial

theorem sim_writeULoc (V : Veil) (ud : ULoc) (v : Ptr) :
    Sim V id (fun _ => True) (writeULoc ud v) (writeULoc ud v) := by
  cases ud with
  | ofTok p =>
    unfold writeULoc
    exact sim_setUsed V p v
  | ofNode u =>
    unfold writeULoc
    apply Sim.bindE (sim_usedNode V u)
    intro n _
    exact sim_setUsedNode V u _

theorem sim_usedmacro_find (V : Veil) (fuel : Nat) :
    ∀ (ud : ULoc) (m : Ptr),
      Sim V id (fun _ => True) (usedmacro_find fuel ud m) (usedmacro_find fuel ud m) := by
  induction fuel with
  | zero => intro ud m; unfold usedmacro_find; exact Sim.fail
  | succ n ih =>
    intro ud m
    unfold usedmacro_find
    apply Sim.bindE (sim_readULoc V ud)
    intro u _
    apply Sim.ite
    · intro _; exact Sim.pureE trivial
    · intro _
      apply Sim.bindE (sim_usedNode V u)
      intro nd _
      apply Sim.ite
      · intro _; exact ih _ _
      · intro _; exact Sim.pureE trivial

theorem sim_usedmacro_merge_loop (V : Veil) (fuel : Nat) :
    ∀ (dest : ULoc) (ua : Ptr),
      Sim V id (fun _ => True) (usedmacro_merge_loop fuel dest ua)
        (usedmacro_merge_loop fuel dest ua) := by
  induction fuel with
  | zero => intro dest ua; unfold usedmacro_merge_loop; exact Sim.fail
  | succ n ih =>
    intro dest ua
    unfold usedmacro_merge_loop
    apply Sim.ite
    · intro _; exact Sim.pureE trivial
    · intro _
      apply Sim.bindE (sim_usedNode V ua)
      intro a _
      apply Sim.bindE (sim_usedmacro_find V n dest a.mac)
      intro ud _
      apply Sim.bindE (sim_readULoc V ud)
      intro u _
      apply Sim.ite
      · intro _; exact ih _ _
      · intro _
        apply Sim.bindE (sim_writeULoc V ud ua)
        intro _ _
        apply Sim.bindE (sim_usedNode V ua)
        intro a1 _
        apply Sim.bindE (sim_readULoc V ud)
        intro v _
        apply Sim.bindE (sim_usedNode V v)
        intro nd _
        apply Sim.bindE (sim_setUsedNode V v _)
        intro _ _
        exact ih _ _

theorem sim_usedmacro_merge (V : Veil) (fuel : Nat) (dest : ULoc) (add : Ptr) :
    Sim V id (fun _ => True) (usedmacro_merge fuel dest add) (usedmacro_merge fuel dest add) :=
  sim_usedmacro_merge_loop V fuel dest add

theorem sim_readLoc (V : Veil) (l : Locals) (a : Loc) :
    Sim V id (fun _ => True) (readLoc l a) (readLoc l a) := by
  cases a with
  | head => unfold readLoc; exact Sim.pureE trivial
  | prev => unfold readLoc; exact Sim.pureE trivial
  | next p =>
    unfold readLoc
    apply Sim.bind (sim_tok V p)
    intro r _
    simp only [unveilTok_next]
    exact Sim.pureE trivial

theorem sim_writeLoc (V : Veil) (l : Locals) (a : Loc) (v : Ptr) :
    Sim V id (fun _ => True) (writeLoc l a v) (writeLoc l a v) := by
  cases a with
  | head => unfold writeLoc; exact Sim.pureE trivial
  | prev => unfold writeLoc; exact Sim.pureE trivial
  | next p =>
    unfold writeLoc
    apply Sim.bindE (sim_setNext V p v)
    intro _ _
    exact Sim.pureE trivial

theorem sim_token_replace_arg_loop (V : Veil) (fuel : Nat) :
    ∀ (l : Locals) (taddr : Loc) (t delim used : Ptr),
      Sim V id (fun _ => True) (token_replace_arg_loop fuel l taddr t delim used)
        (token_replace_arg_loop fuel l taddr t delim used) := by
  induction fuel with
  | zero => intro l taddr t delim used; unfold token_replace_arg_loop; exact Sim.fail
  | succ n ih =>
    intro l taddr t delim used
    unfold token_replace_arg_loop
    apply Sim.ite
    · intro _; exact Sim.pureE trivial
    · intro _
      apply Sim.bindE (sim_token_dup V t)
      intro d _
      apply Sim.bindE (sim_writeLoc V l taddr d)
      intro l1 _
      apply Sim.bindE (sim_readLoc V l1 taddr)
      intro c _
      apply Sim.bindE (sim_usedmacro_merge V n (ULoc.ofTok c) used)
      intro _ _
      apply Sim.bindE (sim_readLoc V l1 taddr)
      intro c1 _
      apply Sim.bind (sim_tok V c1)
      intro r1 _
      simp only [unveilTok_next]
      apply Sim.ite
      · intro _; exact Sim.pureE trivial
      · intro _
        apply Sim.bind (sim_tok V t)
        intro r _
        simp only [unveilTok_next]
        exact ih _ _ _ _ _

theorem sim_token_replace_arg (V : Veil) (fuel : Nat) (l : Locals) (taddr : Loc)
    (start delim : Ptr) :
    Sim V id (fun _ => True) (token_replace_arg fuel l taddr start delim)
      (token_replace_arg fuel l taddr start delim) := by
  unfold token_replace_arg
  apply Sim.bindE (sim_readLoc V l taddr)
  intro c _
  apply Sim.bind (sim_tok V c)
  intro r _
  apply Sim.bind (sim_tok V start)
  intro st hst
  simp only [unveilTok_pos, unveilTok_leadings, unveilTok_env,
    unveilTok_macro_org, unveilTok_used, unveilTok_next, unveilTok_update]
  apply Sim.bindE (sim_setTok V start _ (goodTok_update hst _ _ _ _ _))
  intro _ _
  apply Sim.bindE (sim_token_replace_arg_loop V fuel l taddr start delim r.used)
  intro x _
  obtain ⟨l1, taddr1⟩ := x
  simp only
  apply Sim.bindE (sim_readLoc V l1 taddr1)
  intro c1 _
  apply Sim.bindE (sim_setNext V c1 r.next)
  intro _ _
  exact Sim.pureE trivial

theorem goodTok_zero (V : Veil) : GoodTok V zeroToken := fun _ => rfl

theorem hidden_zero {V : Veil} (h : ∀ x ∈ V, x.blk ≠ 0) : hidden (plan_of V) 0 = false := by
  cases e : hidden (plan_of V) 0 with
  | false => rfl
  | true =>
    obtain ⟨x, hx⟩ := hid_at_some e
    obtain ⟨hm, hb⟩ := hid_at_mem hx
    exact absurd hb (h x hm)

theorem unveilTok_zero (V : Veil) (h : ∀ x ∈ V, x.blk ≠ 0) :
    unveilTok V zeroToken = zeroToken :=
  unveilTok_of_plain V zeroToken (hidden_zero h)

/-- Allocation of the record `Token head = {0}`. -/
theorem sim_allocZero (V : Veil) :
    Sim V id (fun _ => True) (allocTok zeroToken) (allocTok zeroToken) := by
  intro s a s' hs h
  have h1 := sim_allocTok V zeroToken (goodTok_zero V) s a s' hs h
  rwa [unveilTok_zero V hs.pos] at h1

theorem sim_expand_def_loop (V : Veil) (fuel : Nat) :
    ∀ (m used prev t : Ptr),
      Sim V id (fun _ => True) (expand_def_loop fuel m used prev t)
        (expand_def_loop fuel m used prev t) := by
  induction fuel with
  | zero => intro m used prev t; unfold expand_def_loop; exact Sim.fail
  | succ n ih =>
    intro m used prev t
    unfold expand_def_loop
    apply Sim.ite
    · intro _; exact Sim.pureE trivial
    · intro _
      apply Sim.bindE (sim_token_dup V t)
      intro d _
      apply Sim.bindE (sim_allocUsed V _)
      intro u _
      apply Sim.bindE (sim_setUsed V d u)
      intro _ _
      apply Sim.bindE (sim_token_stitch V d prev)
      intro d1 _
      apply Sim.bind (sim_tok V d1)
      intro r _
      simp only [unveilTok_next]
      exact ih _ _ _ _

theorem sim_expand_def (V : Veil) (fuel : Nat) (m used : Ptr) :
    Sim V id (fun _ => True) (expand_def fuel m used) (expand_def fuel m used) := by
  unfold expand_def
  apply Sim.bindE (sim_allocZero V)
  intro head _
  apply Sim.bindE (sim_macroAt V m)
  intro r _
  apply Sim.bindE (sim_expand_def_loop V fuel m used head r.to_)
  intro _ _
  apply Sim.bind (sim_tok V head)
  intro h _
  simp only [unveilTok_next]
  exact Sim.pureE trivial

/-! ### Functions that take `expand_recursive` as an argument -/

theorem sim_expand_recursive_list_loop (V : Veil) {rec rec' : Ptr → M (Ptr × Ptr)}
    (hrec : ∀ t, Sim V id (fun _ => True) (rec t) (rec' t)) (fuel : Nat) :
    ∀ (prev t : Ptr),
      Sim V id (fun _ => True) (expand_recursive_list_loop rec fuel prev t)
        (expand_recursive_list_loop rec' fuel prev t) := by
  induction fuel with
  | zero => intro prev t; unfold expand_recursive_list_loop; exact Sim.fail
  | succ n ih =>
    intro prev t
    unfold expand_recursive_list_loop
    apply Sim.ite
    · intro _; exact Sim.pureE trivial
    · intro _
      apply Sim.bindE (hrec t)
      intro x _
      obtain ⟨r, t1⟩ := x
      simp only
      apply Sim.bindE (sim_token_stitch V r prev)
      intro _ _
      apply Sim.bind (sim_tok V t1)
      intro c _
      simp only [unveilTok_next]
      apply Sim.ite
      · intro _; exact Sim.pureE trivial
      · intro _; exact ih _ _

theorem sim_expand_recursive_list (V : Veil) {rec rec' : Ptr → M (Ptr × Ptr)}
    (hrec : ∀ t, Sim V id (fun _ => True) (rec t) (rec' t)) (fuel : Nat) (t : Ptr) :
    Sim V id (fun _ => True) (expand_recursive_list rec fuel t)
      (expand_recursive_list rec' fuel t) := by
  unfold expand_recursive_list
  apply Sim.bindE (sim_allocZero V)
  intro head _
  apply Sim.bindE (sim_expand_recursive_list_loop V hrec fuel head t)
  intro t1 _
  apply Sim.bind (sim_tok V head)
  intro h _
  simp only [unveilTok_next]
  exact Sim.pureE trivial

theorem sim_expand_func_args (V : Veil) {rec rec' : Ptr → M (Ptr × Ptr)}
    (hrec : ∀ t, Sim V id (fun _ => True) (rec t) (rec' t)) (fuel : Nat) :
    ∀ (prev t te : Ptr),
      Sim V id (fun _ => True) (expand_func_args rec fuel prev t te)
        (expand_func_args rec' fuel prev t te) := by
  induction fuel with
  | zero => intro prev t te; unfold expand_func_args; exact Sim.fail
  | succ n ih =>
    intro prev t te
    unfold expand_func_args
    apply Sim.ite
    · intro _; exact Sim.pureE trivial
    · intro _
      apply Sim.bindE (hrec t)
      intro x _
      obtain ⟨r, t1⟩ := x
      simp only
      apply Sim.bindE (sim_token_stitch V r prev)
      intro _ _
      apply Sim.bind (sim_tok V t1)
      intro c _
      simp only [unveilTok_next]
      exact ih _ _ _

theorem sim_expand_obj (V : Veil) {rec rec' : Ptr → M (Ptr × Ptr)}
    (hrec : ∀ t, Sim V id (fun _ => True) (rec t) (rec' t)) (fuel : Nat) (sd m : Ptr) :
    Sim V id (fun _ => True) (expand_obj rec fuel sd m) (expand_obj rec' fuel sd m) := by
  unfold expand_obj
  apply Sim.bind (sim_tok V sd)
  intro n _
  simp only [unveilTok_used]
  apply Sim.bindE (sim_expand_def V fuel m n.used)
  intro t _
  apply Sim.bindE (sim_expand_recursive_list V hrec fuel t)
  intro x _
  obtain ⟨head, t1⟩ := x
  simp only
  apply Sim.bind (sim_tok V sd)
  intro n1 _
  simp only [unveilTok_next]
  apply Sim.bindE (sim_setNext V t1 n1.next)
  intro _ _
  exact Sim.pureE trivial
/-! ### Reading texts of the unveiled state -/

theorem restAt_unveil_plain (V : Veil) (s : State) (p : CPtr)
    (h : hidden (plan_of V) p.blk = false) : restAt (unveil V s) p = restAt s p := by
  unfold restAt
  rw [unveil_mem, unveilMem_getD, Nat.zero_add, hid_at_none h]

theorem slice_unveil_plain (V : Veil) (s : State) (p : CPtr) (n : Nat)
    (h : hidden (plan_of V) p.blk = false) : slice (unveil V s) p n = slice s p n := by
  unfold slice
  rw [restAt_unveil_plain V s p h]

theorem scmp_unveil_plain (V : Veil) (s : State) (p : CPtr) (n : Nat) (w : List Char)
    (h : hidden (plan_of V) p.blk = false) : scmp (unveil V s) p n w = scmp s p n w := by
  unfold scmp
  rw [slice_unveil_plain V s p n h]

theorem slice_unveil_hid (V : Veil) (s : State) (p : CPtr) (x : Hid)
    (hx : hid_at V p.blk = some x) (ho : p.off = 0) (hlt : p.blk < s.mem.length) :
    slice (unveil V s) p x.txt.length = x.txt := by
  unfold slice restAt
  rw [unveil_mem, unveilMem_getD, Nat.zero_add, hx]
  simp [hlt, ho]

theorem scmp_unveil_hid (V : Veil) (s : State) (p : CPtr) (x : Hid) (w : List Char)
    (hx : hid_at V p.blk = some x) (ho : p.off = 0) (hw : x.txt ≠ w) :
    scmp (unveil V s) p x.txt.length w = false := by
  unfold scmp slice restAt
  rw [unveil_mem, unveilMem_getD, Nat.zero_add, hx]
  by_cases hlt : p.blk < s.mem.length
  · simp [hlt, ho, hw]
  · simp only [hlt, if_false, ho, List.drop_nil, List.take_nil, Bool.and_eq_false_imp,
      decide_eq_true_eq, decide_eq_false_iff_not]
    intro hl hn
    apply hw
    rw [← hn] at hl
    rw [← hn]
    exact List.length_eq_zero.mp hl

/-- The comparison `token_cmp` on the unveiled state, for a word that the
hidden texts differ from when they are carried by identifiers. -/
theorem token_cmp_unveil (V : Veil) (s : State) (hs : Good V s) (t : Ptr) (w : List Char)
    (hw : ∀ h ∈ V, (h.kind = Kind.TK_IDENT ∨ h.kind = Kind.TK_RESERVED) → h.txt ≠ w) :
    token_cmp (unveil V s) t w = Veil.token_cmp (plan_of V) s t w := by
  unfold Veil.token_cmp veiled token_cmp
  cases t with
  | zero => simp
  | succ k =>
    simp only [unveil_toks, List.getElem?_map]
    cases hk : s.toks[k]? with
    | none => simp
    | some r =>
      have hr := good_tok hs hk
      simp only [Option.map_some']
      cases hb : hidden (plan_of V) r.pos.blk with
      | true =>
        obtain ⟨x, hx⟩ := hid_at_some hb
        have ho := hr hb
        obtain ⟨hm, _⟩ := hid_at_mem hx
        rw [unveilTok_of_hid V r x hx]
        simp only [if_true]
        by_cases hkd : x.kind = Kind.TK_IDENT ∨ x.kind = Kind.TK_RESERVED
        · rw [scmp_unveil_hid V s r.pos x w hx ho (hw x hm hkd)]
          simp
        · have h1 : decide (x.kind = Kind.TK_IDENT) = false := by
            simp only [decide_eq_false_iff_not]; exact fun h => hkd (Or.inl h)
          have h2 : decide (x.kind = Kind.TK_RESERVED) = false := by
            simp only [decide_eq_false_iff_not]; exact fun h => hkd (Or.inr h)
          rw [h1, h2]
          rfl
      | false =>
        rw [unveilTok_of_plain V r hb, scmp_unveil_plain V s r.pos r.len w hb]
        simp

/-- The comparison `token_cmp` on the unveiled state, for a token outside the
hidden blocks. -/
theorem token_cmp_unveil_of_not_veiled (V : Veil) (s : State) (t : Ptr) (w : List Char)
    (hv : veiled (plan_of V) s t = false) : token_cmp (unveil V s) t w = token_cmp s t w := by
  unfold veiled at hv
  unfold token_cmp
  cases t with
  | zero => rfl
  | succ k =>
    simp only [unveil_toks, List.getElem?_map]
    simp only at hv
    cases hk : s.toks[k]? with
    | none => simp
    | some r =>
      rw [hk] at hv
      simp only at hv
      simp only [Option.map_some']
      rw [unveilTok_of_plain V r hv, scmp_unveil_plain V s r.pos r.len w hv]

theorem words_of_mem {V : Veil} {s : State} (hs : Good V s) {w : List Char}
    (hw : w ∈ engine_words) :
    ∀ h ∈ V, (h.kind = Kind.TK_IDENT ∨ h.kind = Kind.TK_RESERVED) → h.txt ≠ w :=
  fun h hm hk => hs.words h hm hk w hw

theorem macro_match_unveil (V : Veil) (s : State) (hs : Good V s) (t0 : Token)
    (ht : GoodTok V t0) (t1 : Ptr) (r : Macro) (hr : ∀ h ∈ V, r.key ≠ h.txt) :
    macro_match (unveil V s) (unveilTok V t0) t1 r =
      Veil.macro_match (plan_of V) s t0 t1 r := by
  unfold macro_match Veil.macro_match
  rw [token_cmp_unveil V s hs t1 ['('] (words_of_mem hs (by simp [engine_words]))]
  simp only [unveilTok_pos]
  cases hb : hidden (plan_of V) t0.pos.blk with
  | true =>
    obtain ⟨x, hx⟩ := hid_at_some hb
    obtain ⟨hm, _⟩ := hid_at_mem hx
    have hlen : (unveilTok V t0).len = x.txt.length := by
      rw [unveilTok_of_hid V t0 x hx]
    rw [hlen, scmp_unveil_hid V s t0.pos x r.key hx (ht hb) (Ne.symm (hr x hm))]
    simp
  | false =>
    rw [unveilTok_of_plain V t0 hb, scmp_unveil_plain V s t0.pos t0.len r.key hb]
    simp

theorem macro_get_loop_unveil (V : Veil) (s : State) (hs : Good V s) (t0 : Token)
    (ht : GoodTok V t0) (t1 : Ptr) (ms : List Ptr) :
    macro_get_loop (unveil V s) (unveilTok V t0) t1 ms =
      Veil.macro_get_loop (plan_of V) s t0 t1 ms := by
  induction ms with
  | nil => rfl
  | cons m ms ih =>
    unfold macro_get_loop Veil.macro_get_loop
    simp only [unveil_macros]
    cases hm : s.macros[m - 1]? with
    | none => rfl
    | some r =>
      simp only
      rw [macro_match_unveil V s hs t0 ht t1 r
        (fun h hh => hs.keys h hh r (List.getElem?_mem hm)), ih]

/-! ### The veiled engine functions -/

theorem cmp_lparen {V : Veil} {s : State} (hs : Good V s) (t : Ptr) :
    token_cmp (unveil V s) t ['('] = Veil.token_cmp (plan_of V) s t ['('] :=
  token_cmp_unveil V s hs t _ (words_of_mem hs (by simp [engine_words]))

theorem cmp_rparen {V : Veil} {s : State} (hs : Good V s) (t : Ptr) :
    token_cmp (unveil V s) t [')'] = Veil.token_cmp (plan_of V) s t [')'] :=
  token_cmp_unveil V s hs t _ (words_of_mem hs (by simp [engine_words]))

theorem cmp_comma {V : Veil} {s : State} (hs : Good V s) (t : Ptr) :
    token_cmp (unveil V s) t [','] = Veil.token_cmp (plan_of V) s t [','] :=
  token_cmp_unveil V s hs t _ (words_of_mem hs (by simp [engine_words]))

theorem cmp_line {V : Veil} {s : State} (hs : Good V s) (t : Ptr) :
    token_cmp (unveil V s) t "__LINE__".toList = Veil.token_cmp (plan_of V) s t "__LINE__".toList :=
  token_cmp_unveil V s hs t _ (words_of_mem hs (by simp [engine_words]))

theorem cmp_file {V : Veil} {s : State} (hs : Good V s) (t : Ptr) :
    token_cmp (unveil V s) t "__FILE__".toList = Veil.token_cmp (plan_of V) s t "__FILE__".toList :=
  token_cmp_unveil V s hs t _ (words_of_mem hs (by simp [engine_words]))

theorem sim_token_next_arg_delim_loop (V : Veil) (fuel : Nat) :
    ∀ (t : Ptr) (depth : Int),
      Sim V id (fun _ => True) (token_next_arg_delim_loop fuel t depth)
        (Veil.token_next_arg_delim_loop (plan_of V) fuel t depth) := by
  induction fuel with
  | zero =>
    intro t depth
    unfold Veil.token_next_arg_delim_loop
    exact Sim.fail
  | succ n ih =>
    intro t depth
    unfold token_next_arg_delim_loop Veil.token_next_arg_delim_loop
    apply Sim.ite
    · intro _; exact Sim.pureE trivial
    · intro _
      apply Sim.bind (sim_getState V)
      intro s hs
      simp only [cmp_lparen hs, cmp_rparen hs, cmp_comma hs]
      apply Sim.ite
      · intro _; exact Sim.pureE trivial
      · intro _
        apply Sim.bind (sim_tok V t)
        intro r _
        simp only [unveilTok_next]
        exact ih _ _

theorem sim_token_next_arg_delim (V : Veil) (fuel : Nat) (t : Ptr) :
    Sim V id (fun _ => True) (token_next_arg_delim fuel t)
      (Veil.token_next_arg_delim (plan_of V) fuel t) :=
  sim_token_next_arg_delim_loop V fuel t 0

theorem sim_macro_get (V : Veil) (t0 t1 : Ptr) :
    Sim V id (fun _ => True) (macro_get t0 t1) (Veil.macro_get (plan_of V) t0 t1) := by
  unfold macro_get Veil.macro_get
  apply Sim.bind (sim_getState V)
  intro s hs
  simp only [unveil_macro_tab]
  cases s.macro_tab with
  | nil => exact Sim.pureE trivial
  | cons m ms =>
    simp only
    apply Sim.bind (sim_tok V t0)
    intro r hr
    rw [macro_get_loop_unveil V s hs r hr t1 (m :: ms)]
    exact Sim.pureE trivial

theorem sim_token_skip_after_func_loop (V : Veil) (fuel : Nat) :
    ∀ (t : Ptr),
      Sim V id (fun _ => True) (token_skip_after_func_loop fuel t)
        (Veil.token_skip_after_func_loop (plan_of V) fuel t) := by
  induction fuel with
  | zero =>
    intro t
    unfold Veil.token_skip_after_func_loop
    exact Sim.fail
  | succ n ih =>
    intro t
    unfold token_skip_after_func_loop Veil.token_skip_after_func_loop
    apply Sim.bind (sim_getState V)
    intro s hs
    simp only [cmp_rparen hs]
    apply Sim.ite
    · intro _; exact Sim.pureE trivial
    · intro _
      apply Sim.bind (sim_tok V t)
      intro r _
      simp only [unveilTok_next]
      apply Sim.bindE (sim_token_next_arg_delim V n r.next)
      intro d _
      exact ih _

theorem sim_token_skip_after_func (V : Veil) (fuel : Nat) (t : Ptr) :
    Sim V id (fun _ => True) (token_skip_after_func fuel t)
      (Veil.token_skip_after_func (plan_of V) fuel t) := by
  unfold token_skip_after_func Veil.token_skip_after_func
  apply Sim.bind (sim_tok V t)
  intro r _
  simp only [unveilTok_next]
  apply Sim.bindE (sim_token_skip_after_func_loop V fuel r.next)
  intro e _
  apply Sim.bind (sim_tok V e)
  intro re _
  simp only [unveilTok_next]
  exact Sim.pureE trivial

theorem sim_token_matched_arg_walk (V : Veil) (fuel : Nat) (k : Nat) :
    ∀ (prev ts sd : Ptr),
      Sim V id (fun _ => True) (token_matched_arg_walk fuel k prev ts sd)
        (Veil.token_matched_arg_walk (plan_of V) fuel k prev ts sd) := by
  induction k with
  | zero =>
    intro prev ts sd
    unfold token_matched_arg_walk Veil.token_matched_arg_walk
    exact Sim.pureE trivial
  | succ n ih =>
    intro prev ts sd
    unfold token_matched_arg_walk Veil.token_matched_arg_walk
    apply Sim.bindE (sim_token_next_arg_delim V fuel prev)
    intro sd1 _
    apply Sim.bind (sim_tok V sd1)
    intro r _
    simp only [unveilTok_next]
    exact ih _ _ _

theorem sim_token_matched_arg_loop (V : Veil) (fuel : Nat) :
    ∀ (ag pm : Ptr) (i : Nat) (ts sd : Ptr),
      Sim V id (fun _ => True) (token_matched_arg_loop fuel ag pm i ts sd)
        (Veil.token_matched_arg_loop (plan_of V) fuel ag pm i ts sd) := by
  induction fuel with
  | zero =>
    intro ag pm i ts sd
    unfold Veil.token_matched_arg_loop
    exact Sim.fail
  | succ n ih =>
    intro ag pm i ts sd
    unfold token_matched_arg_loop Veil.token_matched_arg_loop
    apply Sim.ite
    · intro _; exact Sim.pureE trivial
    · intro _
      apply Sim.bind (sim_tok V ag)
      intro a _
      apply Sim.bind (sim_tok V pm)
      intro p _
      apply Sim.bind (sim_getState V)
      intro s _
      by_cases hv : hidden (plan_of V) a.pos.blk = true ∨ hidden (plan_of V) p.pos.blk = true
      · rw [if_pos hv]
        exact Sim.fail
      · rw [if_neg hv]
        have ha : hidden (plan_of V) a.pos.blk = false := by
          cases h : hidden (plan_of V) a.pos.blk with
          | false => rfl
          | true => exact absurd (Or.inl h) hv
        have hp : hidden (plan_of V) p.pos.blk = false := by
          cases h : hidden (plan_of V) p.pos.blk with
          | false => rfl
          | true => exact absurd (Or.inr h) hv
        rw [unveilTok_of_plain V a ha, unveilTok_of_plain V p hp,
          slice_unveil_plain V s a.pos p.len ha, slice_unveil_plain V s p.pos p.len hp]
        apply Sim.ite
        · intro _; exact sim_token_matched_arg_walk V n (i + 1) ts ts sd
        · intro _; exact ih _ _ _ _ _

theorem sim_token_matched_arg (V : Veil) (fuel : Nat) (ag m sd : Ptr) :
    Sim V id (fun _ => True) (token_matched_arg fuel ag m sd)
      (Veil.token_matched_arg (plan_of V) fuel ag m sd) := by
  unfold token_matched_arg Veil.token_matched_arg
  apply Sim.bind (sim_tok V sd)
  intro n _
  simp only [unveilTok_next]
  apply Sim.bind (sim_tok V n.next)
  intro p _
  simp only [unveilTok_next]
  apply Sim.bindE (sim_macroAt V m)
  intro r _
  exact sim_token_matched_arg_loop V fuel ag r.params 0 p.next sd

/-! ### Concatenation of hidden tokens -/

theorem hid_at_of_mem {V : Veil} (hn : (V.map (fun h => h.blk)).Nodup) {h : Hid} (hm : h ∈ V) :
    hid_at V h.blk = some h := by
  induction V with
  | nil => cases hm
  | cons x V ih =>
    unfold hid_at
    rw [List.find?_cons]
    rw [List.map_cons, List.nodup_cons] at hn
    rcases List.mem_cons.mp hm with e | e
    · subst e; simp
    · have hne : x.blk ≠ h.blk := by
        intro hx
        apply hn.1
        rw [hx]
        exact List.mem_map_of_mem _ e
      simp only [hne, decide_False]
      exact ih hn.2 e

theorem txt_at_of_hid {V : Veil} {b : Nat} {x : Hid} (h : hid_at V b = some x) :
    txt_at V b = x.txt := by
  unfold txt_at; rw [h]

theorem tok_ok2 {p : Ptr} {s s' : State} {t : Token} (h : tok p s = Res.ok t s') :
    s = s' ∧ ∃ k, p = k + 1 ∧ s.toks[k]? = some t := by
  obtain ⟨e, hk⟩ := tok_ok h
  exact ⟨e.symm, hk⟩

theorem hidden_blocks_spec (V : Veil) (fuel : Nat) :
    ∀ (t delim : Ptr) (s s1 : State) (bs : List Nat), Good V s →
      Veil.hidden_blocks (plan_of V) fuel t delim s = Res.ok bs s1 →
      s = s1 ∧ ∀ acc, token_concat_loop fuel t delim acc (unveil V s) =
        Res.ok (acc ++ (bs.map (txt_at V)).flatten) (unveil V s) := by
  induction fuel with
  | zero => intro t delim s s1 bs _ h; cases h
  | succ n ih =>
    intro t delim s s1 bs hs h
    unfold Veil.hidden_blocks at h
    unfold token_concat_loop
    by_cases ht : t = delim
    · rw [if_pos ht] at h
      cases h
      refine ⟨rfl, fun acc => ?_⟩
      rw [if_pos ht]
      simp [pure_apply]
    · rw [if_neg ht] at h
      obtain ⟨r, s2, h1, h2⟩ := bind_ok h
      obtain ⟨rfl, k, rfl, hk⟩ := tok_ok2 h1
      obtain ⟨s3, s4, h3, h4⟩ := bind_ok h2
      cases h3
      by_cases hc : hidden (plan_of V) r.pos.blk = true ∧ r.pos.blk < s.mem.length
      · rw [if_pos hc] at h4
        obtain ⟨bs1, s5, h5, h6⟩ := bind_ok h4
        cases h6
        obtain ⟨rfl, hloop⟩ := ih r.next delim s _ bs1 hs h5
        refine ⟨rfl, fun acc => ?_⟩
        rw [if_neg ht]
        have e1 : tok (k + 1) (unveil V s) = Res.ok (unveilTok V r) (unveil V s) := by
          simp [tok, hk]
        rw [bind_of_ok e1]
        obtain ⟨x, hx⟩ := hid_at_some hc.1
        have ho : r.pos.off = 0 := good_tok hs hk hc.1
        have e2 : (getState : M State) (unveil V s) = Res.ok (unveil V s) (unveil V s) := rfl
        rw [bind_of_ok e2]
        have hlen : (unveilTok V r).len = x.txt.length := by rw [unveilTok_of_hid V r x hx]
        simp only [unveilTok_next, unveilTok_pos, hlen]
        rw [slice_unveil_hid V s r.pos x hx ho hc.2, hloop]
        simp [txt_at_of_hid hx]
      · rw [if_neg hc] at h4
        cases h4

theorem good_concat {V : Veil} {s : State} (hs : Good V s) (k : Nat) (t : Token)
    (ht : GoodTok V t) :
    Good V { s with mem := s.mem ++ [[]], toks := s.toks.set k t } where
  fits := hs.fits
  pos := hs.pos
  toks := by
    intro x hx
    rcases List.mem_or_eq_of_mem_set hx with h | h
    · exact hs.toks x h
    · exact h ▸ ht
  keys := hs.keys
  words := hs.words

theorem sim_token_concat (V : Veil) (fuel : Nat) (dest delim : Ptr) :
    Sim V id (fun _ => True) (token_concat fuel dest delim)
      (Veil.token_concat (plan_of V) fuel dest delim) := by
  intro s a s' hs h
  unfold Veil.token_concat at h
  obtain ⟨d, s1, h1, h2⟩ := bind_ok h
  obtain ⟨rfl, k, rfl, hk⟩ := tok_ok2 h1
  obtain ⟨bs, s2, h3, h4⟩ := bind_ok h2
  obtain ⟨rfl, hloop⟩ := hidden_blocks_spec V fuel d.next delim s _ bs hs h3
  obtain ⟨s3, s4, h5, h6⟩ := bind_ok h4
  cases h5
  by_cases hc : hidden (plan_of V) d.pos.blk = true ∧ d.pos.blk < s.mem.length ∧
      (s.mem.length, d.pos.blk :: bs) ∈ plan_of V
  · rw [if_pos hc] at h6
    obtain ⟨hd, hlt, hpl⟩ := hc
    obtain ⟨x, hx⟩ := hid_at_some hd
    have ho : d.pos.off = 0 := good_tok hs hk hd
    -- the entry of the veil for the fresh block
    unfold plan_of at hpl
    obtain ⟨z, hz, hze⟩ := List.mem_map.mp hpl
    have hzb : z.blk = s.mem.length := congrArg Prod.fst hze
    have hzp : z.parts = d.pos.blk :: bs := congrArg Prod.snd hze
    have hzat : hid_at V s.mem.length = some z := hzb ▸ hid_at_of_mem hs.fits.nodup hz
    obtain ⟨hj, hkd⟩ := hs.fits.join z hz (by rw [hzp]; exact List.cons_ne_nil _ _)
    rw [hzp] at hj hkd
    simp only [List.map_cons, List.flatten_cons, List.head?_cons, Option.bind_some, hx,
      Option.map_some', Option.some.injEq, txt_at_of_hid hx] at hj hkd
    -- the veiled run
    simp only [bind_apply, allocMem, tok, hk, setTok, List.length_append,
      List.length_singleton] at h6
    have hk' : k < s.toks.length := by
      have := List.getElem?_eq_some.mp hk
      exact this.1
    simp only [List.getElem?_append_left hk', hk, hk', if_true] at h6
    cases h6
    refine ⟨?_, good_concat hs k _ (fun _ => rfl), trivial⟩
    -- the run on the unveiled state
    unfold token_concat
    have e1 : tok (k + 1) (unveil V s) = Res.ok (unveilTok V d) (unveil V s) := by
      simp [tok, hk]
    rw [bind_of_ok e1]
    have e2 : (getState : M State) (unveil V s) = Res.ok (unveil V s) (unveil V s) := rfl
    rw [bind_of_ok e2]
    have hlen : (unveilTok V d).len = x.txt.length := by rw [unveilTok_of_hid V d x hx]
    simp only [unveilTok_next, unveilTok_pos, hlen]
    rw [slice_unveil_hid V s d.pos x hx ho hlt]
    rw [bind_of_ok (hloop x.txt), ← hj]
    simp only [bind_apply, allocMem, tok, unveil_toks, List.getElem?_map, hk, Option.map_some',
      setTok, List.length_map, hk', if_true, unveil_mem, unveilMem_length, id]
    rw [unveilTok_of_hid V d x hx]
    simp only [unveil, unveilMem_append, Nat.zero_add, hzat, List.map_set]
    rw [unveilTok_of_hid V _ z (by simpa using hzat)]
    have hxz : x.kind = z.kind := by simpa [hx] using hkd
    simp only [hxz]
  · rw [if_neg hc] at h6
    cases h6

theorem sim_expand_func_subst (V : Veil) (fuel : Nat) :
    ∀ (sd m : Ptr) (l : Locals) (taddr : Loc),
      Sim V id (fun _ => True) (expand_func_subst fuel sd m l taddr)
        (Veil.expand_func_subst (plan_of V) fuel sd m l taddr) := by
  induction fuel with
  | zero =>
    intro sd m l taddr
    unfold Veil.expand_func_subst
    exact Sim.fail
  | succ n ih =>
    intro sd m l taddr
    unfold expand_func_subst Veil.expand_func_subst
    apply Sim.bindE (sim_readLoc V l taddr)
    intro c _
    apply Sim.ite
    · intro _; exact Sim.pureE trivial
    · intro _
      apply Sim.bind (sim_getState V)
      intro s _
      by_cases hv : veiled (plan_of V) s c = true ∨ token_cmp s c ['#'] = true ∨
          token_cmp s c "__VA_ARGS__".toList = true
      · rw [if_pos hv]
        exact Sim.fail
      · rw [if_neg hv]
        have h0 : veiled (plan_of V) s c = false := by
          cases h : veiled (plan_of V) s c with
          | false => rfl
          | true => exact absurd (Or.inl h) hv
        have h1 : token_cmp s c ['#'] = false := by
          cases h : token_cmp s c ['#'] with
          | false => rfl
          | true => exact absurd (Or.inr (Or.inl h)) hv
        have h3 : token_cmp s c "__VA_ARGS__".toList = false := by
          cases h : token_cmp s c "__VA_ARGS__".toList with
          | false => rfl
          | true => exact absurd (Or.inr (Or.inr h)) hv
        simp only [token_cmp_unveil_of_not_veiled V s c _ h0, h1, h3, Bool.false_eq_true,
          if_false]
        apply Sim.ite
        · intro _
          apply Sim.bind (sim_tok V c)
          intro r _
          simp only [unveilTok_next]
          apply Sim.ite
          · intro _; exact Sim.fail
          · intro _
            apply Sim.bindE (sim_writeLoc V l taddr r.next)
            intro l1 _
            apply Sim.bindE (sim_setNext V l1.prev r.next)
            intro _ _
            apply Sim.bindE (sim_readLoc V l1 taddr)
            intro c1 _
            apply Sim.bindE (sim_setLeadings V c1 0)
            intro _ _
            apply Sim.bindE (sim_token_matched_arg V n c1 m sd)
            intro x _
            obtain ⟨ts, tdelim⟩ := x
            simp only
            apply Sim.ite
            · intro _
              apply Sim.bindE (sim_token_replace_arg V n l1 taddr ts tdelim)
              intro y _
              apply Sim.bindE (sim_readLoc V y.1 y.2)
              intro c2 _
              apply Sim.bind (sim_tok V c2)
              intro r2 _
              simp only [unveilTok_next]
              apply Sim.bindE (sim_token_concat V n y.1.prev r2.next)
              intro _ _
              apply Sim.bindE (P := fun _ => True) (Sim.pureE trivial)
              intro y2 _
              apply Sim.bindE (sim_readLoc V y2.1 y2.2)
              intro v _
              exact ih _ _ _ _
            · intro _
              apply Sim.bindE (P := fun _ => True) (Sim.pureE trivial)
              intro y _
              apply Sim.bindE (sim_readLoc V y.1 y.2)
              intro c2 _
              apply Sim.bind (sim_tok V c2)
              intro r2 _
              simp only [unveilTok_next]
              apply Sim.bindE (sim_token_concat V n y.1.prev r2.next)
              intro _ _
              apply Sim.bindE (P := fun _ => True) (Sim.pureE trivial)
              intro y2 _
              apply Sim.bindE (sim_readLoc V y2.1 y2.2)
              intro v _
              exact ih _ _ _ _
        · intro _
          apply Sim.bindE (sim_token_matched_arg V n c m sd)
          intro x _
          obtain ⟨ts, tdelim⟩ := x
          simp only
          apply Sim.ite
          · intro _
            apply Sim.bindE (sim_token_replace_arg V n l taddr ts tdelim)
            intro y _
            apply Sim.bindE (sim_readLoc V y.1 y.2)
            intro v _
            exact ih _ _ _ _
          · intro _
            apply Sim.bindE (P := fun _ => True) (Sim.pureE trivial)
            intro y _
            apply Sim.bindE (sim_readLoc V y.1 y.2)
            intro v _
            exact ih _ _ _ _

theorem sim_macroAt_key (V : Veil) (m : Ptr) :
    Sim V id (fun r => ∀ h ∈ V, r.key ≠ h.txt) (macroAt m) (macroAt m) := by
  intro s a s' hs h
  obtain ⟨h1, h2, _⟩ := sim_macroAt V m s a s' hs h
  refine ⟨h1, h2, ?_⟩
  unfold macroAt at h
  cases m with
  | zero => cases h
  | succ k =>
    simp only at h
    cases hk : s.macros[k]? with
    | none => rw [hk] at h; cases h
    | some r =>
      rw [hk] at h
      cases h
      exact fun h hh => hs.keys h hh _ (List.getElem?_mem hk)

theorem sim_used_has_key (V : Veil) (fuel : Nat) :
    ∀ (sd used : Ptr),
      Sim V id (fun _ => True) (used_has_key fuel sd used)
        (Veil.used_has_key (plan_of V) fuel sd used) := by
  induction fuel with
  | zero =>
    intro sd used
    unfold Veil.used_has_key
    exact Sim.fail
  | succ n ih =>
    intro sd used
    unfold used_has_key Veil.used_has_key
    apply Sim.ite
    · intro _; exact Sim.pureE trivial
    · intro _
      apply Sim.bindE (sim_usedNode V used)
      intro u _
      apply Sim.bindE (sim_macroAt_key V u.mac)
      intro r hr
      apply Sim.bind (sim_getState V)
      intro s hs
      rw [token_cmp_unveil V s hs sd r.key (fun h hh _ e => hr h hh e.symm)]
      apply Sim.ite
      · intro _; exact Sim.pureE trivial
      · intro _; exact ih _ _

theorem sim_expand_func (V : Veil) {rec rec' : Ptr → M (Ptr × Ptr)}
    (hrec : ∀ t, Sim V id (fun _ => True) (rec t) (rec' t)) (fuel : Nat) (sd m : Ptr) :
    Sim V id (fun _ => True) (expand_func rec fuel sd m)
      (Veil.expand_func (plan_of V) rec' fuel sd m) := by
  unfold expand_func Veil.expand_func
  apply Sim.bind (sim_tok V sd)
  intro n _
  simp only [unveilTok_next]
  apply Sim.bind (sim_tok V n.next)
  intro p _
  simp only [unveilTok_next]
  apply Sim.bindE (sim_token_skip_after_func V fuel sd)
  intro te _
  apply Sim.bindE (sim_expand_func_args V hrec fuel n.next p.next te)
  intro _ _
  apply Sim.bind (sim_tok V sd)
  intro n1 _
  simp only [unveilTok_used, unveilTok_leadings]
  apply Sim.bindE (sim_expand_def V fuel m n1.used)
  intro head _
  apply Sim.bindE (sim_setLeadings V head n1.leadings)
  intro _ _
  apply Sim.bindE (sim_expand_func_subst V fuel sd m _ _)
  intro l _
  apply Sim.bindE (sim_expand_recursive_list V hrec fuel l.head)
  intro x _
  obtain ⟨head1, tt⟩ := x
  simp only
  apply Sim.bindE (sim_token_skip_after_func V fuel sd)
  intro after _
  apply Sim.bindE (sim_setNext V tt after)
  intro _ _
  exact Sim.pureE trivial

theorem sim_expand_recursive (V : Veil) (fuel : Nat) :
    ∀ (sd : Ptr),
      Sim V id (fun _ => True) (expand_recursive fuel sd)
        (Veil.expand_recursive (plan_of V) fuel sd) := by
  induction fuel with
  | zero =>
    intro sd
    unfold Veil.expand_recursive
    exact Sim.fail
  | succ n ih =>
    intro sd
    unfold expand_recursive Veil.expand_recursive
    apply Sim.bind (sim_getState V)
    intro s hs
    simp only [cmp_line hs, cmp_file hs, cmp_lparen hs, unveil_macro_org]
    apply Sim.ite
    · intro _
      apply Sim.bind (sim_tok V sd)
      intro t ht
      simp only [unveilTok_pos, unveilTok_leadings, unveilTok_env,
        unveilTok_macro_org, unveilTok_used, unveilTok_next, unveilTok_update]
      apply Sim.bindE (sim_setTok V sd _ (goodTok_update ht _ _ _ _ _))
      intro _ _
      exact Sim.pureE trivial
    · intro _
      apply Sim.bind (sim_tok V sd)
      intro t _
      simp only [unveilTok_next, unveilTok_used]
      apply Sim.bindE (sim_macro_get V sd t.next)
      intro m _
      apply Sim.ite
      · intro _; exact Sim.pureE trivial
      · intro _
        apply Sim.bindE (sim_used_has_key V n sd t.used)
        intro b _
        apply Sim.ite
        · intro _; exact Sim.pureE trivial
        · intro _
          apply Sim.bindE (sim_macroAt V m)
          intro r _
          apply Sim.ite
          · intro _; exact sim_expand_func V ih n sd m
          · intro _; exact sim_expand_obj V ih n sd m

/-! ### Observing the unveiled state -/

theorem used_keys_unveil (V : Veil) (s : State) :
    ∀ (fuel : Nat) (p : Ptr), used_keys (unveil V s) fuel p = used_keys s fuel p := by
  intro fuel
  induction fuel with
  | zero => intro p; cases p <;> rfl
  | succ n ih =>
    intro p
    cases p with
    | zero => rfl
    | succ k =>
      unfold used_keys
      simp only [unveil_useds, unveil_macros, ih]

theorem glimpses_unveil (V : Veil) (s : State) (hs : Good V s) :
    ∀ (fuel : Nat) (p : Ptr) (gs : List Veil.Glimpse),
      Veil.glimpses (plan_of V) s fuel p = some gs →
      seen_chain (unveil V s) fuel p = gs.map (Veil.fill V) := by
  intro fuel
  induction fuel with
  | zero =>
    intro p gs h
    cases p <;> (unfold Veil.glimpses at h; cases h; rfl)
  | succ n ih =>
    intro p gs h
    cases p with
    | zero =>
      unfold Veil.glimpses at h
      cases h
      rfl
    | succ k =>
      unfold Veil.glimpses at h
      unfold seen_chain
      simp only [unveil_toks, List.getElem?_map]
      cases hk : s.toks[k]? with
      | none =>
        rw [hk] at h
        cases h
        rfl
      | some t =>
        rw [hk] at h
        simp only at h
        simp only [Option.map_some', unveilTok_pos, unveilTok_used, unveilTok_next,
          used_keys_unveil]
        cases hb : hidden (plan_of V) t.pos.blk with
        | true =>
          rw [hb] at h
          simp only [if_true] at h
          by_cases hlt : t.pos.blk < s.mem.length
          · rw [if_pos hlt] at h
            cases hg : Veil.glimpses (plan_of V) s n t.next with
            | none => rw [hg] at h; cases h
            | some gs1 =>
              rw [hg] at h
              cases h
              obtain ⟨x, hx⟩ := hid_at_some hb
              have ho : t.pos.off = 0 := good_tok hs hk hb
              rw [ih t.next gs1 hg, unveilTok_of_hid V t x hx]
              simp only [List.map_cons, Veil.fill, Option.some_bind, hx]
              rw [slice_unveil_hid V s t.pos x hx ho hlt]
          · rw [if_neg hlt] at h; cases h
        | false =>
          rw [hb] at h
          simp only [Bool.false_eq_true, if_false] at h
          cases hg : Veil.glimpses (plan_of V) s n t.next with
          | none => rw [hg] at h; cases h
          | some gs1 =>
            rw [hg] at h
            cases h
            rw [ih t.next gs1 hg, unveilTok_of_plain V t hb, slice_unveil_plain V s t.pos t.len hb]
            simp [Veil.fill]

/-! ### Building the call -/

theorem token_instant_run (k : Kind) (w : List Char) (s : State) :
    token_instant k w s = Res.ok (s.toks.length + 1)
      { s with mem := s.mem ++ [w],
               toks := s.toks ++ [instant_token k s.mem.length w.length s.env] } := rfl

theorem good_instant {V : Veil} {s : State} (hs : Good V s) (w : List Char) (t : Token)
    (ht : t.pos.off = 0) :
    Good V { s with mem := s.mem ++ [w], toks := s.toks ++ [t] } where
  fits := hs.fits
  pos := hs.pos
  toks := by
    intro x hx
    rcases List.mem_append.mp hx with h | h
    · exact hs.toks x h
    · rw [List.mem_singleton] at h; exact fun _ => h ▸ ht
  keys := hs.keys
  words := hs.words

theorem sim_modify_macro_org (V : Veil) (h : Ptr) :
    Sim V id (fun _ => True) (modifyState (fun s => { s with macro_org := h }))
      (modifyState (fun s => { s with macro_org := h })) := by
  intro s a s' hs e
  unfold modifyState at e
  cases e
  exact ⟨rfl, ⟨hs.fits, hs.pos, hs.toks, hs.keys, hs.words⟩, trivial⟩

theorem unveil_instant_hid (V : Veil) (s : State) (x : Hid)
    (hx : hid_at V s.mem.length = some x) (k : Kind) (n : Nat) :
    unveil V { s with mem := s.mem ++ [[]],
                      toks := s.toks ++ [instant_token k s.mem.length n s.env] } =
      { unveil V s with
          mem := (unveil V s).mem ++ [x.txt],
          toks := (unveil V s).toks ++
            [instant_token x.kind (unveil V s).mem.length x.txt.length (unveil V s).env] } := by
  simp only [unveil, unveilMem_append, Nat.zero_add, hx, List.map_append, List.map_cons,
    List.map_nil, unveilMem_length]
  rw [unveilTok_of_hid V _ x (by simpa [instant_token] using hx)]
  rfl

theorem unveil_instant_plain (V : Veil) (s : State)
    (hb : hidden (plan_of V) s.mem.length = false) (k : Kind) (w : List Char) :
    unveil V { s with mem := s.mem ++ [w],
                      toks := s.toks ++ [instant_token k s.mem.length w.length s.env] } =
      { unveil V s with
          mem := (unveil V s).mem ++ [w],
          toks := (unveil V s).toks ++
            [instant_token k (unveil V s).mem.length w.length (unveil V s).env] } := by
  simp only [unveil, unveilMem_append, Nat.zero_add, hid_at_none hb, List.map_append,
    List.map_cons, List.map_nil, unveilMem_length]
  rw [unveilTok_of_plain V _ (by simpa [instant_token] using hb)]

theorem chain_item_unveil (V : Veil) (it : Option (Kind × List Char)) (s s' : State) (a : Ptr)
    (hs : Good V s) (h : Veil.chain_item (plan_of V) it s = Res.ok a s') :
    (∃ kw, fill_items V s.mem.length [it] = [kw] ∧
      token_instant kw.1 kw.2 (unveil V s) = Res.ok a (unveil V s')) ∧
    Good V s' ∧ s'.mem.length = s.mem.length + 1 := by
  unfold Veil.chain_item at h
  rw [bind_apply] at h
  simp only [getState] at h
  cases it with
  | none =>
    simp only at h
    cases hb : hidden (plan_of V) s.mem.length with
    | false => rw [hb] at h; cases h
    | true =>
      rw [hb, if_pos rfl, token_instant_run] at h
      cases h
      obtain ⟨x, hx⟩ := hid_at_some hb
      refine ⟨⟨(x.kind, x.txt), ?_, ?_⟩, good_instant hs [] _ rfl, by simp⟩
      · simp [fill_items, hx]
      · rw [token_instant_run, unveil_instant_hid V s x hx]
        simp only [unveil_toks, List.length_map]
  | some kw =>
    obtain ⟨k, w⟩ := kw
    simp only at h
    cases hb : hidden (plan_of V) s.mem.length with
    | true => rw [hb, if_pos rfl] at h; cases h
    | false =>
      rw [hb, if_neg (by simp), token_instant_run] at h
      cases h
      refine ⟨⟨(k, w), ?_, ?_⟩, good_instant hs w _ rfl, by simp⟩
      · simp [fill_items]
      · rw [token_instant_run, unveil_instant_plain V s hb]
        simp only [unveil_toks, List.length_map]

theorem fill_items_cons (V : Veil) (n : Nat) (it : Option (Kind × List Char))
    (rest : List (Option (Kind × List Char))) :
    fill_items V n (it :: rest) = fill_items V n [it] ++ fill_items V (n + 1) rest := by
  cases it <;> simp [fill_items]

theorem token_chain_unveil (V : Veil) :
    ∀ (its : List (Option (Kind × List Char))) (s s' : State) (a : Ptr), Good V s →
      Veil.token_chain (plan_of V) its s = Res.ok a s' →
      token_chain (fill_items V s.mem.length its) (unveil V s) = Res.ok a (unveil V s') ∧
        Good V s' := by
  intro its
  induction its with
  | nil =>
    intro s s' a hs h
    unfold Veil.token_chain at h
    cases h
    exact ⟨rfl, hs⟩
  | cons it rest ih =>
    intro s s' a hs h
    unfold Veil.token_chain at h
    obtain ⟨t, s1, h1, h2⟩ := bind_ok h
    obtain ⟨n, s2, h3, h4⟩ := bind_ok h2
    obtain ⟨u, s3, h5, h6⟩ := bind_ok h4
    cases h6
    obtain ⟨⟨kw, hkw, e0⟩, g0, hl⟩ := chain_item_unveil V it s s1 a hs h1
    obtain ⟨e1, g1⟩ := ih s1 s2 n g0 h3
    obtain ⟨e2, g2, _⟩ := sim_setNext V a n s2 u _ g1 h5
    refine ⟨?_, g2⟩
    rw [fill_items_cons, hkw, ← hl]
    obtain ⟨k, w⟩ := kw
    simp only [List.singleton_append]
    unfold token_chain
    rw [bind_of_ok e0, bind_of_ok e1, bind_of_ok e2]
    rfl

/-! ### The veiled call -/

theorem unveilMem_plain (V : Veil) : ∀ (m : List (List Char)) (k : Nat),
    (∀ i, i < m.length → hid_at V (k + i) = none) → unveilMem V k m = m := by
  intro m
  induction m with
  | nil => intro k _; rfl
  | cons c m ih =>
    intro k h
    unfold unveilMem
    have h0 := h 0 (by simp)
    rw [Nat.add_zero] at h0
    rw [h0, ih (k + 1)]
    intro i hi
    have := h (i + 1) (by simpa using hi)
    have e : k + 1 + i = k + (i + 1) := by omega
    rw [e]; exact this

theorem hid_at_lt {V : Veil} {b : Nat} (hb : ∀ h ∈ V, b ≤ h.blk) {i : Nat} (hi : i < b) :
    hid_at V i = none := by
  cases e : hid_at V i with
  | none => rfl
  | some x =>
    obtain ⟨hm, hx⟩ := hid_at_mem e
    have := hb x hm
    omega

theorem hidden_lt {V : Veil} {b : Nat} (hb : ∀ h ∈ V, b ≤ h.blk) {i : Nat} (hi : i < b) :
    hidden (plan_of V) i = false := by
  rw [hidden_plan, hid_at_lt hb hi]; rfl

theorem unveil_start (V : Veil) (s : State) (hb : ∀ h ∈ V, s.mem.length ≤ h.blk)
    (ht : ∀ t ∈ s.toks, t.pos.blk < s.mem.length) : unveil V s = s := by
  unfold unveil
  have h1 : unveilMem V 0 s.mem = s.mem := by
    apply unveilMem_plain
    intro i hi
    rw [Nat.zero_add]
    exact hid_at_lt hb hi
  have h2 : s.toks.map (unveilTok V) = s.toks := by
    conv => rhs; rw [← List.map_id s.toks]
    apply List.map_congr_left
    intro t hm
    exact unveilTok_of_plain V t (hidden_lt hb (ht t hm))
  rw [h1, h2]

theorem good_start (V : Veil) (fuel : Nat) (defs : String) (s : State) (hV : Fair V fuel defs)
    (hst : state_after fuel defs = some s) (h0 : 0 < s.mem.length)
    (ht : ∀ t ∈ s.toks, t.pos.blk < s.mem.length) : Good V s where
  fits := hV.fits
  pos := by
    intro h hm
    have := hV.base h hm
    simp only [mem_size, hst] at this
    omega
  toks := by
    intro t hm hh
    have hb : ∀ h ∈ V, s.mem.length ≤ h.blk := by
      intro h hm
      have := hV.base h hm
      simpa only [mem_size, hst] using this
    rw [hidden_lt hb (ht t hm)] at hh
    cases hh
  keys := by
    intro h hm r hr e
    apply hV.keys h hm
    simp only [macro_keys, hst]
    rw [← e]
    exact List.mem_map_of_mem _ hr
  words := hV.words

/-- The veiled call is the call: where the veiled run after `defs` returns a
chain, the engine returns that chain with the hidden tokens filled in. -/
theorem expand_call_unveil (V : Veil) (rel : Plan) (fuel : Nat) (defs : String)
    (its : List (Option (Kind × List Char))) (gs : List Veil.Glimpse)
    (hV : Fair V fuel defs) (hp : plan_of V = shift_plan (mem_size fuel defs) rel)
    (h : Veil.expand_call rel fuel defs its = some gs) :
    expand_call fuel defs (fill_items V (mem_size fuel defs) its) =
      some (gs.map (Veil.fill V)) := by
  unfold Veil.expand_call at h
  unfold expand_call
  cases hst : state_after fuel defs with
  | none => rw [hst] at h; cases h
  | some s0 =>
    rw [hst] at h
    simp only at h ⊢
    have hms : mem_size fuel defs = s0.mem.length := by simp only [mem_size, hst]
    rw [hms] at hp ⊢
    rw [← hp] at h
    by_cases hc : 0 < s0.mem.length ∧
        s0.toks.all (fun t => decide (t.pos.blk < s0.mem.length)) = true
    · rw [if_pos hc] at h
      obtain ⟨h0, hall⟩ := hc
      have ht : ∀ t ∈ s0.toks, t.pos.blk < s0.mem.length := by
        intro t hm
        have := List.all_eq_true.mp hall t hm
        simpa using this
      have hb : ∀ x ∈ V, s0.mem.length ≤ x.blk := by
        intro x hm
        have := hV.base x hm
        rwa [hms] at this
      have hg := good_start V fuel defs s0 hV hst h0 ht
      cases hrun : (do
          let h ← Veil.token_chain (plan_of V) its
          modifyState (fun s => { s with macro_org := h })
          Veil.expand_recursive (plan_of V) fuel h) s0 with
      | err e => rw [hrun] at h; cases h
      | ok a s2 =>
        rw [hrun] at h
        obtain ⟨hd, tl⟩ := a
        simp only at h
        obtain ⟨c, s1, h1, h2⟩ := bind_ok hrun
        obtain ⟨u, s1', h3, h4⟩ := bind_ok h2
        obtain ⟨e1, g1⟩ := token_chain_unveil V its s0 s1 c hg h1
        obtain ⟨e2, g2, _⟩ := sim_modify_macro_org V c s1 u s1' g1 h3
        obtain ⟨e3, g3, _⟩ := sim_expand_recursive V fuel c s1' (hd, tl) s2 g2 h4
        rw [unveil_start V s0 hb ht] at e1
        rw [bind_of_ok e1, bind_of_ok e2, e3]
        simp only [id]
        rw [glimpses_unveil V s2 g3 fuel hd gs h]
    · rw [if_neg hc] at h
      cases h

/-! ## Calls with arbitrary argument tokens -/

theorem fair_single (fuel : Nat) (defs : String) (b : Nat) (k : Kind) (tx : List Char)
    (hb : mem_size fuel defs ≤ b)
    (hl : "__LINE__".toList ∈ macro_keys fuel defs)
    (hf : "__FILE__".toList ∈ macro_keys fuel defs)
    (hkey : tx ∉ macro_keys fuel defs)
    (hpun : (k = Kind.TK_IDENT ∨ k = Kind.TK_RESERVED) → tx ≠ ['('] ∧ tx ≠ [')'] ∧ tx ≠ [',']) :
    Fair [{ blk := b, parts := [], txt := tx, kind := k }] fuel defs where
  fits := by
    refine ⟨by simp, ?_⟩
    intro h hm hp
    rw [List.mem_singleton] at hm
    subst hm
    exact absurd rfl hp
  base := by
    intro h hm
    rw [List.mem_singleton] at hm
    subst hm
    exact hb
  keys := by
    intro h hm
    rw [List.mem_singleton] at hm
    subst hm
    exact hkey
  words := by
    intro h hm hk w hw
    rw [List.mem_singleton] at hm
    subst hm
    obtain ⟨h1, h2, h3⟩ := hpun hk
    simp only [engine_words, List.mem_cons, List.mem_singleton, List.not_mem_nil,
      or_false] at hw
    rcases hw with e | e | e | e | e
    · rw [e]; exact h1
    · rw [e]; exact h2
    · rw [e]; exact h3
    · rw [e]; exact fun (x : tx = _) => hkey (by rw [x]; exact hl)
    · rw [e]; exact fun (x : tx = _) => hkey (by rw [x]; exact hf)

/-! ### Nested calls -/

theorem nested_mem : mem_size 1000 nested_defs = 13 := by decide!

theorem nested_line : "__LINE__".toList ∈ macro_keys 1000 nested_defs := by decide!

theorem nested_file : "__FILE__".toList ∈ macro_keys 1000 nested_defs := by decide!

theorem nested_veiled :
    Veil.expand_call [(4, [])] 1000 nested_defs
      [some (Kind.TK_IDENT, "a2".toList), some (Kind.TK_RESERVED, ['(']),
       some (Kind.TK_IDENT, "a2".toList), some (Kind.TK_RESERVED, ['(']), none,
       some (Kind.TK_RESERVED, [')']), some (Kind.TK_RESERVED, [')'])] =
      some [{ id := Kind.TK_RESERVED, text := "!", hid := none, used := ["a2"] },
            { id := Kind.TK_RESERVED, text := "!", hid := none, used := ["a2"] },
            { id := Kind.TK_SPACES, text := "", hid := some 17, used := ["a2"] },
            { id := Kind.TK_RESERVED, text := "!", hid := none, used := ["a2"] },
            { id := Kind.TK_RESERVED, text := "!", hid := none, used := ["a2"] }] := by
  decide!

theorem nested_program :
    preprocess 1000 "#define a2(x) !x!\na2(a2(3))\n" = Outcome.out "!!3!!\n" := by
  decide!

theorem nested_three : "3".toList ∉ macro_keys 1000 nested_defs := by decide!

/-- After `#define a2(x) !x!`, for every token `T`, of any kind `k` and text
`tx`, whose text is not the key of a macro (the predefined ones included) and
that is not one of the punctuators `(`, `)` and `,` that delimit arguments,
the call `a2(a2(T))` expands to the five tokens `! ! T ! !`: the inner call is
expanded inside its argument range before the outer substitution, and the
outer `a2` in force does not block it.  The program prints `!!3!!` for
`T = 3`. -/
theorem nested_call_in_argument (k : Kind) (tx : List Char)
    (hkey : tx ∉ macro_keys 1000 nested_defs)
    (hpun : (k = Kind.TK_IDENT ∨ k = Kind.TK_RESERVED) →
      tx ≠ ['('] ∧ tx ≠ [')'] ∧ tx ≠ [',']) :
    expand_call 1000 nested_defs
      [(Kind.TK_IDENT, "a2".toList), (Kind.TK_RESERVED, ['(']),
       (Kind.TK_IDENT, "a2".toList), (Kind.TK_RESERVED, ['(']), (k, tx),
       (Kind.TK_RESERVED, [')']), (Kind.TK_RESERVED, [')'])] =
      some [{ id := Kind.TK_RESERVED, text := "!", used := ["a2"] },
            { id := Kind.TK_RESERVED, text := "!", used := ["a2"] },
            { id := k, text := String.mk tx, used := ["a2"] },
            { id := Kind.TK_RESERVED, text := "!", used := ["a2"] },
            { id := Kind.TK_RESERVED, text := "!", used := ["a2"] }] ∧
    preprocess 1000 "#define a2(x) !x!\na2(a2(3))\n" = Outcome.out "!!3!!\n" := by
  have hV := fair_single 1000 nested_defs 17 k tx (by rw [nested_mem]; decide) nested_line
    nested_file hkey hpun
  have h := expand_call_unveil _ [(4, [])] 1000 nested_defs _ _ hV
    (by rw [nested_mem]; rfl) nested_veiled
  rw [nested_mem] at h
  refine ⟨?_, nested_program⟩
  simpa [fill_items, hid_at, Veil.fill] using h

/-- The nested call for the token `3`. -/
theorem nested_call_in_argument_three :
    "3".toList ∉ macro_keys 1000 nested_defs ∧
    expand_call 1000 nested_defs
      [(Kind.TK_IDENT, "a2".toList), (Kind.TK_RESERVED, ['(']),
       (Kind.TK_IDENT, "a2".toList), (Kind.TK_RESERVED, ['(']), (Kind.TK_NUM, "3".toList),
       (Kind.TK_RESERVED, [')']), (Kind.TK_RESERVED, [')'])] =
      some [{ id := Kind.TK_RESERVED, text := "!", used := ["a2"] },
            { id := Kind.TK_RESERVED, text := "!", used := ["a2"] },
            { id := Kind.TK_NUM, text := "3", used := ["a2"] },
            { id := Kind.TK_RESERVED, text := "!", used := ["a2"] },
            { id := Kind.TK_RESERVED, text := "!", used := ["a2"] }] :=
  ⟨nested_three,
   (nested_call_in_argument Kind.TK_NUM "3".toList nested_three
     (fun h => by cases h <;> contradiction)).1⟩

theorem nested_literal_stdc :
    preprocess 1000 "#define a2(x) !x!\na2(a2(\"__STDC__\"))\n" = Outcome.out "!!1!!\n" := by
  decide!

theorem nested_literal_gnuc :
    preprocess 1000 "#define a2(x) !x!\na2(a2('__GNUC__'))\n" = Outcome.out "!!13!!\n" := by
  decide!

theorem nested_literal_plain :
    preprocess 1000 "#define a2(x) !x!\na2(a2(\"s\"))\n" = Outcome.out "!!\"s\"!!\n" := by
  decide!

/-- C6: a token that is no macro but a literal whose payload spells one is
replaced in the argument: after `#define a2(x) !x!` the call
`a2(a2("__STDC__"))` prints `!!1!!` and `a2(a2('__GNUC__'))` prints `!!13!!`,
where the claim says `!!T!!`.  The argument is looked up with `macro_get`,
which compares the text of the token with the keys and not its kind.  A
literal that spells no macro comes out as the claim says. -/
theorem C6_literal_argument_expanded :
    preprocess 1000 "#define a2(x) !x!\na2(a2(\"__STDC__\"))\n" = Outcome.out "!!1!!\n" ∧
    preprocess 1000 "#define a2(x) !x!\na2(a2('__GNUC__'))\n" = Outcome.out "!!13!!\n" ∧
    preprocess 1000 "#define a2(x) !x!\na2(a2(\"s\"))\n" = Outcome.out "!!\"s\"!!\n" :=
  ⟨nested_literal_stdc, nested_literal_gnuc, nested_literal_plain⟩

/-! ### Mutual recursion -/

theorem mutual_mem : mem_size 1000 mutual_defs = 13 := by decide!

theorem mutual_line : "__LINE__".toList ∈ macro_keys 1000 mutual_defs := by decide!

theorem mutual_file : "__FILE__".toList ∈ macro_keys 1000 mutual_defs := by decide!

theorem mutual_veiled :
    Veil.expand_call [(2, [])] 1000 mutual_defs
      [some (Kind.TK_IDENT, "a0".toList), some (Kind.TK_RESERVED, ['(']), none,
       some (Kind.TK_RESERVED, [')'])] =
      some [{ id := Kind.TK_RESERVED, text := "@", hid := none, used := ["c0", "a0"] },
            { id := Kind.TK_RESERVED, text := "@", hid := none,
              used := ["c0", "b0", "a0", "c0"] },
            { id := Kind.TK_IDENT, text := "a0", hid := none, used := ["b0", "a0", "c0"] },
            { id := Kind.TK_RESERVED, text := "(", hid := none, used := ["b0", "a0", "c0"] },
            { id := Kind.TK_SPACES, text := "", hid := some 15, used := ["a0", "b0", "c0"] },
            { id := Kind.TK_RESERVED, text := ")", hid := none, used := ["b0", "a0", "c0"] },
            { id := Kind.TK_RESERVED, text := "@", hid := none,
              used := ["c0", "b0", "a0", "c0"] },
            { id := Kind.TK_RESERVED, text := "@", hid := none, used := ["c0", "a0"] }] := by
  decide!

theorem mutual_program :
    preprocess 1000
      "#define a0(x) c0(b0(x))\n#define b0(x) c0(a0(x))\n#define c0(x) @x@\na0(1)\n"
      = Outcome.out "@@a0(1)@@\n" := by
  decide!

theorem mutual_one : "1".toList ∉ macro_keys 1000 mutual_defs := by decide!

/-- After `#define a0(x) c0(b0(x))`, `#define b0(x) c0(a0(x))` and
`#define c0(x) @x@`, for every token `T`, of any kind `k` and text `tx`, whose
text is not the key of a macro (the predefined ones included)
and that is not one of the punctuators `(`, `)` and `,` that delimit
arguments, the call `a0(T)` returns, with the eight tokens `@ @ a0 ( T ) @ @`: the second
appearance of `a0`, which carries `a0` in its used-macro set, is left alone.
The program prints `@@a0(1)@@` for `T = 1`. -/
theorem mutual_recursion_cut (k : Kind) (tx : List Char)
    (hkey : tx ∉ macro_keys 1000 mutual_defs)
    (hpun : (k = Kind.TK_IDENT ∨ k = Kind.TK_RESERVED) →
      tx ≠ ['('] ∧ tx ≠ [')'] ∧ tx ≠ [',']) :
    expand_call 1000 mutual_defs
      [(Kind.TK_IDENT, "a0".toList), (Kind.TK_RESERVED, ['(']), (k, tx),
       (Kind.TK_RESERVED, [')'])] =
      some [{ id := Kind.TK_RESERVED, text := "@", used := ["c0", "a0"] },
            { id := Kind.TK_RESERVED, text := "@", used := ["c0", "b0", "a0", "c0"] },
            { id := Kind.TK_IDENT, text := "a0", used := ["b0", "a0", "c0"] },
            { id := Kind.TK_RESERVED, text := "(", used := ["b0", "a0", "c0"] },
            { id := k, text := String.mk tx, used := ["a0", "b0", "c0"] },
            { id := Kind.TK_RESERVED, text := ")", used := ["b0", "a0", "c0"] },
            { id := Kind.TK_RESERVED, text := "@", used := ["c0", "b0", "a0", "c0"] },
            { id := Kind.TK_RESERVED, text := "@", used := ["c0", "a0"] }] ∧
    preprocess 1000
      "#define a0(x) c0(b0(x))\n#define b0(x) c0(a0(x))\n#define c0(x) @x@\na0(1)\n"
      = Outcome.out "@@a0(1)@@\n" := by
  have hV := fair_single 1000 mutual_defs 15 k tx (by rw [mutual_mem]; decide) mutual_line
    mutual_file hkey hpun
  have h := expand_call_unveil _ [(2, [])] 1000 mutual_defs _ _ hV
    (by rw [mutual_mem]; rfl) mutual_veiled
  rw [mutual_mem] at h
  refine ⟨?_, mutual_program⟩
  simpa [fill_items, hid_at, Veil.fill] using h

/-- The mutual recursion for the token `1`. -/
theorem mutual_recursion_cut_one :
    "1".toList ∉ macro_keys 1000 mutual_defs ∧
    expand_call 1000 mutual_defs
      [(Kind.TK_IDENT, "a0".toList), (Kind.TK_RESERVED, ['(']), (Kind.TK_NUM, "1".toList),
       (Kind.TK_RESERVED, [')'])] =
      some [{ id := Kind.TK_RESERVED, text := "@", used := ["c0", "a0"] },
            { id := Kind.TK_RESERVED, text := "@", used := ["c0", "b0", "a0", "c0"] },
            { id := Kind.TK_IDENT, text := "a0", used := ["b0", "a0", "c0"] },
            { id := Kind.TK_RESERVED, text := "(", used := ["b0", "a0", "c0"] },
            { id := Kind.TK_NUM, text := "1", used := ["a0", "b0", "c0"] },
            { id := Kind.TK_RESERVED, text := ")", used := ["b0", "a0", "c0"] },
            { id := Kind.TK_RESERVED, text := "@", used := ["c0", "b0", "a0", "c0"] },
            { id := Kind.TK_RESERVED, text := "@", used := ["c0", "a0"] }] :=
  ⟨mutual_one,
   (mutual_recursion_cut Kind.TK_NUM "1".toList mutual_one
     (fun h => by cases h <;> contradiction)).1⟩

theorem mutual_literal_gnuc :
    preprocess 1000
      "#define a0(x) c0(b0(x))\n#define b0(x) c0(a0(x))\n#define c0(x) @x@\na0('__GNUC__')\n"
      = Outcome.out "@@a0(13)@@\n" := by
  decide!

theorem mutual_literal_stdc :
    preprocess 1000
      "#define a0(x) c0(b0(x))\n#define b0(x) c0(a0(x))\n#define c0(x) @x@\na0(\"__STDC__\")\n"
      = Outcome.out "@@a0(1)@@\n" := by
  decide!

theorem mutual_literal_plain :
    preprocess 1000
      "#define a0(x) c0(b0(x))\n#define b0(x) c0(a0(x))\n#define c0(x) @x@\na0(\"x\")\n"
      = Outcome.out "@@a0(\"x\")@@\n" := by
  decide!

/-- C4: a token that is no macro but a literal whose payload spells one is
replaced in the argument: after the three definitions the call
`a0('__GNUC__')` prints `@@a0(13)@@` and `a0("__STDC__")` prints `@@a0(1)@@`,
where the claim says `@@a0(T)@@`.  The argument is looked up with `macro_get`,
which compares the text of the token with the keys and not its kind.  A
literal that spells no macro comes out as the claim says. -/
theorem C4_literal_argument_expanded :
    preprocess 1000
      "#define a0(x) c0(b0(x))\n#define b0(x) c0(a0(x))\n#define c0(x) @x@\na0('__GNUC__')\n"
      = Outcome.out "@@a0(13)@@\n" ∧
    preprocess 1000
      "#define a0(x) c0(b0(x))\n#define b0(x) c0(a0(x))\n#define c0(x) @x@\na0(\"__STDC__\")\n"
      = Outcome.out "@@a0(1)@@\n" ∧
    preprocess 1000
      "#define a0(x) c0(b0(x))\n#define b0(x) c0(a0(x))\n#define c0(x) @x@\na0(\"x\")\n"
      = Outcome.out "@@a0(\"x\")@@\n" :=
  ⟨mutual_literal_gnuc, mutual_literal_stdc, mutual_literal_plain⟩

/-! ### Token concatenation -/

theorem fair_concat (fuel : Nat) (defs : String) (b : Nat) (kx ky : Kind) (tx ty : List Char)
    (hb : mem_size fuel defs ≤ b)
    (hl : "__LINE__".toList ∈ macro_keys fuel defs)
    (hf : "__FILE__".toList ∈ macro_keys fuel defs)
    (hkx : tx ∉ macro_keys fuel defs) (hky : ty ∉ macro_keys fuel defs)
    (hkz : tx ++ ty ∉ macro_keys fuel defs)
    (hpx : (kx = Kind.TK_IDENT ∨ kx = Kind.TK_RESERVED) →
      tx ≠ ['('] ∧ tx ≠ [')'] ∧ tx ≠ [','])
    (hpy : (ky = Kind.TK_IDENT ∨ ky = Kind.TK_RESERVED) →
      ty ≠ ['('] ∧ ty ≠ [')'] ∧ ty ≠ [','])
    (hpz : (kx = Kind.TK_IDENT ∨ kx = Kind.TK_RESERVED) →
      tx ++ ty ≠ ['('] ∧ tx ++ ty ≠ [')'] ∧ tx ++ ty ≠ [',']) :
    Fair [{ blk := b, parts := [], txt := tx, kind := kx },
          { blk := b + 2, parts := [], txt := ty, kind := ky },
          { blk := b + 4, parts := [b, b + 2], txt := tx ++ ty, kind := kx }] fuel defs where
  fits := by
    refine ⟨by simp, ?_⟩
    intro h hm hp
    simp only [List.mem_cons, List.mem_singleton, List.not_mem_nil, or_false] at hm
    rcases hm with e | e | e
    · subst e; exact absurd rfl hp
    · subst e; exact absurd rfl hp
    · subst e
      simp [txt_at, hid_at]
  base := by
    intro h hm
    simp only [List.mem_cons, List.mem_singleton, List.not_mem_nil, or_false] at hm
    rcases hm with e | e | e <;> subst e <;> simp only <;> omega
  keys := by
    intro h hm
    simp only [List.mem_cons, List.mem_singleton, List.not_mem_nil, or_false] at hm
    rcases hm with e | e | e <;> subst e <;> assumption
  words := by
    intro h hm hk w hw
    simp only [engine_words, List.mem_cons, List.mem_singleton, List.not_mem_nil,
      or_false] at hw
    simp only [List.mem_cons, List.mem_singleton, List.not_mem_nil, or_false] at hm
    rcases hm with e | e | e
    · subst e
      obtain ⟨h1, h2, h3⟩ := hpx hk
      rcases hw with e | e | e | e | e
      · rw [e]; exact h1
      · rw [e]; exact h2
      · rw [e]; exact h3
      · rw [e]; exact fun (x : tx = _) => hkx (by rw [x]; exact hl)
      · rw [e]; exact fun (x : tx = _) => hkx (by rw [x]; exact hf)
    · subst e
      obtain ⟨h1, h2, h3⟩ := hpy hk
      rcases hw with e | e | e | e | e
      · rw [e]; exact h1
      · rw [e]; exact h2
      · rw [e]; exact h3
      · rw [e]; exact fun (x : ty = _) => hky (by rw [x]; exact hl)
      · rw [e]; exact fun (x : ty = _) => hky (by rw [x]; exact hf)
    · subst e
      obtain ⟨h1, h2, h3⟩ := hpz hk
      rcases hw with e | e | e | e | e
      · rw [e]; exact h1
      · rw [e]; exact h2
      · rw [e]; exact h3
      · rw [e]; exact fun (x : tx ++ ty = _) => hkz (by rw [x]; exact hl)
      · rw [e]; exact fun (x : tx ++ ty = _) => hkz (by rw [x]; exact hf)

theorem concat_mem : mem_size 1000 concat_defs = 13 := by decide!

theorem concat_line : "__LINE__".toList ∈ macro_keys 1000 concat_defs := by decide!

theorem concat_file : "__FILE__".toList ∈ macro_keys 1000 concat_defs := by decide!

theorem concat_veiled :
    Veil.expand_call [(2, []), (4, []), (6, [2, 4])] 1000 concat_defs
      [some (Kind.TK_IDENT, "C".toList), some (Kind.TK_RESERVED, ['(']), none,
       some (Kind.TK_RESERVED, [',']), none, some (Kind.TK_RESERVED, [')'])] =
      some [{ id := Kind.TK_SPACES, text := "", hid := some 19, used := ["C"] }] := by
  decide!

theorem concat_program :
    preprocess 1000 "#define C(a,b) a##b\nC(x,y)\n" = Outcome.out "xy\n" := by
  decide!

theorem concat_one_y :
    "1".toList ∉ macro_keys 1000 concat_defs ∧ "y".toList ∉ macro_keys 1000 concat_defs ∧
    "1y".toList ∉ macro_keys 1000 concat_defs := by
  decide!

/-- C11, as stated, fails: `__x86` and `_64` are no macros, and `C(__x86,_64)`
expands to the token `1`, the replacement of the predefined macro `__x86_64`,
not to a token with the text `__x86_64`. -/
theorem C11_concat_counterexample :
    "__x86".toList ∉ macro_keys 1000 concat_defs ∧
    "_64".toList ∉ macro_keys 1000 concat_defs ∧
    expand_call 1000 concat_defs
      [(Kind.TK_IDENT, "C".toList), (Kind.TK_RESERVED, ['(']), (Kind.TK_IDENT, "__x86".toList),
       (Kind.TK_RESERVED, [',']), (Kind.TK_IDENT, "_64".toList), (Kind.TK_RESERVED, [')'])] =
      some [{ id := Kind.TK_NUM, text := "1", used := ["__x86_64", "C"] }] ∧
    preprocess 1000 "#define C(a,b) a##b\nC(__x86,_64)\n" = Outcome.out "1\n" := by
  decide!

/-- C11, amended: after `#define C(a,b) a##b`, for all tokens `X` and `Y`, of
any kinds and any texts, the empty text included, such that neither the text
of `X`, nor the text of `Y`, nor the joined text is the key of a macro (the
predefined ones included), and such that neither `X`, nor `Y`, nor the joined
token is one of the punctuators `(`, `)` and `,`, the call `C(X,Y)` expands to
exactly one token: its text is the text of `X` followed by the text of `Y`,
its kind is the kind of `X`, and no `##` is left.  The program prints `xy` for
`C(x,y)`. -/
theorem C11_concat_one_token (kx ky : Kind) (tx ty : List Char)
    (hkx : tx ∉ macro_keys 1000 concat_defs)
    (hky : ty ∉ macro_keys 1000 concat_defs)
    (hkz : tx ++ ty ∉ macro_keys 1000 concat_defs)
    (hpx : (kx = Kind.TK_IDENT ∨ kx = Kind.TK_RESERVED) →
      tx ≠ ['('] ∧ tx ≠ [')'] ∧ tx ≠ [','])
    (hpy : (ky = Kind.TK_IDENT ∨ ky = Kind.TK_RESERVED) →
      ty ≠ ['('] ∧ ty ≠ [')'] ∧ ty ≠ [','])
    (hpz : (kx = Kind.TK_IDENT ∨ kx = Kind.TK_RESERVED) →
      tx ++ ty ≠ ['('] ∧ tx ++ ty ≠ [')'] ∧ tx ++ ty ≠ [',']) :
    expand_call 1000 concat_defs
      [(Kind.TK_IDENT, "C".toList), (Kind.TK_RESERVED, ['(']), (kx, tx),
       (Kind.TK_RESERVED, [',']), (ky, ty), (Kind.TK_RESERVED, [')'])] =
      some [{ id := kx, text := String.mk (tx ++ ty), used := ["C"] }] ∧
    preprocess 1000 "#define C(a,b) a##b\nC(x,y)\n" = Outcome.out "xy\n" := by
  have hV := fair_concat 1000 concat_defs 15 kx ky tx ty (by rw [concat_mem]; decide)
    concat_line concat_file hkx hky hkz hpx hpy hpz
  have h := expand_call_unveil _ [(2, []), (4, []), (6, [2, 4])] 1000 concat_defs _ _ hV
    (by rw [concat_mem]; rfl) concat_veiled
  rw [concat_mem] at h
  refine ⟨?_, concat_program⟩
  simpa [fill_items, hid_at, Veil.fill] using h

/-- C11, amended, for the tokens `1` and `y`. -/
theorem C11_concat_one_token_witness :
    "1".toList ∉ macro_keys 1000 concat_defs ∧
    "y".toList ∉ macro_keys 1000 concat_defs ∧
    "1y".toList ∉ macro_keys 1000 concat_defs ∧
    expand_call 1000 concat_defs
      [(Kind.TK_IDENT, "C".toList), (Kind.TK_RESERVED, ['(']), (Kind.TK_NUM, "1".toList),
       (Kind.TK_RESERVED, [',']), (Kind.TK_IDENT, "y".toList), (Kind.TK_RESERVED, [')'])] =
      some [{ id := Kind.TK_NUM, text := "1y", used := ["C"] }] :=
  ⟨concat_one_y.1, concat_one_y.2.1, concat_one_y.2.2,
   (C11_concat_one_token Kind.TK_NUM Kind.TK_IDENT "1".toList "y".toList
     concat_one_y.1 concat_one_y.2.1 concat_one_y.2.2
     (fun h => by cases h <;> contradiction) (fun _ => by decide)
     (fun h => by cases h <;> contradiction)).1⟩

/-! ## Malformed conditions -/

/-- C21: none of the three lines the claim names stops the run.  `primary`
returns `0` when no alternative matches the current token, so `#if +` and
an empty `#if` are conditions of value `0`; `cntlflow` reads the condition
of an `#elif` with `expr` and never looks for the end of the line, so the `2`
of `#elif 1 2` is the first token of the branch.  Tokens behind the
expression of an `#if` and a missing `)` do stop the run. -/
theorem C21_unexpected_token_is_zero :
    preprocess 1000 "#if +\nA\n#else\nB\n#endif\n" = Outcome.out "\nB\n\n" ∧
    preprocess 1000 "#if\nA\n#else\nB\n#endif\n" = Outcome.out "\nB\n\n" ∧
    preprocess 1000 "#if 0\nA\n#elif 1 2\nB\n#endif\n" = Outcome.out " 2\nB\n\n" ∧
    preprocess 1000 "#if 1 2\nA\n#endif\n" = Outcome.exit "Expected token id" ∧
    preprocess 1000 "#if (1\nA\n#else\nB\n#endif\n" = Outcome.exit "Expected token" := by
  decide!

/-! ## Literals that spell a macro name -/

/-- C23: a string or character literal in an argument whose payload is the
key of an object-like macro is replaced by the macro's body: with
`#define X 1` and `#define f(a) a` the calls `f("X")` and `f('X')` print `1`.
`expand_recursive` looks every token up with `macro_get`, which compares the
text and not the kind.  Outside a call the literal is printed as it is:
`stmt` sends only identifiers to `expand_macro`. -/
theorem C23_literal_in_argument_expanded :
    preprocess 1000 "#define X 1\n#define f(a) a\nf(\"X\")\n" = Outcome.out "1\n" ∧
    preprocess 1000 "#define X 1\n#define f(a) a\nf('X')\n" = Outcome.out "1\n" ∧
    preprocess 1000 "#define X 1\n#define g \"X\"\ng\n" = Outcome.out "1\n" ∧
    preprocess 1000 "#define X 1\n\"X\"\n" = Outcome.out "\"X\"\n" := by
  decide!

/-! ## Calls without arguments -/

/-- C24: with `#define f(x) [x]` the call `f()` prints `[x]`: the parameter
name stays in the output.  `token_matched_arg` finds the argument of `x` as
the empty range from `)` to `)`, and over an empty range `token_replace_arg`
replaces nothing; `token_norm_args` puts an empty token between `(` and `,`,
`,` and `,`, `,` and `)`, but not between `(` and `)`.  So `f(,)` of a macro
with two parameters does print empty arguments. -/
theorem C24_empty_call_keeps_parameter :
    preprocess 1000 "#define f(x) [x]\nf()\n" = Outcome.out "[x]\n" ∧
    output_tokens 1000 "#define f(x) [x]\nf()\n" =
      some [plain Kind.TK_SPACES "", { id := Kind.TK_RESERVED, text := "[", used := ["f"] },
        { id := Kind.TK_IDENT, text := "x", used := ["f"] },
        { id := Kind.TK_RESERVED, text := "]", used := ["f"] },
        plain Kind.TK_NEWLINE "\n", plain Kind.TK_EOF ""] ∧
    preprocess 1000 "#define f(x) [x]\nf(1)\n" = Outcome.out "[1]\n" ∧
    preprocess 1000 "#define f(x,y) [x|y]\nf(,)\n" = Outcome.out "[|]\n" := by
  decide!

/-! ## Empty arguments -/

theorem tok_run {s : State} {k : Nat} {r : Token} (h : s.toks[k]? = some r) :
    tok (k + 1) s = Res.ok r s := by
  simp [tok, h]

theorem tok_inv {s s' : State} {p : Ptr} {r : Token} (h : tok p s = Res.ok r s') :
    s' = s ∧ ∃ k, p = k + 1 ∧ s.toks[k]? = some r := by
  unfold tok at h
  cases p with
  | zero => cases h
  | succ k =>
    simp only at h
    cases hk : s.toks[k]? with
    | none => rw [hk] at h; cases h
    | some r0 =>
      rw [hk] at h
      cases h
      exact ⟨rfl, k, rfl, hk⟩

theorem setNext_run {s : State} {k : Nat} {r : Token} (h : s.toks[k]? = some r) (v : Ptr) :
    setNext (k + 1) v s = Res.ok () { s with toks := s.toks.set k { r with next := v } } := by
  have hk : k < s.toks.length := by
    rcases List.getElem?_eq_some_iff.mp h with ⟨hk, _⟩
    exact hk
  simp [setNext, bind_apply, tok_run h, setTok, hk]

theorem is_chain_nil {s : State} {t : Ptr} : is_chain s t [] = true ↔ t = 0 := by
  simp [is_chain]

theorem is_chain_cons_eq (s : State) (t p : Ptr) (ps : List Ptr) :
    is_chain s t (p :: ps) =
      (decide (t = p) &&
        (match tok p s with
         | Res.ok r _ => is_chain s r.next ps
         | Res.err _ => false)) := by
  rw [is_chain]

theorem is_chain_cons {s : State} {t p : Ptr} {ps : List Ptr} :
    is_chain s t (p :: ps) = true ↔
      t = p ∧ ∃ k r, p = k + 1 ∧ s.toks[k]? = some r ∧ is_chain s r.next ps = true := by
  rw [is_chain_cons_eq]
  constructor
  · intro h
    simp only [Bool.and_eq_true, decide_eq_true_eq] at h
    obtain ⟨h1, h2⟩ := h
    refine ⟨h1, ?_⟩
    cases ht : tok p s with
    | err e => rw [ht] at h2; simp at h2
    | ok r s1 =>
      rw [ht] at h2
      obtain ⟨_, k, hp, hk⟩ := tok_inv ht
      exact ⟨k, r, hp, hk, h2⟩
  · rintro ⟨h1, k, r, hp, hk, hc⟩
    subst hp
    simp only [Bool.and_eq_true, decide_eq_true_eq]
    refine ⟨h1, ?_⟩
    rw [tok_run hk]
    exact hc

theorem is_chain_head {s : State} {t : Ptr} {ps : List Ptr} (h : is_chain s t ps = true) :
    t = ps.headD 0 := by
  cases ps with
  | nil => exact is_chain_nil.mp h
  | cons p ps => exact (is_chain_cons.mp h).1

theorem is_chain_unique {s : State} : ∀ (l1 l2 : List Ptr) (t : Ptr),
    is_chain s t l1 = true → is_chain s t l2 = true → l1 = l2 := by
  intro l1
  induction l1 with
  | nil =>
    intro l2 t h1 h2
    have ht := is_chain_nil.mp h1
    cases l2 with
    | nil => rfl
    | cons p ps =>
      obtain ⟨e, k, r, hp, _, _⟩ := is_chain_cons.mp h2
      rw [ht] at e
      rw [← e] at hp
      cases hp
  | cons p ps ih =>
    intro l2 t h1 h2
    obtain ⟨e, k, r, hp, hk, hc⟩ := is_chain_cons.mp h1
    cases l2 with
    | nil =>
      have ht := is_chain_nil.mp h2
      rw [ht] at e
      rw [← e] at hp
      cases hp
    | cons q qs =>
      obtain ⟨e2, k2, r2, hp2, hk2, hc2⟩ := is_chain_cons.mp h2
      have hpq : p = q := by rw [← e, ← e2]
      subst hpq
      have hkk : k = k2 := Nat.succ.inj (hp.symm.trans hp2)
      subst hkk
      rw [hk] at hk2
      cases hk2
      rw [ih qs r.next hc hc2]

theorem is_chain_suffix {s : State} : ∀ (l : List Ptr) (t q : Ptr),
    is_chain s t l = true → q ∈ l →
      ∃ l2, is_chain s q l2 = true ∧ l2.length ≤ l.length := by
  intro l
  induction l with
  | nil => intro t q _ hq; cases hq
  | cons p ps ih =>
    intro t q h hq
    obtain ⟨e, k, r, hp, hk, hc⟩ := is_chain_cons.mp h
    rcases List.mem_cons.mp hq with hq | hq
    · subst hq
      exact ⟨q :: ps, is_chain_cons.mpr ⟨rfl, k, r, hp, hk, hc⟩, le_refl _⟩
    · obtain ⟨l2, h2, hl⟩ := ih r.next q hc hq
      exact ⟨l2, h2, by simp only [List.length_cons]; omega⟩

theorem is_chain_not_mem {s : State} {t p : Ptr} {ps : List Ptr}
    (h : is_chain s t (p :: ps) = true) : p ∉ ps := by
  intro hp
  obtain ⟨e, k, r, hpk, hk, hc⟩ := is_chain_cons.mp h
  obtain ⟨l2, h2, hl⟩ := is_chain_suffix ps r.next p hc hp
  have h0 : is_chain s p (p :: ps) = true := is_chain_cons.mpr ⟨rfl, k, r, hpk, hk, hc⟩
  have := is_chain_unique (p :: ps) l2 p h0 h2
  rw [← this] at hl
  simp only [List.length_cons] at hl
  omega

theorem is_chain_nodup {s : State} : ∀ (ps : List Ptr) (t : Ptr),
    is_chain s t ps = true → ps.Nodup := by
  intro ps
  induction ps with
  | nil => intro _ _; exact List.nodup_nil
  | cons p ps ih =>
    intro t h
    obtain ⟨e, k, r, hpk, hk, hc⟩ := is_chain_cons.mp h
    exact List.nodup_cons.mpr ⟨is_chain_not_mem h, ih r.next hc⟩

theorem is_chain_valid {s : State} : ∀ (ps : List Ptr) (t : Ptr),
    is_chain s t ps = true → ∀ q ∈ ps, ∃ j : Nat, q = j + 1 ∧ j < s.toks.length := by
  intro ps
  induction ps with
  | nil => intro _ _ q hq; cases hq
  | cons p ps ih =>
    intro t h q hq
    obtain ⟨e, k, r, hpk, hk, hc⟩ := is_chain_cons.mp h
    rcases List.mem_cons.mp hq with hq | hq
    · subst hq
      exact ⟨k, hpk, (List.getElem?_eq_some_iff.mp hk).1⟩
    · exact ih r.next hc q hq

/-- A list is the same list in a state whose records at the list's tokens are
the same. -/
theorem is_chain_congr {s s' : State} : ∀ (ps : List Ptr) (t : Ptr),
    (∀ k, k + 1 ∈ ps → s'.toks[k]? = s.toks[k]?) →
    is_chain s t ps = true → is_chain s' t ps = true := by
  intro ps
  induction ps with
  | nil => intro t _ h; rw [is_chain_nil] at h ⊢; exact h
  | cons p ps ih =>
    intro t hs h
    obtain ⟨e, k, r, hpk, hk, hc⟩ := is_chain_cons.mp h
    refine is_chain_cons.mpr ⟨e, k, r, hpk, ?_, ?_⟩
    · rw [hs k (by rw [← hpk]; exact List.mem_cons_self _ _)]
      exact hk
    · exact ih r.next (fun k hk => hs k (List.mem_cons_of_mem _ hk)) hc

theorem token_cmp_of_len0 {s : State} {k : Nat} {r : Token} (h : s.toks[k]? = some r)
    (hl : r.len = 0) (c : Char) : token_cmp s (k + 1) [c] = false := by
  simp [token_cmp, h, scmp, hl]

theorem token_cmp_valid {s : State} {p : Ptr} {w : List Char} (h : token_cmp s p w = true) :
    ∃ k r, p = k + 1 ∧ s.toks[k]? = some r := by
  unfold token_cmp at h
  cases p with
  | zero => cases h
  | succ k =>
    simp only at h
    cases hk : s.toks[k]? with
    | none => rw [hk] at h; cases h
    | some r => exact ⟨k, r, rfl, hk⟩

/-- The test `token_cmp` reads the kind, the position and the length of its
token and the character memory. -/
theorem token_cmp_congr {s s' : State} {k : Nat} {r r' : Token} (hm : s'.mem = s.mem)
    (h : s.toks[k]? = some r) (h' : s'.toks[k]? = some r')
    (e : r = { r' with next := r.next }) (w : List Char) :
    token_cmp s' (k + 1) w = token_cmp s (k + 1) w := by
  have h1 : r'.id = r.id := by rw [e]
  have h2 : r'.pos = r.pos := by rw [e]
  have h3 : r'.len = r.len := by rw [e]
  simp only [token_cmp, h, h', scmp, slice, restAt, hm, h1, h2, h3]

theorem norm_step_plain (fuel : Nat) (t : Ptr) (d : Int) (s : State) (k : Nat) (r : Token)
    (ht : t = k + 1) (hk : s.toks[k]? = some r)
    (hc : ¬ (d + (if token_cmp s t ['('] then 1 else 0) - (if token_cmp s t [')'] then 1 else 0) = 1 ∧
        ((token_cmp s t ['('] ∧ token_cmp s r.next [',']) ∨
         (token_cmp s t [','] ∧ token_cmp s r.next [')']) ∨
         (token_cmp s t [','] ∧ token_cmp s r.next [','])))) :
    token_norm_args_loop (fuel + 1) t d s =
      token_norm_args_loop fuel r.next
        (d + (if token_cmp s t ['('] then 1 else 0) - (if token_cmp s t [')'] then 1 else 0)) s := by
  subst ht
  rw [token_norm_args_loop]
  simp only [Nat.succ_ne_zero, if_false, bind_apply, getState, tok_run hk]
  rw [if_neg hc]
  simp only [bind_apply, pure_apply, tok_run hk]

theorem norm_step_insert (fuel : Nat) (t : Ptr) (d : Int) (s : State) (k m : Nat) (r nr : Token)
    (ht : t = k + 1) (hk : s.toks[k]? = some r) (hn : r.next = m + 1)
    (hm : s.toks[m]? = some nr)
    (hc : d + (if token_cmp s t ['('] then 1 else 0) - (if token_cmp s t [')'] then 1 else 0) = 1 ∧
        ((token_cmp s t ['('] ∧ token_cmp s r.next [',']) ∨
         (token_cmp s t [','] ∧ token_cmp s r.next [')']) ∨
         (token_cmp s t [','] ∧ token_cmp s r.next [','])))  :
    token_norm_args_loop (fuel + 2) t d s =
      token_norm_args_loop fuel r.next
        (d + (if token_cmp s t ['('] then 1 else 0) - (if token_cmp s t [')'] then 1 else 0))
        { s with toks := s.toks.set k { r with next := s.toks.length + 1 } ++
            [{ id := Kind.TK_IDENT, pos := nr.pos, len := 0, leadings := 0, env := s.env,
               macro_org := 0, used := 0, next := r.next }] } := by
  subst ht
  have hkl : k < s.toks.length := (List.getElem?_eq_some_iff.mp hk).1
  rw [token_norm_args_loop]
  simp only [Nat.succ_ne_zero, if_false, bind_apply, getState, tok_run hk]
  rw [if_pos hc]
  have hm2 : tok r.next s = Res.ok nr s := by rw [hn]; exact tok_run hm
  simp only [bind_apply, hm2, token_new, getState, allocTok]
  have h1 : ∀ (x : Token), (s.toks ++ [x])[s.toks.length]? = some x := by
    intro x; simp
  rw [setNext_run (h1 _)]
  simp only []
  have e1 : ∀ (x y : Token), (s.toks ++ [x]).set s.toks.length y = s.toks ++ [y] := by
    intro x y; simp
  have e2 : ∀ (x y : Token), (s.toks ++ [x]).set k y = s.toks.set k y ++ [x] := by
    intro x y; simp [List.set_append, hkl]
  rw [e1]
  have h2 : ∀ (x : Token), (s.toks ++ [x])[k]? = some r := by
    intro x; rw [List.getElem?_append_left hkl]; exact hk
  rw [setNext_run (h2 _)]
  simp only []
  rw [e2]
  have h3 : ∀ (x y : Token), (s.toks.set k y ++ [x])[k]? = some y := by
    intro x y
    rw [List.getElem?_append_left (by simpa using hkl)]
    simp [hkl]
  rw [tok_run (h3 _ _)]
  simp only []
  have h4 : ∀ (x y : Token), (s.toks.set k y ++ [x])[s.toks.length]? = some x := by
    intro x y
    have : s.toks.length = (s.toks.set k y).length := by simp
    rw [this]
    simp
  have key : ∀ (st : State) (x : Token) (n : Ptr), st.toks[s.toks.length]? = some x →
      x.len = 0 → x.next = n →
      ∀ d1 : Int, token_norm_args_loop (fuel + 1) (s.toks.length + 1) d1 st =
        token_norm_args_loop fuel n d1 st := by
    intro st x n hx hl hn d1
    subst hn
    rw [norm_step_plain fuel _ d1 st s.toks.length x rfl hx]
    · simp [token_cmp_of_len0 hx hl]
    · simp [token_cmp_of_len0 hx hl]
  refine key _ _ _ (h4 _ _) ?_ ?_ _ <;> rfl

theorem norm_list_congr (f g : Ptr → List Char → Bool) : ∀ (ps : List Ptr) (d : Int) (n : Nat),
    (∀ p w, p ∈ ps → f p w = g p w) → (∀ w, f 0 w = g 0 w) →
    norm_list f d n ps = norm_list g d n ps := by
  intro ps
  induction ps with
  | nil => intro d n _ _; rfl
  | cons p ps ih =>
    intro d n h h0
    have hp : ∀ w, f p w = g p w := fun w => h p w (List.mem_cons_self _ _)
    have hq : ∀ w, f (ps.headD 0) w = g (ps.headD 0) w := by
      intro w
      cases ps with
      | nil => exact h0 w
      | cons q qs => exact h q w (List.mem_cons_of_mem _ (List.mem_cons_self _ _))
    have hr : ∀ d n, norm_list f d n ps = norm_list g d n ps :=
      fun d n => ih d n (fun p w hp => h p w (List.mem_cons_of_mem _ hp)) h0
    simp only [norm_list, norm_gap, norm_depth, hp, hq, hr]

/-- The step of `token_norm_args` at an empty argument, with the state it
leaves described by what is read of it later. -/
theorem norm_step_insert_ex (fuel : Nat) (t : Ptr) (d : Int) (s : State) (k : Nat) (r : Token)
    (ht : t = k + 1) (hk : s.toks[k]? = some r)
    (hc : d + (if token_cmp s t ['('] then 1 else 0) - (if token_cmp s t [')'] then 1 else 0) = 1 ∧
        ((token_cmp s t ['('] ∧ token_cmp s r.next [',']) ∨
         (token_cmp s t [','] ∧ token_cmp s r.next [')']) ∨
         (token_cmp s t [','] ∧ token_cmp s r.next [','])))  :
    ∃ s3 x, token_norm_args_loop (fuel + 2) t d s =
        token_norm_args_loop fuel r.next
          (d + (if token_cmp s t ['('] then 1 else 0) - (if token_cmp s t [')'] then 1 else 0)) s3 ∧
      s3 = { s with toks := s3.toks } ∧
      s3.toks = s.toks.set k { r with next := s.toks.length + 1 } ++ [x] ∧
      x.id = Kind.TK_IDENT ∧ x.len = 0 ∧ x.next = r.next := by
  have hv : ∃ m nr, r.next = m + 1 ∧ s.toks[m]? = some nr := by
    rcases hc.2 with h | h | h
    · exact token_cmp_valid h.2
    · exact token_cmp_valid h.2
    · exact token_cmp_valid h.2
  obtain ⟨m, nr, hn, hm⟩ := hv
  exact ⟨_, _, norm_step_insert fuel t d s k m r nr ht hk hn hm hc, rfl, rfl, rfl, rfl, rfl⟩

theorem relinked_refl (s : State) (ps : List Ptr) : Relinked s s ps := by
  refine ⟨rfl, le_refl _, fun k r h => ⟨r, h, rfl, fun _ => rfl⟩, ?_⟩
  intro k r hk h
  have := (List.getElem?_eq_some_iff.mp h).1
  omega

theorem norm_loop_spec : ∀ (ps : List Ptr) (s : State) (t : Ptr) (d : Int) (fuel : Nat),
    is_chain s t ps = true → 2 * ps.length < fuel →
    ∃ s', token_norm_args_loop fuel t d s = Res.ok () s' ∧
      is_chain s' t (norm_list (token_cmp s) d (s.toks.length + 1) ps) = true ∧
      Relinked s s' ps := by
  intro ps
  induction ps with
  | nil =>
    intro s t d fuel hc hf
    have ht := is_chain_nil.mp hc
    subst ht
    obtain ⟨f, rfl⟩ : ∃ f, fuel = f + 1 := ⟨fuel - 1, by omega⟩
    refine ⟨s, ?_, ?_, relinked_refl s []⟩
    · rw [token_norm_args_loop]
      rfl
    · rfl
  | cons p ps ih =>
    intro s t d fuel hc hf
    obtain ⟨e, k, r, hp, hk, hc2⟩ := is_chain_cons.mp hc
    subst e
    have hnm : t ∉ ps := is_chain_not_mem hc
    have hhead : r.next = ps.headD 0 := is_chain_head hc2
    have hval := is_chain_valid ps r.next hc2
    have hkl : k < s.toks.length := (List.getElem?_eq_some_iff.mp hk).1
    simp only [List.length_cons] at hf
    by_cases hcond : d + (if token_cmp s t ['('] then 1 else 0) -
          (if token_cmp s t [')'] then 1 else 0) = 1 ∧
        ((token_cmp s t ['('] ∧ token_cmp s r.next [',']) ∨
         (token_cmp s t [','] ∧ token_cmp s r.next [')']) ∨
         (token_cmp s t [','] ∧ token_cmp s r.next [',']))
    · obtain ⟨f, rfl⟩ : ∃ f, fuel = f + 2 := ⟨fuel - 2, by omega⟩
      obtain ⟨s3, x, hrun, hs3, ht3, hx1, hx2, hx3⟩ :=
        norm_step_insert_ex f t d s k r hp hk hcond
      have hlen3 : s3.toks.length = s.toks.length + 1 := by
        rw [ht3]; simp
      have hk3 : s3.toks[k]? = some { r with next := s.toks.length + 1 } := by
        rw [ht3, List.getElem?_append_left (by simpa using hkl)]
        simp [hkl]
      have hL3 : s3.toks[s.toks.length]? = some x := by
        rw [ht3]
        have : s.toks.length = (s.toks.set k { r with next := s.toks.length + 1 }).length := by
          simp
        rw [List.getElem?_append_right (by simp)]
        simp
      have hj3 : ∀ j, j ≠ k → j < s.toks.length → s3.toks[j]? = s.toks[j]? := by
        intro j hjk hj
        rw [ht3, List.getElem?_append_left (by simpa using hj)]
        rw [List.getElem?_set_ne (Ne.symm hjk)]
      have hmem3 : s3.mem = s.mem := by rw [hs3]
      have hin : ∀ j, j + 1 ∈ ps → s3.toks[j]? = s.toks[j]? := by
        intro j hj
        obtain ⟨j2, hj2, hjl⟩ := hval (j + 1) hj
        have hjj : j = j2 := Nat.succ.inj hj2
        subst hjj
        refine hj3 j ?_ hjl
        intro hjk
        apply hnm
        rw [hp, ← hjk]
        exact hj
      have hc3 : is_chain s3 r.next ps = true := is_chain_congr ps r.next hin hc2
      obtain ⟨s', hrun', hchain', hrel⟩ := ih s3 r.next (norm_depth (token_cmp s) d t)
        f hc3 (by omega)
      obtain ⟨hr1, hr2, hr3, hr4⟩ := hrel
      have hcmp : ∀ q w, q ∈ ps → token_cmp s3 q w = token_cmp s q w := by
        intro q w hq
        obtain ⟨j, rfl, hjl⟩ := hval q hq
        have := hin j hq
        simp only [token_cmp, this, scmp, slice, restAt, hmem3]
      have hnl : norm_list (token_cmp s3) (norm_depth (token_cmp s) d t)
            (s3.toks.length + 1) ps =
          norm_list (token_cmp s) (norm_depth (token_cmp s) d t) (s.toks.length + 1 + 1) ps := by
        rw [hlen3]
        exact norm_list_congr _ _ ps _ _ hcmp (fun w => rfl)
      have hLps : s.toks.length + 1 ∉ ps := by
        intro h
        obtain ⟨j, hj, hjl⟩ := hval _ h
        have hjj : s.toks.length = j := Nat.succ.inj hj
        omega
      have hkps : k + 1 ∉ ps := by rw [← hp]; exact hnm
      obtain ⟨rk, hrk1, hrk2, hrk3⟩ := hr3 k _ hk3
      obtain ⟨rL, hrL1, hrL2, hrL3⟩ := hr3 _ x hL3
      have hrk := hrk3 hkps
      have hrL := hrL3 hLps
      refine ⟨s', ?_, ?_, ?_, ?_, ?_, ?_⟩
      · rw [hrun]; exact hrun'
      · have hg : norm_gap (token_cmp s) d t (ps.headD 0) := by rw [← hhead]; exact hcond
        rw [norm_list, if_pos hg]
        refine is_chain_cons.mpr ⟨rfl, k, rk, hp, hrk1, ?_⟩
        rw [hrk]
        refine is_chain_cons.mpr ⟨rfl, s.toks.length, rL, rfl, hrL1, ?_⟩
        rw [hrL, hx3, ← hnl]
        exact hchain'
      · rw [hr1, hs3]
      · omega
      · intro j rj hj
        by_cases hjk : j = k
        · subst hjk
          rw [hk] at hj
          cases hj
          refine ⟨rk, hrk1, ?_, ?_⟩
          · rw [hrk]
          · intro h
            exact absurd (by rw [hp]; exact List.mem_cons_self _ _) h
        · have hjl : j < s.toks.length := (List.getElem?_eq_some_iff.mp hj).1
          have hj3' : s3.toks[j]? = some rj := by rw [hj3 j hjk hjl]; exact hj
          obtain ⟨r', h1, h2, h3⟩ := hr3 j rj hj3'
          exact ⟨r', h1, h2, fun h => h3 (fun hq => h (List.mem_cons_of_mem _ hq))⟩
      · intro j r' hj h
        by_cases hjL : j = s.toks.length
        · subst hjL
          rw [hrL1] at h
          cases h
          rw [hrL]
          exact ⟨hx1, hx2⟩
        · exact hr4 j r' (by omega) h
    · obtain ⟨f, rfl⟩ : ∃ f, fuel = f + 1 := ⟨fuel - 1, by omega⟩
      obtain ⟨s', hrun', hchain', hrel⟩ := ih s r.next (norm_depth (token_cmp s) d t)
        f hc2 (by omega)
      obtain ⟨hr1, hr2, hr3, hr4⟩ := hrel
      have hkps : k + 1 ∉ ps := by rw [← hp]; exact hnm
      obtain ⟨rk, hrk1, hrk2, hrk3⟩ := hr3 k r hk
      have hrk := hrk3 hkps
      refine ⟨s', ?_, ?_, hr1, hr2, ?_, hr4⟩
      · rw [norm_step_plain f t d s k r hp hk hcond]
        exact hrun'
      · have hg : ¬ norm_gap (token_cmp s) d t (ps.headD 0) := by rw [← hhead]; exact hcond
        rw [norm_list, if_neg hg]
        refine is_chain_cons.mpr ⟨rfl, k, rk, hp, hrk1, ?_⟩
        rw [hrk]
        exact hchain'
      · intro j rj hj
        obtain ⟨r', h1, h2, h3⟩ := hr3 j rj hj
        exact ⟨r', h1, h2, fun h => h3 (fun hq => h (List.mem_cons_of_mem _ hq))⟩

theorem paren_depth_snoc (s : State) (pre : List Ptr) (p : Ptr) :
    paren_depth s (pre ++ [p]) =
      paren_depth s pre + (if token_cmp s p ['('] then 1 else 0) -
        (if token_cmp s p [')'] then 1 else 0) := by
  unfold paren_depth
  simp only [List.countP_append, List.countP_cons, List.countP_nil]
  split <;> split <;> simp <;> omega

theorem empty_after_mid (s : State) (pre : List Ptr) (p : Ptr) (qs : List Ptr) :
    empty_after s (pre ++ p :: qs) pre.length =
      (decide (paren_depth s pre + (if token_cmp s p ['('] then 1 else 0) -
          (if token_cmp s p [')'] then 1 else 0) = 1) &&
        ((token_cmp s p ['('] && token_cmp s (qs.headD 0) [',']) ||
         (token_cmp s p [','] && token_cmp s (qs.headD 0) [')']) ||
         (token_cmp s p [','] && token_cmp s (qs.headD 0) [',']))) := by
  unfold empty_after
  have h1 : (pre ++ p :: qs).take (pre.length + 1) = pre ++ [p] := by
    rw [List.take_append]; rfl
  have h2 : (pre ++ p :: qs).getD pre.length 0 = p := by
    rw [List.getD_append_right _ _ _ _ (le_refl _)]; simp
  have h3 : (pre ++ p :: qs).getD (pre.length + 1) 0 = qs.headD 0 := by
    rw [List.getD_append_right _ _ _ _ (by omega)]
    cases qs <;> simp
  rw [h1, h2, h3, paren_depth_snoc]

theorem norm_gap_iff (s : State) (pre : List Ptr) (p : Ptr) (qs : List Ptr) :
    norm_gap (token_cmp s) (paren_depth s pre) p (qs.headD 0) ↔
      empty_after s (pre ++ p :: qs) pre.length = true := by
  rw [empty_after_mid, norm_gap]
  simp only [Bool.and_eq_true, Bool.or_eq_true, decide_eq_true_eq, or_assoc]

theorem norm_list_eq (s : State) (n0 : Nat) : ∀ (qs pre : List Ptr),
    norm_list (token_cmp s) (paren_depth s pre)
        (n0 + ((List.range pre.length).filter (empty_after s (pre ++ qs))).length) qs =
      (List.range' pre.length qs.length).flatMap (fun i =>
        (pre ++ qs).getD i 0 ::
          (if empty_after s (pre ++ qs) i then
            [n0 + ((List.range i).filter (empty_after s (pre ++ qs))).length]
          else [])) := by
  intro qs
  induction qs with
  | nil => intro pre; rfl
  | cons p qs ih =>
    intro pre
    have hih := ih (pre ++ [p])
    have happ : pre ++ [p] ++ qs = pre ++ p :: qs := by simp
    rw [happ, paren_depth_snoc] at hih
    simp only [List.length_append, List.length_cons, List.length_nil, Nat.zero_add] at hih
    have h2 : (pre ++ p :: qs).getD pre.length 0 = p := by
      rw [List.getD_append_right _ _ _ _ (le_refl _)]; simp
    have hiff := norm_gap_iff s pre p qs
    rw [norm_list, List.length_cons, List.range'_succ, List.flatMap_cons, h2, ← hih]
    rw [List.range_succ, List.filter_append]
    by_cases hc : empty_after s (pre ++ p :: qs) pre.length = true
    · rw [if_pos (hiff.mpr hc), if_pos hc]
      simp [List.filter_cons, hc, Nat.add_assoc, norm_depth]
    · rw [if_neg (fun h => hc (hiff.mp h)), if_neg hc]
      simp [List.filter_cons, hc, norm_depth]

theorem norm_list_spec (s : State) (ps : List Ptr) :
    norm_list (token_cmp s) 0 (s.toks.length + 1) ps = with_empty_args s ps := by
  have h := norm_list_eq s (s.toks.length + 1) ps []
  simp only [List.length_nil, List.range_zero, List.filter_nil, Nat.add_zero,
    List.nil_append] at h
  have hd : paren_depth s [] = 0 := by simp [paren_depth]
  rw [hd] at h
  rw [h, with_empty_args, List.range_eq_range']

theorem mem_norm_list (f : Ptr → List Char → Bool) : ∀ (ps : List Ptr) (d : Int) (n : Nat) (q : Ptr),
    q ∈ norm_list f d n ps → q ∈ ps ∨ n ≤ q := by
  intro ps
  induction ps with
  | nil => intro d n q h; simp [norm_list] at h
  | cons p ps ih =>
    intro d n q h
    rw [norm_list] at h
    split at h
    · rcases List.mem_cons.mp h with h | h
      · exact Or.inl (by rw [h]; exact List.mem_cons_self _ _)
      · rcases List.mem_cons.mp h with h | h
        · exact Or.inr (le_of_eq h.symm)
        · rcases ih _ _ q h with h | h
          · exact Or.inl (List.mem_cons_of_mem _ h)
          · exact Or.inr (by omega)
    · rcases List.mem_cons.mp h with h | h
      · exact Or.inl (by rw [h]; exact List.mem_cons_self _ _)
      · rcases ih _ _ q h with h | h
        · exact Or.inl (List.mem_cons_of_mem _ h)
        · exact Or.inr h

theorem norm_list_filter (f : Ptr → List Char → Bool) (g : Ptr → Bool) :
    ∀ (ps : List Ptr) (d : Int) (n : Nat),
    (∀ q ∈ ps, g q = true) → (∀ q, n ≤ q → g q = false) →
    (norm_list f d n ps).filter g = ps := by
  intro ps
  induction ps with
  | nil => intro d n _ _; rfl
  | cons p ps ih =>
    intro d n h1 h2
    have hp : g p = true := h1 p (List.mem_cons_self _ _)
    have hn : g n = false := h2 n (le_refl _)
    have hr : ∀ d, (norm_list f d (n + 1) ps).filter g = ps :=
      fun d => ih d (n + 1) (fun q hq => h1 q (List.mem_cons_of_mem _ hq))
        (fun q hq => h2 q (by omega))
    have hr2 : ∀ d, (norm_list f d n ps).filter g = ps :=
      fun d => ih d n (fun q hq => h1 q (List.mem_cons_of_mem _ hq)) h2
    rw [norm_list]
    split
    · simp [List.filter_cons, hp, hn, hr]
    · simp [List.filter_cons, hp, hr2]

theorem zero_length_relinked {s s' : State} {ps : List Ptr} (h : Relinked s s' ps) {k : Nat}
    {r : Token} (hk : s.toks[k]? = some r) : zero_length s' (k + 1) = zero_length s (k + 1) := by
  obtain ⟨r', h1, h2, _⟩ := h.2.2.1 k r hk
  have hl : r'.len = r.len := by rw [h2]
  simp [zero_length, tok_run hk, tok_run h1, hl]

/-- C22: for every list of tokens on the heap, `token_norm_args` returns with
the list `with_empty_args`: the tokens of the list in their order, and one new
token behind each position at which, at depth 1, `(` is followed by `,`, or
`,` by `,`, or `,` by `)`.  Taking the new tokens out gives the list back, and
so does taking the tokens of length zero out when the list had none.  Every
new token is an identifier of length zero, no record of the heap changes but
in its link `next`, records outside the list do not change at all, and
nothing else of the state changes. -/
theorem C22_token_norm_args_inserts (s : State) (ts : Ptr) (ps : List Ptr) (fuel : Nat)
    (hc : is_chain s ts ps = true) (hf : 2 * ps.length < fuel) :
    ∃ s', token_norm_args fuel ts s = Res.ok ts s' ∧
      is_chain s' ts (with_empty_args s ps) = true ∧
      (with_empty_args s ps).filter (fun p => decide (p ∈ ps)) = ps ∧
      ((∀ p ∈ ps, zero_length s p = false) →
        (with_empty_args s ps).filter (fun p => !zero_length s' p) = ps) ∧
      (∀ p ∈ with_empty_args s ps, p ∉ ps →
        ∃ r, tok p s' = Res.ok r s' ∧ r.id = Kind.TK_IDENT ∧ r.len = 0 ∧ s.toks.length < p) ∧
      (∀ p r, tok p s = Res.ok r s →
        ∃ r', tok p s' = Res.ok r' s' ∧ r = { r' with next := r.next } ∧ (p ∉ ps → r' = r)) ∧
      s' = { s with toks := s'.toks } := by
  obtain ⟨s', hrun, hchain, hrel⟩ := norm_loop_spec ps s ts 0 fuel hc hf
  have hval := is_chain_valid ps ts hc
  have hnew : ∀ p ∈ with_empty_args s ps, p ∉ ps →
      ∃ r, tok p s' = Res.ok r s' ∧ r.id = Kind.TK_IDENT ∧ r.len = 0 ∧ s.toks.length < p := by
    intro p hp hnp
    rw [← norm_list_spec] at hp
    have hge : s.toks.length + 1 ≤ p := by
      rcases mem_norm_list _ ps _ _ p hp with h | h
      · exact absurd h hnp
      · exact h
    obtain ⟨j, hj, hjl⟩ := is_chain_valid _ ts hchain p hp
    subst hj
    obtain ⟨r, hr⟩ : ∃ r, s'.toks[j]? = some r :=
      ⟨s'.toks[j], List.getElem?_eq_getElem hjl⟩
    obtain ⟨h1, h2⟩ := hrel.2.2.2 j r (by omega) hr
    exact ⟨r, tok_run hr, h1, h2, by omega⟩
  have hfil : (with_empty_args s ps).filter (fun p => decide (p ∈ ps)) = ps := by
    rw [← norm_list_spec]
    refine norm_list_filter _ _ ps 0 _ (fun q hq => by simpa using hq) ?_
    intro q hq
    simp only [decide_eq_false_iff_not]
    intro h
    obtain ⟨j, hj, hjl⟩ := hval q h
    subst hj
    omega
  rw [norm_list_spec] at hchain
  refine ⟨s', ?_, hchain, hfil, ?_, hnew, ?_, hrel.1⟩
  · unfold token_norm_args
    rw [bind_apply, hrun]
    rfl
  · intro hz
    refine (List.filter_congr ?_).trans hfil
    intro p hp
    by_cases hpp : p ∈ ps
    · obtain ⟨j, hj, hjl⟩ := hval p hpp
      subst hj
      have hr : s.toks[j]? = some s.toks[j] := List.getElem?_eq_getElem hjl
      rw [zero_length_relinked hrel hr, hz _ hpp]
      simp [hpp]
    · obtain ⟨r, h1, _, h3, _⟩ := hnew p hp hpp
      simp [zero_length, h1, h3, hpp]
  · intro p r hp
    obtain ⟨_, k, hpk, hk⟩ := tok_inv hp
    subst hpk
    obtain ⟨r', h1, h2, h3⟩ := hrel.2.2.1 k r hk
    exact ⟨r', tok_run h1, h2, h3⟩

theorem C22_token_norm_args_inserts_witness :
    is_chain args_example 1 [1, 2, 3, 4, 5] = true ∧ 2 * [1, 2, 3, 4, 5].length < 11 ∧
    with_empty_args args_example [1, 2, 3, 4, 5] = [1, 2, 6, 3, 7, 4, 8, 5] ∧
    ∃ s', token_norm_args 11 1 args_example = Res.ok 1 s' ∧
      is_chain s' 1 (with_empty_args args_example [1, 2, 3, 4, 5]) = true ∧
      (with_empty_args args_example [1, 2, 3, 4, 5]).filter
        (fun p => decide (p ∈ [1, 2, 3, 4, 5])) = [1, 2, 3, 4, 5] ∧
      ((∀ p ∈ [1, 2, 3, 4, 5], zero_length args_example p = false) →
        (with_empty_args args_example [1, 2, 3, 4, 5]).filter (fun p => !zero_length s' p) =
          [1, 2, 3, 4, 5]) ∧
      (∀ p ∈ with_empty_args args_example [1, 2, 3, 4, 5], p ∉ [1, 2, 3, 4, 5] →
        ∃ r, tok p s' = Res.ok r s' ∧ r.id = Kind.TK_IDENT ∧ r.len = 0 ∧
          args_example.toks.length < p) ∧
      (∀ p r, tok p args_example = Res.ok r args_example →
        ∃ r', tok p s' = Res.ok r' s' ∧ r = { r' with next := r.next } ∧
          (p ∉ [1, 2, 3, 4, 5] → r' = r)) ∧
      s' = { args_example with toks := s'.toks } :=
  ⟨by decide, by decide, by decide,
    C22_token_norm_args_inserts args_example 1 [1, 2, 3, 4, 5] 11 (by decide) (by decide)⟩

/-! ## Rescanning a literal -/

theorem fail_apply {α : Type} (e : Err) (s : State) : (fail e : M α) s = Res.err e := rfl

theorem tokD_get {s : State} {p : Ptr} (h0 : 0 < p) (h1 : p ≤ s.toks.length) :
    ∃ k : Nat, p = k + 1 ∧ s.toks[k]? = some (tokD s p) := by
  cases p with
  | zero => cases h0
  | succ k =>
    refine ⟨k, rfl, ?_⟩
    have hk : k < s.toks.length := h1
    simp [tokD, List.getD, List.getElem?_eq_getElem hk]

theorem macD_get {s : State} {m : Ptr} (h0 : 0 < m) (h1 : m ≤ s.macros.length) :
    ∃ k : Nat, m = k + 1 ∧ s.macros[k]? = some (macD s m) := by
  cases m with
  | zero => cases h0
  | succ k =>
    refine ⟨k, rfl, ?_⟩
    have hk : k < s.macros.length := h1
    simp [macD, List.getD, List.getElem?_eq_getElem hk]

theorem macroAt_run {s : State} {k : Nat} {r : Macro} (h : s.macros[k]? = some r) :
    macroAt (k + 1) s = Res.ok r s := by
  simp [macroAt, h]

theorem token_cmp_no_name {s : State} {k : Nat} {t : Token} (h : s.toks[k]? = some t)
    (hn : no_name t) (w : List Char) : token_cmp s (k + 1) w = false := by
  simp [token_cmp, h, hn.1, hn.2]

theorem used_has_key_plain : ∀ (f : Nat) (sd u : Ptr) (s : State), used_closed s →
    u ≤ s.useds.length → (u = 0 ∨ ∀ w, token_cmp s sd w = false) →
    used_has_key f sd u s = Res.ok false s ∨ used_has_key f sd u s = Res.err Err.fuel := by
  intro f
  induction f with
  | zero => intro sd u s _ _ _; exact Or.inr rfl
  | succ f ih =>
    intro sd u s hc hu hH
    unfold used_has_key
    by_cases h0 : u = 0
    · left
      rw [if_pos h0]
      rfl
    · rw [if_neg h0]
      have hw : ∀ w, token_cmp s sd w = false := by
        rcases hH with h | h
        · exact absurd h h0
        · exact h
      obtain ⟨k, rfl⟩ : ∃ k : Nat, u = k + 1 := Nat.exists_eq_succ_of_ne_zero h0
      have hk : k < s.useds.length := hu
      have hn : s.useds[k]? = some (s.useds[k]) := List.getElem?_eq_getElem hk
      have hmem : s.useds[k] ∈ s.useds := List.getElem_mem hk
      obtain ⟨⟨hm1, hm2⟩, hnx⟩ := hc _ hmem
      obtain ⟨j, hj, hr⟩ := macD_get (s := s) (m := (s.useds[k]).mac) hm1 hm2
      have e1 : usedNode (k + 1) s = Res.ok (s.useds[k]) s := by simp [usedNode, hn]
      have e2 : macroAt (s.useds[k]).mac s = Res.ok (macD s (s.useds[k]).mac) s := by
        rw [hj]
        exact macroAt_run (by rw [← hj]; exact hr)
      rw [bind_of_ok e1, bind_of_ok e2, bind_apply]
      simp only [getState, hw, Bool.false_eq_true, if_false]
      exact ih sd _ s hc hnx (Or.inr hw)

theorem macro_get_loop_congr {s s' : State} {t0 t0' : Token} {t1 t1' : Ptr}
    (hmac : s'.macros = s.macros) (hlen : t0'.len = t0.len)
    (hsl : slice s' t0'.pos t0'.len = slice s t0.pos t0.len)
    (hc : token_cmp s' t1' ['('] = token_cmp s t1 ['(']) :
    ∀ tab : List Ptr, macro_get_loop s' t0' t1' tab = macro_get_loop s t0 t1 tab := by
  intro tab
  induction tab with
  | nil => rfl
  | cons m ms ih =>
    unfold macro_get_loop
    rw [hmac]
    cases s.macros[m - 1]? with
    | none => rfl
    | some r =>
      simp only
      have e : macro_match s' t0' t1' r = macro_match s t0 t1 r := by
        unfold macro_match scmp
        rw [hc, hsl, hlen]
      rw [e, ih]

theorem setUsed_run {s : State} {k : Nat} {r : Token} (h : s.toks[k]? = some r) (v : Ptr) :
    setUsed (k + 1) v s = Res.ok () { s with toks := s.toks.set k { r with used := v } } := by
  have hk : k < s.toks.length := by
    rcases List.getElem?_eq_some_iff.mp h with ⟨hk, _⟩
    exact hk
  simp [setUsed, bind_apply, tok_run h, setTok, hk]

theorem token_dup_run {s : State} {k : Nat} {r : Token} (h : s.toks[k]? = some r) :
    token_dup (k + 1) s = Res.ok (s.toks.length + 1) { s with toks := s.toks ++ [r] } := by
  simp [token_dup, bind_apply, tok_run h, allocTok]

theorem get_lt {α : Type} {l : List α} {k : Nat} {a : α} (h : l[k]? = some a) : k < l.length := by
  rcases List.getElem?_eq_some_iff.mp h with ⟨hk, _⟩
  exact hk

/-- One round of the loop of `expand_def` on a token of the replacement. -/
theorem expand_def_loop_step (f : Nat) (m used : Ptr) (s : State)
    (pr : Token) (j k : Nat) (b : Token)
    (hpr : s.toks[j]? = some pr) (hk : s.toks[k]? = some b) :
    expand_def_loop (f + 1) m used (j + 1) (k + 1) s =
      expand_def_loop f m used (s.toks.length + 1) b.next
        (with_heaps s ((s.toks.set j { pr with next := s.toks.length + 1 }) ++
            [{ b with used := s.useds.length + 1 }])
          (s.useds ++ [{ mac := m, next := used }])) := by
  have hj := get_lt hpr
  rw [expand_def_loop]
  rw [if_neg (Nat.succ_ne_zero k)]
  rw [bind_of_ok (token_dup_run hk)]
  rw [bind_apply]
  simp only [allocUsed]
  have e4 : ∀ t : State, t.toks = s.toks ++ [b] →
      (setUsed (s.toks.length + 1) (s.useds.length + 1) t : Res Unit) =
      Res.ok () { t with toks := s.toks ++ [{ b with used := s.useds.length + 1 }] } := by
    intro t ht
    have e3 : t.toks[s.toks.length]? = some b := by rw [ht]; simp
    rw [setUsed_run e3, ht]
    simp
  rw [bind_of_ok (e4 _ rfl)]
  simp only [token_stitch, if_neg (Nat.succ_ne_zero j)]
  have e5 : ∀ t : State, t.toks = s.toks ++ [{ b with used := s.useds.length + 1 }] →
      (setNext (j + 1) (s.toks.length + 1) t : Res Unit) =
      Res.ok () { t with toks := (s.toks.set j { pr with next := s.toks.length + 1 }) ++
        [{ b with used := s.useds.length + 1 }] } := by
    intro t ht
    have e3 : t.toks[j]? = some pr := by
      rw [ht, List.getElem?_append_left hj]
      exact hpr
    rw [setNext_run e3, ht]
    simp [List.set_append, hj]
  rw [bind_apply, bind_apply, e5 _ rfl]
  simp only [pure_apply]
  rw [bind_apply]
  have e6 : ∀ t : State,
      t.toks = (s.toks.set j { pr with next := s.toks.length + 1 }) ++
        [{ b with used := s.useds.length + 1 }] →
      tok (s.toks.length + 1) t = Res.ok { b with used := s.useds.length + 1 } t := by
    intro t ht
    apply tok_run
    rw [ht]
    simp
  rw [e6 _ rfl]
  rfl

theorem app_get0 {α : Type} (l : List α) (a : α) (r : List α) :
    (l ++ a :: r)[l.length]? = some a := by
  rw [List.getElem?_append_right (Nat.le_refl _)]
  simp

theorem app_get1 {α : Type} (l : List α) (a b : α) (r : List α) :
    (l ++ a :: b :: r)[l.length + 1]? = some b := by
  rw [List.getElem?_append_right (Nat.le_add_right _ _)]
  simp

theorem app_get2 {α : Type} (l : List α) (a b c : α) (r : List α) :
    (l ++ a :: b :: c :: r)[l.length + 2]? = some c := by
  rw [List.getElem?_append_right (Nat.le_add_right _ _)]
  simp

theorem app_get_old {α : Type} {l : List α} {k : Nat} {a : α} (h : l[k]? = some a)
    (r : List α) : (l ++ r)[k]? = some a := by
  rw [List.getElem?_append_left (get_lt h)]
  exact h

theorem app_set0 {α : Type} (l : List α) (a x : α) (r : List α) :
    (l ++ a :: r).set l.length x = l ++ x :: r := by
  rw [List.set_append_right _ _ (Nat.le_refl _)]
  simp

theorem app_set1 {α : Type} (l : List α) (a b x : α) (r : List α) :
    (l ++ a :: b :: r).set (l.length + 1) x = l ++ a :: x :: r := by
  rw [List.set_append_right _ _ (Nat.le_add_right _ _)]
  simp

/-- A run of `expand_def` on a replacement of two tokens: within the budget it
returns the copy of the first token, and the heap has gained the list head,
the two copies and their used-macro nodes. -/
theorem expand_def_two (f : Nat) (used : Ptr) (s : State) (r : Macro) (b1 b2 : Token)
    (km k1 k2 : Nat) (hm : s.macros[km]? = some r) (hto : r.to_ = k1 + 1)
    (h1 : s.toks[k1]? = some b1) (hn : b1.next = k2 + 1) (h2 : s.toks[k2]? = some b2)
    (h2n : b2.next = 0) :
    expand_def f (km + 1) used s = Res.err Err.fuel ∨
    expand_def f (km + 1) used s = Res.ok (s.toks.length + 2)
      (with_heaps s
        (s.toks ++ [{ zeroToken with next := s.toks.length + 2 },
          { b1 with used := s.useds.length + 1, next := s.toks.length + 3 },
          { b2 with used := s.useds.length + 2 }])
        (s.useds ++ [{ mac := km + 1, next := used }, { mac := km + 1, next := used }])) := by
  have e0 : expand_def f (km + 1) used s =
      ((expand_def_loop f (km + 1) used (s.toks.length + 1) (k1 + 1) >>= fun _ => do
        let h ← tok (s.toks.length + 1)
        pure h.next) (with_heaps s (s.toks ++ [zeroToken]) s.useds)) := by
    unfold expand_def
    rw [bind_apply]
    simp only [allocTok]
    rw [bind_apply]
    have e : ∀ t : State, t.macros = s.macros → macroAt (km + 1) t = Res.ok r t := by
      intro t ht
      apply macroAt_run
      rw [ht]
      exact hm
    rw [e]
    · simp only [hto]
      rfl
    · rfl
  rw [e0]
  cases f with
  | zero => left; rfl
  | succ f =>
    have g1 : (with_heaps s (s.toks ++ [zeroToken]) s.useds).toks[s.toks.length]? =
        some zeroToken := app_get0 _ _ _
    have g2 : (with_heaps s (s.toks ++ [zeroToken]) s.useds).toks[k1]? = some b1 :=
      app_get_old h1 _
    have hn1 : ∀ (g : Nat) (p : Ptr) (S : State), expand_def_loop g (km + 1) used p b1.next S =
        expand_def_loop g (km + 1) used p (k2 + 1) S := by
      intro g p S
      rw [hn]
    have hn2 : ∀ (g : Nat) (p : Ptr) (S : State), expand_def_loop g (km + 1) used p b2.next S =
        expand_def_loop g (km + 1) used p 0 S := by
      intro g p S
      rw [h2n]
    rw [bind_apply, expand_def_loop_step f (km + 1) used _ zeroToken _ k1 b1 g1 g2, hn1]
    cases f with
    | zero => left; rfl
    | succ f =>
      have e1 : (with_heaps s (s.toks ++ [zeroToken]) s.useds).toks.length =
          s.toks.length + 1 := by simp [with_heaps]
      have e2 : (with_heaps s (s.toks ++ [zeroToken]) s.useds).useds = s.useds := rfl
      have e3 : ∀ x y : Token,
          (with_heaps s (s.toks ++ [zeroToken]) s.useds).toks.set s.toks.length x ++ [y] =
          s.toks ++ [x, y] := by
        intro x y
        simp only [with_heaps]
        rw [app_set0]
        simp
      rw [e1, e2, e3]
      have g3 : ∀ (t : State) (x y : Token), t.toks = s.toks ++ [x, y] →
          t.toks[s.toks.length + 1]? = some y ∧ t.toks[k2]? = some b2 ∧
          t.toks.length = s.toks.length + 2 := by
        intro t x y ht
        rw [ht]
        exact ⟨app_get1 _ _ _ _, app_get_old h2 _, by simp⟩
      obtain ⟨g4, g5, g6⟩ := g3 (with_heaps (with_heaps s (s.toks ++ [zeroToken]) s.useds)
        (s.toks ++ [{ zeroToken with next := s.toks.length + 1 + 1 },
          { b1 with used := s.useds.length + 1 }])
        (s.useds ++ [{ mac := km + 1, next := used }])) _ _ rfl
      rw [expand_def_loop_step f (km + 1) used _ _ _ k2 b2 g4 g5, hn2, g6]
      cases f with
      | zero => left; rfl
      | succ f =>
        right
        rw [expand_def_loop]
        simp only [if_true, pure_apply]
        rw [bind_apply]
        have g7 : ∀ (t : State) (x : Token), t.toks[s.toks.length]? = some x →
            tok (s.toks.length + 1) t = Res.ok x t := by
          intro t x ht
          exact tok_run ht
        simp only [with_heaps]
        rw [app_set1]
        rw [g7 _ _ (by simp only [List.append_assoc, List.cons_append, List.nil_append]
                       exact app_get0 _ _ _)]
        simp [pure_apply]

theorem token_cmp_rec {s : State} {k : Nat} {r : Token} (h : s.toks[k]? = some r)
    (w : List Char) :
    token_cmp s (k + 1) w =
      ((decide (r.id = Kind.TK_IDENT) || decide (r.id = Kind.TK_RESERVED)) &&
        scmp s r.pos r.len w) := by
  simp [token_cmp, h]

theorem slice_mem {s S : State} (hmem : S.mem = s.mem) (p : CPtr) (n : Nat) :
    slice S p n = slice s p n := by
  simp [slice, restAt, hmem]

theorem scmp_mem {s S : State} (hmem : S.mem = s.mem) (p : CPtr) (n : Nat) (w : List Char) :
    scmp S p n w = scmp s p n w := by
  simp [scmp, slice_mem hmem]

theorem tokD_of_get {s : State} {k : Nat} {r : Token} (h : s.toks[k]? = some r) :
    tokD s (k + 1) = r := by
  simp [tokD, List.getD_eq_getElem?_getD, h]

/-- The copy that `expand_def` makes of the first token of the replacement is
looked up as the same macro again. -/
theorem looping_next {s S : State} {m sd : Ptr} (h : Looping s m sd) (h0 : Token)
    (ex : List Token) (hmem : S.mem = s.mem) (hmac : S.macros = s.macros)
    (htab : S.macro_tab = s.macro_tab)
    (htok : S.toks = s.toks ++ (h0 ::
      { tokD s (macD s m).to_ with used := s.useds.length + 1, next := s.toks.length + 3 } ::
      { tokD s (tokD s (macD s m).to_).next with used := s.useds.length + 2 } :: ex))
    (hus : S.useds = s.useds ++ [{ mac := m, next := (tokD s sd).used },
      { mac := m, next := (tokD s sd).used }]) :
    Looping S m (s.toks.length + 2) := by
  obtain ⟨⟨a1, a2⟩, ⟨a3, a4⟩, ⟨a5, a6⟩, ⟨a7, a8⟩, a9, a10, a11, a12, a13, a14, a15, a16,
    a17, a18, a19, a20⟩ := h
  obtain ⟨k1, e1, g1⟩ := tokD_get a5 a6
  obtain ⟨k2, e2, g2⟩ := tokD_get a7 a8
  have hM : macD S m = macD s m := by simp [macD, hmac]
  have G1 : S.toks[k1]? = some (tokD s (macD s m).to_) := by
    rw [htok]
    exact app_get_old g1 _
  have G2 : S.toks[k2]? = some (tokD s (tokD s (macD s m).to_).next) := by
    rw [htok]
    exact app_get_old g2 _
  have G3 : S.toks[s.toks.length + 1]? = some
      { tokD s (macD s m).to_ with used := s.useds.length + 1, next := s.toks.length + 3 } := by
    rw [htok]
    exact app_get1 _ _ _ _
  have G4 : S.toks[s.toks.length + 2]? = some
      { tokD s (tokD s (macD s m).to_).next with used := s.useds.length + 2 } := by
    rw [htok]
    exact app_get2 _ _ _ _ _
  have T1 : tokD S (macD s m).to_ = tokD s (macD s m).to_ := by
    have := tokD_of_get G1
    rw [← e1] at this
    exact this
  have T2 : tokD S (tokD s (macD s m).to_).next = tokD s (tokD s (macD s m).to_).next := by
    have := tokD_of_get G2
    rw [← e2] at this
    exact this
  have T3 : tokD S (s.toks.length + 2) =
      { tokD s (macD s m).to_ with used := s.useds.length + 1, next := s.toks.length + 3 } :=
    tokD_of_get G3
  have hlen : S.toks.length = s.toks.length + (3 + ex.length) := by
    rw [htok]
    simp
    omega
  have hle : s.toks.length ≤ S.toks.length := by
    rw [hlen]
    exact Nat.le_add_right _ _
  have hle2 : s.toks.length + 2 ≤ S.toks.length := by
    rw [hlen]
    omega
  have C1 : token_cmp S (s.toks.length + 3) ['('] = false := by
    rw [token_cmp_rec G4, scmp_mem hmem]
    have := a20
    rw [e2, token_cmp_rec g2] at this
    exact this
  have C2 : token_cmp S (tokD s (macD s m).to_).next ['('] = false := by
    rw [e2, token_cmp_rec G2, scmp_mem hmem]
    have := a20
    rw [e2, token_cmp_rec g2] at this
    exact this
  unfold Looping
  rw [hM, T1, T2, T3, hmac, htab]
  refine ⟨⟨Nat.succ_pos _, hle2⟩, ⟨a3, a4⟩, ⟨a5, Nat.le_trans a6 hle⟩,
    ⟨a7, Nat.le_trans a8 hle⟩, a9,
    Or.inl a17, ?_, ?_, C1, a14, ?_, a16, a17, rfl, ?_, C2⟩
  · rw [hus]
    simp
  · intro u hu
    rw [hus] at hu ⊢
    rw [hmac]
    simp only [List.length_append, List.length_cons, List.length_nil]
    rcases List.mem_append.mp hu with hu | hu
    · obtain ⟨b1, b2⟩ := a12 u hu
      exact ⟨b1, Nat.le_trans b2 (Nat.le_add_right _ _)⟩
    · have hu2 : u = { mac := m, next := (tokD s sd).used } := by
        simpa using hu
      subst hu2
      exact ⟨⟨a3, a4⟩, Nat.le_trans a11 (Nat.le_add_right _ _)⟩
  · refine Eq.trans ?_ a15
    apply macro_get_loop_congr hmac
    · exact a18
    · show slice S (tokD s (macD s m).to_).pos (tokD s (macD s m).to_).len = _
      rw [slice_mem hmem]
      exact a19
    · rw [C1, a13]
  · rfl

theorem macro_get_run {s : State} {k : Nat} {r : Token} (h : s.toks[k]? = some r)
    (htab : s.macro_tab ≠ []) (t1 : Ptr) :
    macro_get (k + 1) t1 s = Res.ok (macro_get_loop s r t1 s.macro_tab) s := by
  unfold macro_get
  rw [bind_apply]
  simp only [getState]
  cases hm : s.macro_tab with
  | nil => exact absurd hm htab
  | cons a l =>
    simp only
    rw [bind_of_ok (tok_run h)]
    rfl

/-- The expansion of a token in a looping state does not return, whatever the
budget: the copy of the first token of the replacement is in a looping state
again. -/
theorem looping_never_returns : ∀ (f : Nat) (s : State) (m sd : Ptr), Looping s m sd →
    expand_recursive f sd s = Res.err Err.fuel := by
  intro f
  induction f with
  | zero => intro s m sd _; rfl
  | succ f ih =>
    intro s m sd h
    have h' := h
    obtain ⟨⟨a1, a2⟩, ⟨a3, a4⟩, ⟨a5, a6⟩, ⟨a7, a8⟩, a9, a10, a11, a12, a13, a14, a15, a16,
      a17, a18, a19, a20⟩ := h'
    obtain ⟨ksd, esd, gsd⟩ := tokD_get a1 a2
    obtain ⟨km, em, gm⟩ := macD_get a3 a4
    obtain ⟨k1, e1, g1⟩ := tokD_get a5 a6
    obtain ⟨k2, e2, g2⟩ := tokD_get a7 a8
    have hL : token_cmp s sd "__LINE__".toList = false := by
      rcases a10 with hn | hn
      · rw [esd]
        exact token_cmp_no_name gsd hn _
      · exact hn.2.1
    have hF : token_cmp s sd "__FILE__".toList = false := by
      rcases a10 with hn | hn
      · rw [esd]
        exact token_cmp_no_name gsd hn _
      · exact hn.2.2
    have hw : (tokD s sd).used = 0 ∨ ∀ w, token_cmp s sd w = false := by
      rcases a10 with hn | hn
      · right
        intro w
        rw [esd]
        exact token_cmp_no_name gsd hn w
      · exact Or.inl hn.1
    have q1 : tok sd s = Res.ok (tokD s sd) s := by
      rw [esd]
      exact tok_run (by rw [← esd]; exact gsd)
    have q2 : macro_get sd (tokD s sd).next s = Res.ok m s := by
      have := macro_get_run gsd a14 (tokD s sd).next
      rw [a15, ← esd] at this
      exact this
    have q3 : macroAt m s = Res.ok (macD s m) s := by
      rw [em]
      exact macroAt_run (by rw [← em]; exact gm)
    have q4 : expand_obj (expand_recursive f) f sd m s = Res.err Err.fuel := by
      unfold expand_obj
      rw [bind_of_ok q1]
      have hd := expand_def_two f (tokD s sd).used s (macD s m) (tokD s (macD s m).to_)
        (tokD s (tokD s (macD s m).to_).next) km k1 k2 gm e1 g1 e2 g2 a9
      rw [← em] at hd
      rcases hd with hd | hd
      · rw [bind_apply, hd]
      · rw [bind_of_ok hd]
        unfold expand_recursive_list
        rw [bind_apply, bind_apply]
        simp only [allocTok]
        cases f with
        | zero => rfl
        | succ f =>
          rw [bind_apply, expand_recursive_list_loop, if_neg (Nat.succ_ne_zero _), bind_apply]
          rw [ih _ m]
          exact looping_next h { zeroToken with next := s.toks.length + 2 } [zeroToken]
            rfl rfl rfl (by simp [with_heaps]) rfl
    rw [expand_recursive, bind_apply]
    simp only [getState, hL, hF, Bool.false_eq_true, or_self, if_false]
    rw [bind_of_ok q1, bind_of_ok q2, if_neg (Nat.pos_iff_ne_zero.mp a3)]
    rcases used_has_key_plain f sd (tokD s sd).used s a12 a11 hw with hu | hu
    · rw [bind_of_ok hu]
      simp only [Bool.false_eq_true, if_false]
      rw [bind_of_ok q3]
      simp only [a16, ne_eq, not_true_eq_false, false_and, if_false]
      exact q4
    · rw [bind_apply, hu]

theorem literal_call_looping :
    (call_state 1000 "#define M \"M\" M\n" [(Kind.TK_IDENT, "M".toList)]).any
      (fun p => decide (Looping p.2 (p.2.macro_tab.headD 0) p.1)) = true := by
  decide!

/-- C3: a macro whose replacement mentions its own name next to a string
literal with the same text is not expanded once.  In the state in which the
program has read `#define M "M" M`, with the identifier `M` of a call on the
heap, `expand_recursive` does not return whatever the step budget: the rescan
looks the literal of the copy up with `macro_get`, which compares texts only,
the used-macro test, which goes through `token_cmp`, never matches a literal,
and the literal is replaced by a copy that starts with the same literal again.
The whole program on `M` after that definition runs out of a budget within
which it prints the line when the literal is `"N"`. -/
theorem C3_self_named_literal_never_returns :
    (∀ fuel : Nat,
      (call_state 1000 "#define M \"M\" M\n" [(Kind.TK_IDENT, "M".toList)]).map
        (fun p => expand_recursive fuel p.1 p.2) = some (Res.err Err.fuel)) ∧
    preprocess 60 "#define M \"M\" M\nM\n" = Outcome.timeout ∧
    preprocess 60 "#define M \"N\" M\nM\n" = Outcome.out "\"N\" M\n" := by
  refine ⟨?_, literal_budget, plain_budget⟩
  intro fuel
  have h := literal_call_looping
  cases hc : call_state 1000 "#define M \"M\" M\n" [(Kind.TK_IDENT, "M".toList)] with
  | none =>
    rw [hc] at h
    cases h
  | some p =>
    rw [hc] at h
    have hl : Looping p.2 (p.2.macro_tab.headD 0) p.1 := of_decide_eq_true h
    show some (expand_recursive fuel p.1 p.2) = some (Res.err Err.fuel)
    rw [looping_never_returns fuel p.2 _ p.1 hl]

/-! ## Used-macro sets under substitution -/

theorem usedNode_run {s : State} {k : Nat} {n : UsedMacro} (h : s.useds[k]? = some n) :
    usedNode (k + 1) s = Res.ok n s := by
  simp [usedNode, h]

theorem usedNode_inv {s s' : State} {p : Ptr} {n : UsedMacro}
    (h : usedNode p s = Res.ok n s') : s' = s ∧ ∃ k, p = k + 1 ∧ s.useds[k]? = some n := by
  unfold usedNode at h
  cases p with
  | zero => cases h
  | succ k =>
    simp only at h
    cases hk : s.useds[k]? with
    | none => rw [hk] at h; cases h
    | some r =>
      rw [hk] at h
      cases h
      exact ⟨rfl, k, rfl, hk⟩

theorem used_chain_nil {s : State} {u : Ptr} : used_chain s u [] = true ↔ u = 0 := by
  simp [used_chain]

theorem used_chain_cons {s : State} {u p : Ptr} {ps : List Ptr} :
    used_chain s u (p :: ps) = true ↔
      u = p ∧ ∃ (k : Nat) (n : UsedMacro), p = k + 1 ∧ s.useds[k]? = some n ∧
        used_chain s n.next ps = true := by
  rw [used_chain]
  constructor
  · intro h
    rw [Bool.and_eq_true] at h
    obtain ⟨h1, h2⟩ := h
    refine ⟨of_decide_eq_true h1, ?_⟩
    cases hn : usedNode p s with
    | err e => rw [hn] at h2; cases h2
    | ok n s1 =>
      rw [hn] at h2
      obtain ⟨_, k, hk, hg⟩ := usedNode_inv hn
      exact ⟨k, n, hk, hg, h2⟩
  · rintro ⟨h1, k, n, hk, hg, hc⟩
    rw [Bool.and_eq_true]
    refine ⟨decide_eq_true h1, ?_⟩
    rw [hk, usedNode_run hg]
    exact hc

theorem used_chain_congr {s s' : State} : ∀ (l : List Ptr) (u : Ptr),
    (∀ k : Nat, k + 1 ∈ l → s'.useds[k]? = s.useds[k]?) →
    used_chain s u l = true → used_chain s' u l = true := by
  intro l
  induction l with
  | nil => intro u _ h; exact h
  | cons p ps ih =>
    intro u hs h
    obtain ⟨h1, k, n, hk, hg, hc⟩ := used_chain_cons.mp h
    refine used_chain_cons.mpr ⟨h1, k, n, hk, ?_, ?_⟩
    · rw [hs k (by rw [← hk]; exact List.mem_cons_self _ _)]
      exact hg
    · exact ih _ (fun j hj => hs j (List.mem_cons_of_mem _ hj)) hc

theorem used_chain_unique {s : State} : ∀ (l1 l2 : List Ptr) (u : Ptr),
    used_chain s u l1 = true → used_chain s u l2 = true → l1 = l2 := by
  intro l1
  induction l1 with
  | nil =>
    intro l2 u h1 h2
    have hu := used_chain_nil.mp h1
    cases l2 with
    | nil => rfl
    | cons p ps =>
      obtain ⟨e, k, _, hk, _, _⟩ := used_chain_cons.mp h2
      rw [hu, hk] at e
      cases e
  | cons p ps ih =>
    intro l2 u h1 h2
    obtain ⟨e1, k, n, hk, hg, hc⟩ := used_chain_cons.mp h1
    cases l2 with
    | nil =>
      have hu := used_chain_nil.mp h2
      rw [hu, hk] at e1
      cases e1
    | cons q qs =>
      obtain ⟨e2, k2, n2, hk2, hg2, hc2⟩ := used_chain_cons.mp h2
      have hpq : p = q := e1.symm.trans e2
      subst hpq
      have hkk : k = k2 := Nat.succ.inj (hk.symm.trans hk2)
      subst hkk
      rw [hg] at hg2
      cases hg2
      rw [ih qs _ hc hc2]

theorem used_chain_valid {s : State} : ∀ (l : List Ptr) (u : Ptr),
    used_chain s u l = true → ∀ p ∈ l, ∃ j : Nat, p = j + 1 ∧ j < s.useds.length := by
  intro l
  induction l with
  | nil => intro u _ p hp; cases hp
  | cons q qs ih =>
    intro u h p hp
    obtain ⟨_, k, n, hk, hg, hc⟩ := used_chain_cons.mp h
    rcases List.mem_cons.mp hp with e | e
    · exact ⟨k, e.trans hk, get_lt hg⟩
    · exact ih _ hc p e

theorem used_chain_suffix {s : State} : ∀ (l : List Ptr) (u q : Ptr),
    used_chain s u l = true → q ∈ l → ∃ l2, used_chain s q l2 = true ∧ l2.length ≤ l.length ∧
      (q = u → l2 = l) ∧ (q ≠ u → l2.length < l.length) := by
  intro l
  induction l with
  | nil => intro u q _ hq; cases hq
  | cons p ps ih =>
    intro u q h hq
    obtain ⟨e1, k, n, hk, hg, hc⟩ := used_chain_cons.mp h
    by_cases hqu : q = u
    · subst hqu
      exact ⟨p :: ps, h, Nat.le_refl _, fun _ => rfl, fun hne => absurd rfl hne⟩
    · have hq2 : q ∈ ps := by
        rcases List.mem_cons.mp hq with e | e
        · exact absurd (e.trans e1.symm) hqu
        · exact e
      obtain ⟨l2, h2, hl, _, _⟩ := ih _ q hc hq2
      refine ⟨l2, h2, Nat.le_succ_of_le hl, fun e => absurd e hqu, fun _ => ?_⟩
      exact Nat.lt_succ_of_le hl

theorem used_chain_not_mem {s : State} {u p : Ptr} {ps : List Ptr}
    (h : used_chain s u (p :: ps) = true) : p ∉ ps := by
  intro hp
  obtain ⟨e1, k, n, hk, hg, hc⟩ := used_chain_cons.mp h
  obtain ⟨l2, h2, hl, _, _⟩ := used_chain_suffix ps _ p hc hp
  have h3 : used_chain s p (p :: ps) = true := by
    have h4 := h
    rw [e1] at h4
    exact h4
  have := used_chain_unique _ _ _ h2 h3
  rw [this] at hl
  simp at hl

theorem used_chain_nodup {s : State} : ∀ (l : List Ptr) (u : Ptr),
    used_chain s u l = true → l.Nodup := by
  intro l
  induction l with
  | nil => intro _ _; exact List.nodup_nil
  | cons p ps ih =>
    intro u h
    obtain ⟨_, k, n, hk, hg, hc⟩ := used_chain_cons.mp h
    exact List.nodup_cons.mpr ⟨used_chain_not_mem h, ih _ hc⟩

theorem used_chain_length {s : State} {l : List Ptr} {u : Ptr}
    (h : used_chain s u l = true) : l.length ≤ s.useds.length := by
  have hn := used_chain_nodup l u h
  have hs : l ⊆ (List.range s.useds.length).map (fun j => j + 1) := by
    intro p hp
    obtain ⟨j, hj, hlt⟩ := used_chain_valid l u h p hp
    exact List.mem_map.mpr ⟨j, List.mem_range.mpr hlt, hj.symm⟩
  have := (List.Nodup.subperm hn hs).length_le
  simpa using this

theorem used_chain_zero {s : State} {l : List Ptr} (h : used_chain s 0 l = true) : l = [] := by
  cases l with
  | nil => rfl
  | cons p ps =>
    obtain ⟨e, k, _, hk, _, _⟩ := used_chain_cons.mp h
    rw [hk] at e
    cases e

theorem set_get_same {α : Type} {l : List α} {k : Nat} (h : k < l.length) (a : α) :
    (l.set k a)[k]? = some a := by
  simp [List.getElem?_set, h]

theorem set_get_other {α : Type} (l : List α) {k j : Nat} (h : k ≠ j) (a : α) :
    (l.set k a)[j]? = l[j]? := by
  simp [List.getElem?_set, h]

/-- Linking the node `ua` behind the last node `l` of a chain, and ending the
chain at `ua`, makes the chain one node longer. -/
theorem used_chain_append {s s' : State} {l ua : Ptr} {kl ka : Nat} {nl a : UsedMacro}
    (hl : l = kl + 1) (hnl : s.useds[kl]? = some nl) (hl0 : nl.next = 0)
    (hua : ua = ka + 1) (ha : s.useds[ka]? = some a)
    (hs : s'.useds = (s.useds.set kl { nl with next := ua }).set ka { a with next := 0 }) :
    ∀ (L : List Ptr) (u : Ptr), used_chain s u L = true → l ∈ L → ua ∉ L →
      used_chain s' u (L ++ [ua]) = true := by
  have hkl := get_lt hnl
  have hka := get_lt ha
  intro L
  induction L with
  | nil => intro u _ hm _; cases hm
  | cons p ps ih =>
    intro u h hm hn
    obtain ⟨e1, k, n, hk, hg, hc⟩ := used_chain_cons.mp h
    have hpua : p ≠ ua := fun e => hn (by rw [← e]; exact List.mem_cons_self _ _)
    have hkka : ka ≠ k := by
      intro e
      apply hpua
      rw [hk, hua, e]
    by_cases hpl : p = l
    · have hkk : k = kl := Nat.succ.inj (hk.symm.trans (hpl.trans hl))
      subst hkk
      rw [hnl] at hg
      cases hg
      rw [hl0] at hc
      have hps := used_chain_zero hc
      subst hps
      refine used_chain_cons.mpr ⟨e1, k, { nl with next := ua }, hk, ?_, ?_⟩
      · rw [hs, set_get_other _ hkka, set_get_same hkl]
      · refine used_chain_cons.mpr ⟨rfl, ka, { a with next := 0 }, hua, ?_, rfl⟩
        rw [hs, set_get_same (by rw [List.length_set]; exact hka)]
    · have hkkl : kl ≠ k := by
        intro e
        apply hpl
        rw [hk, hl, e]
      have hm2 : l ∈ ps := by
        rcases List.mem_cons.mp hm with e | e
        · exact absurd e.symm hpl
        · exact e
      refine used_chain_cons.mpr ⟨e1, k, n, hk, ?_, ?_⟩
      · rw [hs, set_get_other _ hkka, set_get_other _ hkkl]
        exact hg
      · exact ih _ hc hm2 (fun e => hn (List.mem_cons_of_mem _ e))

theorem usedNode_mac {s s' : State} (hm : s'.useds.map (fun n => n.mac) = s.useds.map (fun n => n.mac))
    (u : Ptr) :
    (match usedNode u s' with
      | Res.ok n _ => n.mac
      | Res.err _ => 0) =
    (match usedNode u s with
      | Res.ok n _ => n.mac
      | Res.err _ => 0) := by
  cases u with
  | zero => rfl
  | succ k =>
    have h := congrArg (fun l => l[k]?) hm
    simp only [List.getElem?_map] at h
    unfold usedNode
    simp only
    cases h1 : s.useds[k]? with
    | none =>
      rw [h1] at h
      cases h2 : s'.useds[k]? with
      | none => rfl
      | some n => rw [h2] at h; cases h
    | some n =>
      rw [h1] at h
      cases h2 : s'.useds[k]? with
      | none => rw [h2] at h; cases h
      | some n2 =>
        rw [h2] at h
        simp only [Option.map_some', Option.some.injEq] at h
        exact h

theorem used_macs_congr {s s' : State}
    (hm : s'.useds.map (fun n => n.mac) = s.useds.map (fun n => n.mac)) (l : List Ptr) :
    used_macs s' l = used_macs s l := by
  unfold used_macs
  apply List.map_congr_left
  intro u _
  exact usedNode_mac hm u

theorem map_mac_set (H : List UsedMacro) {k : Nat} {n : UsedMacro} (h : H[k]? = some n)
    (v : Ptr) : (H.set k { n with next := v }).map (fun n => n.mac) = H.map (fun n => n.mac) := by
  apply List.ext_getElem?
  intro j
  simp only [List.getElem?_map]
  by_cases e : k = j
  · subst e
    rw [set_get_same (get_lt h), h]
    rfl
  · rw [set_get_other _ e]

theorem used_macs_mem {s : State} {u : Ptr} {k : Nat} {n : UsedMacro} {l : List Ptr}
    (hu : u = k + 1) (hn : s.useds[k]? = some n) (h : u ∈ l) : n.mac ∈ used_macs s l := by
  unfold used_macs
  refine List.mem_map.mpr ⟨u, h, ?_⟩
  rw [hu, usedNode_run hn]

theorem used_macs_cons {s : State} {k : Nat} {n : UsedMacro} (hn : s.useds[k]? = some n)
    (l : List Ptr) : used_macs s ((k + 1) :: l) = n.mac :: used_macs s l := by
  unfold used_macs
  rw [List.map_cons, usedNode_run hn]

theorem readULoc_tok {s : State} {k : Nat} {t : Token} (h : s.toks[k]? = some t) :
    readULoc (ULoc.ofTok (k + 1)) s = Res.ok t.used s := by
  simp [readULoc, bind_apply, tok_run h, pure_apply]

theorem readULoc_node {s : State} {k : Nat} {n : UsedMacro} (h : s.useds[k]? = some n) :
    readULoc (ULoc.ofNode (k + 1)) s = Res.ok n.next s := by
  simp [readULoc, bind_apply, usedNode_run h, pure_apply]

/-- The place that the inner loop of `usedmacro_merge` stops at: the link of
the last node of the chain, or the place it started from when the chain is
empty. -/
theorem usedmacro_find_spec (s : State) (m : Ptr) : ∀ (D : List Ptr) (fuel : Nat) (ud : ULoc)
    (u : Ptr), readULoc ud s = Res.ok u s → used_chain s u D = true → D.length + 1 ≤ fuel →
    ∃ (ud' : ULoc) (v : Ptr), usedmacro_find fuel ud m s = Res.ok ud' s ∧
      readULoc ud' s = Res.ok v s ∧
      ((v ≠ 0 ∧ m ∈ used_macs s D) ∨
       (v = 0 ∧ m ∉ used_macs s D ∧
        ud' = (match D.getLast? with
          | none => ud
          | some l => ULoc.ofNode l))) := by
  intro D
  induction D with
  | nil =>
    intro fuel ud u hr hc hf
    have hu := used_chain_nil.mp hc
    subst hu
    obtain ⟨f, rfl⟩ : ∃ f, fuel = f + 1 := ⟨fuel - 1, by omega⟩
    refine ⟨ud, 0, ?_, hr, Or.inr ⟨rfl, by simp [used_macs], rfl⟩⟩
    rw [usedmacro_find, bind_of_ok hr]
    rfl
  | cons p ps ih =>
    intro fuel ud u hr hc hf
    obtain ⟨e1, k, n, hk, hg, hc2⟩ := used_chain_cons.mp hc
    obtain ⟨f, rfl⟩ : ∃ f, fuel = f + 1 := ⟨fuel - 1, by omega⟩
    have hu : u = k + 1 := e1.trans hk
    have hne : u ≠ 0 := by rw [hu]; exact Nat.succ_ne_zero _
    have hmacs : used_macs s (p :: ps) = n.mac :: used_macs s ps := by
      rw [hk]
      exact used_macs_cons hg ps
    have e0 : usedmacro_find (f + 1) ud m s =
        (if n.mac ≠ m then usedmacro_find f (ULoc.ofNode u) m s else Res.ok ud s) := by
      rw [usedmacro_find, bind_of_ok hr, if_neg hne]
      have e2 : usedNode u s = Res.ok n s := by
        rw [hu]
        exact usedNode_run hg
      rw [bind_of_ok e2]
      by_cases hmm : n.mac ≠ m
      · rw [if_pos hmm, if_pos hmm]
      · rw [if_neg hmm, if_neg hmm]
        rfl
    by_cases hmm : n.mac ≠ m
    · rw [e0, if_pos hmm]
      have hr2 : readULoc (ULoc.ofNode u) s = Res.ok n.next s := by
        rw [hu]
        exact readULoc_node hg
      have hf2 : ps.length + 1 ≤ f := by
        simp only [List.length_cons] at hf
        omega
      obtain ⟨ud', v, h1, h2, h3⟩ := ih f (ULoc.ofNode u) n.next hr2 hc2 hf2
      refine ⟨ud', v, h1, h2, ?_⟩
      rcases h3 with ⟨h4, h5⟩ | ⟨h4, h5, h6⟩
      · left
        refine ⟨h4, ?_⟩
        rw [hmacs]
        exact List.mem_cons_of_mem _ h5
      · right
        refine ⟨h4, ?_, ?_⟩
        · rw [hmacs]
          intro hx
          rcases List.mem_cons.mp hx with e | e
          · exact hmm e.symm
          · exact h5 e
        · rw [h6]
          cases ps with
          | nil =>
            show ULoc.ofNode u = ULoc.ofNode p
            rw [e1]
          | cons q qs => rfl
    · rw [e0, if_neg hmm]
      refine ⟨ud, u, rfl, hr, Or.inl ⟨hne, ?_⟩⟩
      rw [hmacs]
      have : n.mac = m := by
        by_contra hx
        exact hmm hx
      rw [this]
      exact List.mem_cons_self _ _

theorem set_self {α : Type} {l : List α} {k : Nat} {a : α} (h : l[k]? = some a) :
    l.set k a = l := by
  apply List.ext_getElem?
  intro j
  by_cases e : k = j
  · subst e
    rw [set_get_same (get_lt h), h]
  · rw [set_get_other _ e]

theorem setUsedNode_run {s : State} {k : Nat} (h : k < s.useds.length) (n : UsedMacro) :
    setUsedNode (k + 1) n s = Res.ok () (with_heaps s s.toks (s.useds.set k n)) := by
  simp [setUsedNode, h, with_heaps]

theorem merge_unfold {s : State} {f : Nat} {dest ud : ULoc} {ua v : Ptr} {ka : Nat}
    {a : UsedMacro} (hua : ua = ka + 1) (ha : s.useds[ka]? = some a)
    (hfind : usedmacro_find f dest a.mac s = Res.ok ud s) (hv : readULoc ud s = Res.ok v s) :
    usedmacro_merge_loop (f + 1) dest ua s =
      if v ≠ 0 then usedmacro_merge_loop f dest a.next s
      else (writeULoc ud ua >>= fun _ => usedNode ua >>= fun a1 => readULoc ud >>= fun w =>
        usedNode w >>= fun n => setUsedNode w { n with next := 0 } >>= fun _ =>
        usedmacro_merge_loop f dest a1.next) s := by
  have hne : ua ≠ 0 := by rw [hua]; exact Nat.succ_ne_zero _
  have e1 : usedNode ua s = Res.ok a s := by
    rw [hua]
    exact usedNode_run ha
  rw [usedmacro_merge_loop, if_neg hne, bind_of_ok e1, bind_of_ok hfind, bind_of_ok hv]
  by_cases h0 : v ≠ 0
  · rw [if_pos h0, if_pos h0]
  · rw [if_neg h0, if_neg h0]

/-- The round of `usedmacro_merge` that links the node `ua` into an empty
set. -/
theorem merge_link_first {s : State} {kc ka : Nat} {tc : Token} {ua : Ptr}
    {a : UsedMacro} (hc : s.toks[kc]? = some tc) (hua : ua = ka + 1)
    (ha : s.useds[ka]? = some a) (g : Ptr → M Unit) :
    (writeULoc (ULoc.ofTok (kc + 1)) ua >>= fun _ => usedNode ua >>= fun a1 =>
        readULoc (ULoc.ofTok (kc + 1)) >>= fun w =>
        usedNode w >>= fun n => setUsedNode w { n with next := 0 } >>= fun _ => g a1.next) s =
      g a.next (with_heaps s (s.toks.set kc { tc with used := ua })
        (s.useds.set ka { a with next := 0 })) := by
  have hka := get_lt ha
  have hkc := get_lt hc
  subst hua
  have e1 : writeULoc (ULoc.ofTok (kc + 1)) (ka + 1) s =
      Res.ok () (with_heaps s (s.toks.set kc { tc with used := ka + 1 }) s.useds) :=
    setUsed_run hc (ka + 1)
  have e2 : usedNode (ka + 1) (with_heaps s (s.toks.set kc { tc with used := ka + 1 }) s.useds) =
      Res.ok a (with_heaps s (s.toks.set kc { tc with used := ka + 1 }) s.useds) := by
    exact usedNode_run ha
  have e3 : readULoc (ULoc.ofTok (kc + 1))
      (with_heaps s (s.toks.set kc { tc with used := ka + 1 }) s.useds) =
      Res.ok (ka + 1) (with_heaps s (s.toks.set kc { tc with used := ka + 1 }) s.useds) := by
    have := readULoc_tok (s := with_heaps s (s.toks.set kc { tc with used := ka + 1 }) s.useds)
      (k := kc) (t := { tc with used := ka + 1 }) (set_get_same hkc _)
    exact this
  have e5 : setUsedNode (ka + 1) { a with next := 0 }
      (with_heaps s (s.toks.set kc { tc with used := ka + 1 }) s.useds) =
      Res.ok () (with_heaps s (s.toks.set kc { tc with used := ka + 1 })
        (s.useds.set ka { a with next := 0 })) := by
    exact setUsedNode_run (s := with_heaps s (s.toks.set kc { tc with used := ka + 1 }) s.useds)
      hka _
  rw [bind_of_ok e1, bind_of_ok e2, bind_of_ok e3, bind_of_ok e2, bind_of_ok e5]

/-- The round of `usedmacro_merge` that links the node `ua` behind the last
node `l` of the set. -/
theorem merge_link_last {s : State} {kl ka : Nat} {l ua : Ptr} {nl a : UsedMacro}
    (hl : l = kl + 1) (hnl : s.useds[kl]? = some nl) (hua : ua = ka + 1)
    (ha : s.useds[ka]? = some a) (hne : kl ≠ ka) (g : Ptr → M Unit) :
    (writeULoc (ULoc.ofNode l) ua >>= fun _ => usedNode ua >>= fun a1 =>
        readULoc (ULoc.ofNode l) >>= fun w =>
        usedNode w >>= fun n => setUsedNode w { n with next := 0 } >>= fun _ => g a1.next) s =
      g a.next (with_heaps s s.toks
        ((s.useds.set kl { nl with next := ua }).set ka { a with next := 0 })) := by
  have hka := get_lt ha
  have hkl := get_lt hnl
  subst hua
  subst hl
  have e1 : writeULoc (ULoc.ofNode (kl + 1)) (ka + 1) s =
      Res.ok () (with_heaps s s.toks (s.useds.set kl { nl with next := ka + 1 })) := by
    show (usedNode (kl + 1) >>= fun n => setUsedNode (kl + 1) { n with next := ka + 1 }) s = _
    rw [bind_of_ok (usedNode_run hnl)]
    exact setUsedNode_run hkl _
  have g2 : (with_heaps s s.toks (s.useds.set kl { nl with next := ka + 1 })).useds[ka]? =
      some a := by
    show (s.useds.set kl { nl with next := ka + 1 })[ka]? = some a
    rw [set_get_other _ hne]
    exact ha
  have g3 : (with_heaps s s.toks (s.useds.set kl { nl with next := ka + 1 })).useds[kl]? =
      some { nl with next := ka + 1 } := set_get_same hkl _
  have e2 : usedNode (ka + 1) (with_heaps s s.toks (s.useds.set kl { nl with next := ka + 1 })) =
      Res.ok a (with_heaps s s.toks (s.useds.set kl { nl with next := ka + 1 })) := by
    exact usedNode_run g2
  have e3 : readULoc (ULoc.ofNode (kl + 1))
      (with_heaps s s.toks (s.useds.set kl { nl with next := ka + 1 })) =
      Res.ok (ka + 1) (with_heaps s s.toks (s.useds.set kl { nl with next := ka + 1 })) := by
    exact readULoc_node g3
  have e5 : setUsedNode (ka + 1) { a with next := 0 }
      (with_heaps s s.toks (s.useds.set kl { nl with next := ka + 1 })) =
      Res.ok () (with_heaps s s.toks
        ((s.useds.set kl { nl with next := ka + 1 }).set ka { a with next := 0 })) := by
    exact setUsedNode_run (s := with_heaps s s.toks (s.useds.set kl { nl with next := ka + 1 }))
      (by show ka < (s.useds.set kl _).length; rw [List.length_set]; exact hka) _
  rw [bind_of_ok e1, bind_of_ok e2, bind_of_ok e3, bind_of_ok e2, bind_of_ok e5]

theorem used_macs_subset {s : State} {l1 l2 : List Ptr} (h : ∀ x ∈ l1, x ∈ l2) :
    ∀ m ∈ used_macs s l1, m ∈ used_macs s l2 := by
  intro m hm
  unfold used_macs at hm ⊢
  obtain ⟨u, hu, e⟩ := List.mem_map.mp hm
  exact List.mem_map.mpr ⟨u, h u hu, e⟩

theorem used_macs_append (s : State) (l1 l2 : List Ptr) :
    used_macs s (l1 ++ l2) = used_macs s l1 ++ used_macs s l2 := by
  simp [used_macs]

/-- A run of `usedmacro_merge` on the set of the token `kc + 1`: within the
budget it returns, the nodes of the set are the nodes it had, in their order,
followed by the nodes it linked in, no node has changed its macro, and every
macro of the added list is in the set. -/
theorem usedmacro_merge_spec (kc : Nat) : ∀ (fuel : Nat) (s : State) (tc : Token) (ua : Ptr)
    (D A : List Ptr), s.toks[kc]? = some tc → used_chain s tc.used D = true →
    used_chain s ua A = true →
    (s.useds.length - D.length) * (s.useds.length + 1) + A.length + s.useds.length + 2 ≤ fuel →
    ∃ (s' : State) (h' : Ptr) (X : List Ptr),
      usedmacro_merge_loop fuel (ULoc.ofTok (kc + 1)) ua s = Res.ok () s' ∧
      s'.toks = s.toks.set kc { tc with used := h' } ∧
      s' = with_heaps s s'.toks s'.useds ∧
      s'.useds.map (fun n => n.mac) = s.useds.map (fun n => n.mac) ∧
      used_chain s' h' (D ++ X) = true ∧
      ∀ x ∈ used_macs s A, x ∈ used_macs s (D ++ X) := by
  intro fuel
  induction fuel with
  | zero =>
    intro s tc ua D A _ _ _ hf
    omega
  | succ f ih =>
    intro s tc ua D A hc hD hA hf
    cases A with
    | nil =>
      have hu := used_chain_nil.mp hA
      subst hu
      refine ⟨s, tc.used, [], rfl, ?_, rfl, rfl, ?_, ?_⟩
      · exact (set_self hc).symm
      · rw [List.append_nil]
        exact hD
      · intro x hx
        cases hx
    | cons p A' =>
      obtain ⟨e1, ka, a, hk, ha, hA'⟩ := used_chain_cons.mp hA
      subst e1
      subst hk
      have hlenD := used_chain_length hD
      have hnot := used_chain_not_mem hA
      have hmacsA : used_macs s ((ka + 1) :: A') = a.mac :: used_macs s A' :=
        used_macs_cons ha A'
      have hf1 : D.length + 1 ≤ f := by
        simp only [List.length_cons] at hf
        omega
      obtain ⟨ud', v, hfind, hv, hcase⟩ := usedmacro_find_spec s a.mac D f
        (ULoc.ofTok (kc + 1)) tc.used (readULoc_tok hc) hD hf1
      rcases hcase with ⟨hv0, hmem⟩ | ⟨hv0, hnmem, hud⟩
      · have E : usedmacro_merge_loop (f + 1) (ULoc.ofTok (kc + 1)) (ka + 1) s =
            usedmacro_merge_loop f (ULoc.ofTok (kc + 1)) a.next s := by
          rw [merge_unfold rfl ha hfind hv, if_pos hv0]
        have hf2 : (s.useds.length - D.length) * (s.useds.length + 1) + A'.length +
            s.useds.length + 2 ≤ f := by
          simp only [List.length_cons] at hf
          omega
        obtain ⟨s', h', X, h1, h2, h3, h4, h5, h6⟩ := ih s tc a.next D A' hc hD hA' hf2
        refine ⟨s', h', X, E.trans h1, h2, h3, h4, h5, ?_⟩
        intro x hx
        rw [hmacsA] at hx
        rcases List.mem_cons.mp hx with e | e
        · rw [e, used_macs_append]
          exact List.mem_append_left _ hmem
        · exact h6 x e
      · have huaD : ka + 1 ∉ D := fun h => hnmem (used_macs_mem rfl ha h)
        have hv1 : ¬ v ≠ 0 := fun h => h hv0
        cases hlast : D.getLast? with
        | none =>
          have hD0 : D = [] := List.getLast?_eq_none_iff.mp hlast
          subst hD0
          rw [hlast] at hud
          subst hud
          obtain ⟨S2, hS2⟩ : ∃ S2 : State, S2 = with_heaps s
              (s.toks.set kc { tc with used := ka + 1 })
              (s.useds.set ka { a with next := 0 }) := ⟨_, rfl⟩
          have E : usedmacro_merge_loop (f + 1) (ULoc.ofTok (kc + 1)) (ka + 1) s =
              usedmacro_merge_loop f (ULoc.ofTok (kc + 1)) a.next S2 := by
            rw [hS2, merge_unfold rfl ha hfind hv, if_neg hv1]
            exact merge_link_first hc rfl ha
              (fun x => usedmacro_merge_loop f (ULoc.ofTok (kc + 1)) x)
          have hka := get_lt ha
          have hkc := get_lt hc
          have ht2 : S2.toks = s.toks.set kc { tc with used := ka + 1 } := by rw [hS2]; rfl
          have hu2 : S2.useds = s.useds.set ka { a with next := 0 } := by rw [hS2]; rfl
          have hc2 : S2.toks[kc]? = some { tc with used := ka + 1 } := by
            rw [ht2]
            exact set_get_same hkc _
          have hD2 : used_chain S2 (ka + 1) [ka + 1] = true := by
            refine used_chain_cons.mpr ⟨rfl, ka, { a with next := 0 }, rfl, ?_, rfl⟩
            rw [hu2]
            exact set_get_same hka _
          have hA2 : used_chain S2 a.next A' = true := by
            refine used_chain_congr A' a.next ?_ hA'
            intro k hkA
            have hne : ka ≠ k := by
              intro e
              apply hnot
              rw [e]
              exact hkA
            rw [hu2]
            exact set_get_other _ hne _
          have hlen2 : S2.useds.length = s.useds.length := by
            rw [hu2, List.length_set]
          have hf2 : (S2.useds.length - [ka + 1].length) * (S2.useds.length + 1) + A'.length +
              S2.useds.length + 2 ≤ f := by
            rw [hlen2]
            simp only [List.length_cons, List.length_nil, Nat.zero_add, Nat.sub_zero] at hf ⊢
            have := Nat.mul_le_mul_right (s.useds.length + 1) (Nat.sub_le s.useds.length 1)
            omega
          obtain ⟨s', h', X, h1, h2, h3, h4, h5, h6⟩ :=
            ih S2 _ a.next [ka + 1] A' hc2 hD2 hA2 hf2
          have hm2 : S2.useds.map (fun n => n.mac) = s.useds.map (fun n => n.mac) := by
            rw [hu2]
            exact map_mac_set s.useds ha 0
          refine ⟨s', h', (ka + 1) :: X, E.trans h1, ?_, ?_, h4.trans hm2, h5, ?_⟩
          · rw [h2, ht2]
            exact List.set_set _ _ _ _
          · rw [hS2] at h3
            exact h3
          · intro x hx
            rw [hmacsA] at hx
            rcases List.mem_cons.mp hx with e | e
            · rw [e, List.nil_append, used_macs_cons ha]
              exact List.mem_cons_self _ _
            · rw [← used_macs_congr hm2] at e ⊢
              exact h6 x e
        | some l =>
          rw [hlast] at hud
          subst hud
          have hlD : l ∈ D := List.mem_of_getLast?_eq_some hlast
          obtain ⟨kl, hl, hkl⟩ := used_chain_valid D _ hD l hlD
          subst hl
          have hnl : s.useds[kl]? = some (s.useds[kl]) := List.getElem?_eq_getElem hkl
          have hl0 : (s.useds[kl]).next = 0 := by
            have := readULoc_node hnl
            rw [hv] at this
            cases this
            exact hv0.symm ▸ rfl
          have hne : kl ≠ ka := by
            intro e
            apply huaD
            rw [← e]
            exact hlD
          obtain ⟨S2, hS2⟩ : ∃ S2 : State, S2 = with_heaps s s.toks
              ((s.useds.set kl { s.useds[kl] with next := ka + 1 }).set ka
                { a with next := 0 }) := ⟨_, rfl⟩
          have E : usedmacro_merge_loop (f + 1) (ULoc.ofTok (kc + 1)) (ka + 1) s =
              usedmacro_merge_loop f (ULoc.ofTok (kc + 1)) a.next S2 := by
            rw [hS2, merge_unfold rfl ha hfind hv, if_neg hv1]
            exact merge_link_last rfl hnl rfl ha hne
              (fun x => usedmacro_merge_loop f (ULoc.ofTok (kc + 1)) x)
          have ht2 : S2.toks = s.toks := by rw [hS2]; rfl
          have hu2 : S2.useds = (s.useds.set kl { s.useds[kl] with next := ka + 1 }).set ka
              { a with next := 0 } := by rw [hS2]; rfl
          have hc2 : S2.toks[kc]? = some tc := by
            rw [ht2]
            exact hc
          have hD2 : used_chain S2 tc.used (D ++ [ka + 1]) = true :=
            used_chain_append rfl hnl hl0 rfl ha hu2 D tc.used hD hlD huaD
          have hlen2 : S2.useds.length = s.useds.length := by
            rw [hu2, List.length_set, List.length_set]
          have hm2 : S2.useds.map (fun n => n.mac) = s.useds.map (fun n => n.mac) := by
            rw [hu2, map_mac_set _ (by rw [set_get_other _ hne]; exact ha) 0,
              map_mac_set _ hnl]
          have hA2 : ∃ A2, used_chain S2 a.next A2 = true ∧ ∀ x ∈ A', x ∈ A2 := by
            by_cases hlA : kl + 1 ∈ A'
            · exact ⟨A' ++ [ka + 1],
                used_chain_append rfl hnl hl0 rfl ha hu2 A' a.next hA' hlA hnot,
                fun x hx => List.mem_append_left _ hx⟩
            · refine ⟨A', used_chain_congr A' a.next ?_ hA', fun x hx => hx⟩
              intro k hkA
              have hne1 : ka ≠ k := by
                intro e
                apply hnot
                rw [e]
                exact hkA
              have hne2 : kl ≠ k := by
                intro e
                apply hlA
                rw [e]
                exact hkA
              rw [hu2, set_get_other _ hne1, set_get_other _ hne2]
          obtain ⟨A2, hA2c, hA2s⟩ := hA2
          have hlenD2 := used_chain_length hD2
          have hlenA2 := used_chain_length hA2c
          rw [hlen2] at hlenD2 hlenA2
          have hf2 : (S2.useds.length - (D ++ [ka + 1]).length) * (S2.useds.length + 1) +
              A2.length + S2.useds.length + 2 ≤ f := by
            rw [hlen2]
            simp only [List.length_cons, List.length_nil, List.length_append,
              Nat.zero_add] at hf hlenD2 ⊢
            have hmul : (s.useds.length - (D.length + 1)) * (s.useds.length + 1) +
                (s.useds.length + 1) = (s.useds.length - D.length) * (s.useds.length + 1) := by
              have e : s.useds.length - D.length = (s.useds.length - (D.length + 1)) + 1 := by
                omega
              rw [e, Nat.succ_mul]
            omega
          obtain ⟨s', h', X, h1, h2, h3, h4, h5, h6⟩ :=
            ih S2 tc a.next (D ++ [ka + 1]) A2 hc2 hD2 hA2c hf2
          refine ⟨s', h', (ka + 1) :: X, E.trans h1, ?_, ?_, h4.trans hm2, ?_, ?_⟩
          · rw [h2, ht2]
          · rw [hS2] at h3
            exact h3
          · rw [List.append_assoc] at h5
            exact h5
          · intro x hx
            rw [hmacsA] at hx
            rcases List.mem_cons.mp hx with e | e
            · rw [e]
              exact used_macs_mem rfl ha (List.mem_append_right _ (List.mem_cons_self _ _))
            · have e2 := used_macs_subset (s := s) hA2s x e
              rw [← used_macs_congr hm2] at e2 ⊢
              have := h6 x e2
              rw [List.append_assoc] at this
              exact this

theorem setTok_run {s : State} {k : Nat} (h : k < s.toks.length) (t : Token) :
    setTok (k + 1) t s = Res.ok () (with_heaps s (s.toks.set k t) s.useds) := by
  simp [setTok, h, with_heaps]

theorem used_chain_same {s s' : State} (h : s'.useds = s.useds) (u : Ptr) (l : List Ptr)
    (hc : used_chain s u l = true) : used_chain s' u l = true :=
  used_chain_congr l u (fun k _ => by rw [h]) hc

/-- Storing the new token `L + 1` through a `Token **` that is a local or the
field `next` of an older token: the token is read back through it, also after
later changes of the new token. -/
theorem writeLoc_spec (S : State) (l : Locals) (taddr : Loc) (L : Nat) (x : Token)
    (hv : ∀ p, taddr = Loc.next p → ∃ kp : Nat, p = kp + 1 ∧ kp < L)
    (hL : S.toks[L]? = some x) :
    ∃ (l1 : Locals) (S' : State), writeLoc l taddr (L + 1) S = Res.ok l1 S' ∧
      S'.toks[L]? = some x ∧ S' = with_heaps S S'.toks S.useds ∧
      ∀ S3 : State, (∀ k, k ≠ L → S3.toks[k]? = S'.toks[k]?) →
        readLoc l1 taddr S3 = Res.ok (L + 1) S3 := by
  cases taddr with
  | head => exact ⟨{ l with head := L + 1 }, S, rfl, hL, rfl, fun S3 _ => rfl⟩
  | prev => exact ⟨{ l with prev := L + 1 }, S, rfl, hL, rfl, fun S3 _ => rfl⟩
  | next p =>
    obtain ⟨kp, hp, hkp⟩ := hv p rfl
    subst hp
    have hlt : kp < S.toks.length := Nat.lt_trans hkp (get_lt hL)
    have hne : kp ≠ L := Nat.ne_of_lt hkp
    have hg : S.toks[kp]? = some (S.toks[kp]) := List.getElem?_eq_getElem hlt
    refine ⟨l, with_heaps S (S.toks.set kp { S.toks[kp] with next := L + 1 }) S.useds,
      ?_, ?_, rfl, ?_⟩
    · show (setNext (kp + 1) (L + 1) >>= fun _ => pure l) S = _
      rw [bind_of_ok (setNext_run hg (L + 1))]
      rfl
    · show (S.toks.set kp _)[L]? = some x
      rw [set_get_other _ hne]
      exact hL
    · intro S3 h
      have h2 : S3.toks[kp]? = some { S.toks[kp] with next := L + 1 } := by
        rw [h kp hne]
        exact set_get_same hlt _
      show (tok (kp + 1) >>= fun t => pure t.next) S3 = _
      rw [bind_of_ok (tok_run h2)]
      rfl

/-- The substitution of a one-token argument: `token_replace_arg` returns, the
token it leaves at `*taddr` is a copy of the argument token, and the nodes of
the copy's used-macro set are those of the argument token, in their order and
with their macros, followed by the nodes linked in from the set of the
replaced parameter; every macro of the parameter's set is in the copy's set. -/
theorem token_replace_arg_one (fuel : Nat) (s : State) (l : Locals) (taddr : Loc)
    (c start : Ptr) (r st : Token) (D A : List Ptr)
    (hc : readLoc l taddr s = Res.ok c s) (hr : tok c s = Res.ok r s)
    (hst : tok start s = Res.ok st s) (hone : start ≠ st.next)
    (hD : used_chain s st.used D = true) (hA : used_chain s r.used A = true)
    (hf : (s.useds.length + 1) * (s.useds.length + 1) + s.useds.length + 2 ≤ fuel) :
    ∃ (l1 : Locals) (s1 : State) (d : Ptr) (rd : Token) (X : List Ptr),
      token_replace_arg fuel l taddr start st.next s = Res.ok (l1, taddr) s1 ∧
      readLoc l1 taddr s1 = Res.ok d s1 ∧ tok d s1 = Res.ok rd s1 ∧
      rd.id = st.id ∧ rd.pos = st.pos ∧ rd.len = st.len ∧ rd.next = r.next ∧
      used_chain s1 rd.used (D ++ X) = true ∧
      used_macs s1 D = used_macs s D ∧
      ∀ x ∈ used_macs s A, x ∈ used_macs s1 (D ++ X) := by
  obtain ⟨_, ks, hks, hgs⟩ := tok_inv hst
  subst hks
  have hlts := get_lt hgs
  obtain ⟨f, rfl⟩ : ∃ f, fuel = f + 1 := ⟨fuel - 1, by omega⟩
  -- the states of the run
  obtain ⟨sa, hsa⟩ : ∃ sa : State, sa = with_heaps s
      (s.toks.set ks { st with leadings := r.leadings }) s.useds := ⟨_, rfl⟩
  obtain ⟨sb, hsb⟩ : ∃ sb : State, sb = with_heaps s
      (s.toks.set ks { st with leadings := r.leadings } ++ [{ st with leadings := r.leadings }])
      s.useds := ⟨_, rfl⟩
  have hLa : (s.toks.set ks { st with leadings := r.leadings }).length = s.toks.length :=
    List.length_set _ _ _
  have e1 : setTok (ks + 1) { st with leadings := r.leadings } s = Res.ok () sa := by
    rw [hsa]
    exact setTok_run hlts _
  have e2 : token_dup (ks + 1) sa = Res.ok (s.toks.length + 1) sb := by
    have h : sa.toks[ks]? = some { st with leadings := r.leadings } := by
      rw [hsa]
      exact set_get_same hlts _
    rw [token_dup_run h, hsa, hsb]
    show Res.ok ((s.toks.set ks _).length + 1) _ = _
    rw [hLa]
    rfl
  have hv : ∀ p, taddr = Loc.next p → ∃ kp : Nat, p = kp + 1 ∧ kp < s.toks.length := by
    intro p hp
    subst hp
    obtain ⟨tp, s2, h1, _⟩ := bind_ok hc
    obtain ⟨_, kp, hkp, hg⟩ := tok_inv h1
    exact ⟨kp, hkp, get_lt hg⟩
  have hbL : sb.toks[s.toks.length]? = some { st with leadings := r.leadings } := by
    rw [hsb]
    show (s.toks.set ks _ ++ [_])[s.toks.length]? = _
    rw [← hLa]
    exact app_get0 _ _ _
  obtain ⟨l1, sc, hW, hcL, hcF, hR⟩ := writeLoc_spec sb l taddr s.toks.length _ hv hbL
  have hcu : sc.useds = s.useds := by
    rw [hcF, hsb]
    rfl
  have hD2 : used_chain sc ({ st with leadings := r.leadings } : Token).used D = true :=
    used_chain_same hcu _ _ hD
  have hA2 : used_chain sc r.used A = true := used_chain_same hcu _ _ hA
  have hlenD := used_chain_length hD
  have hlenA := used_chain_length hA
  have hf2 : (sc.useds.length - D.length) * (sc.useds.length + 1) + A.length +
      sc.useds.length + 2 ≤ f := by
    rw [hcu]
    have h1 := Nat.mul_le_mul_right (s.useds.length + 1) (Nat.sub_le s.useds.length D.length)
    have h2 : (s.useds.length + 1) * (s.useds.length + 1) =
        s.useds.length * (s.useds.length + 1) + (s.useds.length + 1) := Nat.succ_mul _ _
    omega
  obtain ⟨sd, h', X, hM, hdT, hdF, hdM, hdC, hdI⟩ :=
    usedmacro_merge_spec s.toks.length f sc _ r.used D A hcL hD2 hA2 hf2
  have hRd : readLoc l1 taddr sd = Res.ok (s.toks.length + 1) sd := by
    apply hR
    intro k hk
    rw [hdT]
    exact set_get_other _ (Ne.symm hk) _
  have hcLlt := get_lt hcL
  have hdL : sd.toks[s.toks.length]? =
      some { st with leadings := r.leadings, used := h' } := by
    rw [hdT]
    exact set_get_same hcLlt _
  obtain ⟨se, hse⟩ : ∃ se : State, se = with_heaps sd
      (sd.toks.set s.toks.length { st with leadings := r.leadings, used := h', next := r.next })
      sd.useds := ⟨_, rfl⟩
  have e5 : setNext (s.toks.length + 1) r.next sd = Res.ok () se := by
    rw [hse]
    exact setNext_run hdL r.next
  have hRe : readLoc l1 taddr se = Res.ok (s.toks.length + 1) se := by
    apply hR
    intro k hk
    rw [hse]
    show (sd.toks.set _ _)[k]? = _
    rw [set_get_other _ (Ne.symm hk), hdT]
    exact set_get_other _ (Ne.symm hk) _
  have heL : se.toks[s.toks.length]? =
      some { st with leadings := r.leadings, used := h', next := r.next } := by
    rw [hse]
    exact set_get_same (get_lt hdL) _
  have heu : se.useds = sd.useds := by rw [hse]; rfl
  have hloop : token_replace_arg_loop (f + 1) l taddr (ks + 1) st.next r.used sa =
      Res.ok (l1, taddr) sd := by
    rw [token_replace_arg_loop, if_neg hone, bind_of_ok e2, bind_of_ok hW]
    have hRc : readLoc l1 taddr sc = Res.ok (s.toks.length + 1) sc := hR sc (fun _ _ => rfl)
    rw [bind_of_ok hRc]
    have hM2 : usedmacro_merge f (ULoc.ofTok (s.toks.length + 1)) r.used sc = Res.ok () sd := hM
    rw [bind_of_ok hM2, bind_of_ok hRd, bind_of_ok (tok_run hdL)]
    rw [if_pos rfl]
    rfl
  refine ⟨l1, se, s.toks.length + 1, _, X, ?_, hRe, tok_run heL, rfl, rfl, rfl, rfl, ?_, ?_, ?_⟩
  · unfold token_replace_arg
    rw [bind_of_ok hc, bind_of_ok hr, bind_of_ok hst, bind_of_ok e1, bind_of_ok hloop]
    simp only
    rw [bind_of_ok hRd, bind_of_ok e5]
    rfl
  · exact used_chain_same heu _ _ hdC
  · have hm : se.useds.map (fun n => n.mac) = s.useds.map (fun n => n.mac) := by
      rw [heu, hdM, hcu]
    exact used_macs_congr hm D
  · intro x hx
    have hm : se.useds.map (fun n => n.mac) = s.useds.map (fun n => n.mac) := by
      rw [heu, hdM, hcu]
    have hm2 : sc.useds.map (fun n => n.mac) = s.useds.map (fun n => n.mac) := by
      rw [hcu]
    rw [used_macs_congr hm]
    rw [← used_macs_congr hm2] at hx ⊢
    exact hdI x hx

/-- C5: a macro that is in the used-macro set of an argument token is in the
set of the token substituted for the parameter.  In every state, for a
parameter token at `*taddr` and an argument of one token `start` whose
used-macro lists are well formed, `token_replace_arg` returns within the
budget; the token it leaves at `*taddr` has the kind and the text of `start`,
and its used-macro list is the list of `start`, node for node and with the
same macros, followed by nodes `X` linked in from the list of the parameter, so
that every macro of the parameter's list is in it as well.  In `a1(b1(b1))`
the argument is expanded to the one token `b1`, which carries `b1`; the copy
substituted for `f` keeps it and gains `a1`, so the rescan leaves `b1(4)`
alone. -/
theorem C5_used_set_survives_substitution (fuel : Nat) (s : State) (l : Locals) (taddr : Loc)
    (c start : Ptr) (r st : Token) (D A : List Ptr)
    (hc : readLoc l taddr s = Res.ok c s) (hr : tok c s = Res.ok r s)
    (hst : tok start s = Res.ok st s) (hone : start ≠ st.next)
    (hD : used_chain s st.used D = true) (hA : used_chain s r.used A = true)
    (hf : (s.useds.length + 1) * (s.useds.length + 1) + s.useds.length + 2 ≤ fuel) :
    (∃ (l1 : Locals) (s1 : State) (d : Ptr) (rd : Token) (X : List Ptr),
      token_replace_arg fuel l taddr start st.next s = Res.ok (l1, taddr) s1 ∧
      readLoc l1 taddr s1 = Res.ok d s1 ∧ tok d s1 = Res.ok rd s1 ∧
      rd.id = st.id ∧ rd.pos = st.pos ∧ rd.len = st.len ∧ rd.next = r.next ∧
      used_chain s1 rd.used (D ++ X) = true ∧
      used_macs s1 D = used_macs s D ∧
      ∀ x ∈ used_macs s A, x ∈ used_macs s1 (D ++ X)) ∧
    output_tokens 1000 "#define a1(f) f(4)\n#define b1(x) x\na1(b1(b1))\n" =
      some [plain Kind.TK_SPACES "",
        { id := Kind.TK_IDENT, text := "b1", used := ["b1", "a1"] },
        { id := Kind.TK_RESERVED, text := "(", used := ["a1"] },
        { id := Kind.TK_NUM, text := "4", used := ["a1"] },
        { id := Kind.TK_RESERVED, text := ")", used := ["a1"] },
        plain Kind.TK_NEWLINE "\n", plain Kind.TK_EOF ""] ∧
    preprocess 1000 "#define a1(f) f(4)\n#define b1(x) x\na1(b1(b1))\n" =
      Outcome.out "b1(4)\n" :=
  ⟨token_replace_arg_one fuel s l taddr c start r st D A hc hr hst hone hD hA hf,
    used_set_example.1, used_set_example.2⟩

theorem C5_used_set_survives_substitution_witness :
    readLoc { head := 1, prev := 0 } Loc.head subst_example = Res.ok 1 subst_example ∧
    tok 1 subst_example = Res.ok subst_param subst_example ∧
    tok 2 subst_example = Res.ok subst_arg subst_example ∧
    (2 : Ptr) ≠ subst_arg.next ∧
    used_chain subst_example subst_arg.used [2] = true ∧
    used_chain subst_example subst_param.used [1] = true ∧
    (subst_example.useds.length + 1) * (subst_example.useds.length + 1) +
      subst_example.useds.length + 2 ≤ 13 ∧
    ((∃ (l1 : Locals) (s1 : State) (d : Ptr) (rd : Token) (X : List Ptr),
      token_replace_arg 13 { head := 1, prev := 0 } Loc.head 2 subst_arg.next subst_example =
        Res.ok (l1, Loc.head) s1 ∧
      readLoc l1 Loc.head s1 = Res.ok d s1 ∧ tok d s1 = Res.ok rd s1 ∧
      rd.id = subst_arg.id ∧ rd.pos = subst_arg.pos ∧ rd.len = subst_arg.len ∧
      rd.next = subst_param.next ∧
      used_chain s1 rd.used ([2] ++ X) = true ∧
      used_macs s1 [2] = used_macs subst_example [2] ∧
      ∀ x ∈ used_macs subst_example [1], x ∈ used_macs s1 ([2] ++ X)) ∧
    output_tokens 1000 "#define a1(f) f(4)\n#define b1(x) x\na1(b1(b1))\n" =
      some [plain Kind.TK_SPACES "",
        { id := Kind.TK_IDENT, text := "b1", used := ["b1", "a1"] },
        { id := Kind.TK_RESERVED, text := "(", used := ["a1"] },
        { id := Kind.TK_NUM, text := "4", used := ["a1"] },
        { id := Kind.TK_RESERVED, text := ")", used := ["a1"] },
        plain Kind.TK_NEWLINE "\n", plain Kind.TK_EOF ""] ∧
    preprocess 1000 "#define a1(f) f(4)\n#define b1(x) x\na1(b1(b1))\n" =
      Outcome.out "b1(4)\n") :=
  ⟨rfl, rfl, rfl, by decide, by decide, by decide, by decide,
    C5_used_set_survives_substitution 13 subst_example { head := 1, prev := 0 } Loc.head 1 2
      subst_param subst_arg [2] [1] rfl rfl rfl (by decide) (by decide) (by decide)
      (by decide)⟩

end Prep
